import Mathlib

/-! Topographica: dense connection-field kernels and sparse-matrix kernels.

A shallow embedding of `topo/optimized/optimized.h` (the dense per-unit kernels) and of
`topo/sparse/SparseMatrixExt.cpp` (the compressed-column kernels).

Modelling conventions.

* `float` and `double` values are exact rationals (`ℚ`): the theorems are about the arithmetic
  the code performs, not about IEEE rounding, infinities or NaN. In particular `1/0` is the
  model's `0`, where the C code produces an infinity.
* A C pointer (`double X[]`, `float *weights`, ...) is a function `Nat → ℚ` from the offset to
  the value stored there; a store through the pointer is `Function.update`.
* `int` indices and bounds are natural numbers; the element count `rc` of
  `divisive_normalize_l1`, a product of two differences, is computed in `Int` as in C.
* A `#pragma omp parallel for` loop whose body declares every variable that it writes is run
  in index order: an iteration writes to its own unit only. `dot_product` declares its loop
  counters `i`, `j` before the pragma, so that the threads of a team share them; it is
  modelled as a team of threads that take steps in an interleaved order, and
  `dot_product_serial` is the same loop run in index order.
-/

namespace Topographica

/-! ## Loops -/

/-- Iterations `i, i+1, ..., i+n-1` of a loop body over a state. -/
def loopFrom {σ : Type} (body : Nat → σ → σ) : Nat → Nat → σ → σ
  | _, 0, s => s
  | i, n + 1, s => loopFrom body (i + 1) n (body i s)

/-- The C loop `for (i = lo; i < hi; ++i) body`. -/
def forLoop {σ : Type} (lo hi : Nat) (body : Nat → σ → σ) (s : σ) : σ :=
  loopFrom body lo (hi - lo) s

/-! ## Dense connection fields -/

/-- A connection field, as the kernels see it through its slots.

* `weights`: the data pointer of the weights array; `strides` are the strides of its two
  axes, counted in elements (the C code has them in bytes, 4 per `float`);
* `mask`: the data pointer of the mask array, of the same shape;
* `input_sheet_slice`: the four bounds `(r1, r2, c1, c2)`;
* `_norm_total`, `_has_norm_total`: the cached sum and its flag (an `int`, 0 for false). -/
structure CF where
  weights : Nat → ℚ
  strides : Nat × Nat
  mask : Nat → ℚ
  input_sheet_slice : Nat × Nat × Nat × Nat
  _norm_total : ℚ
  _has_norm_total : Int

/-- The constant `MASK_THRESHOLD`. -/
def MASK_THRESHOLD : ℚ := 1 / 2

/-- The in-place mutation of the object `PyList_GetItem(cfs, r)`. Beyond the end of the list
`PyList_GetItem` returns `NULL`, which the C code dereferences; the model leaves the list
unchanged there. -/
def withCF (cfs : List CF) (r : Nat) (f : CF → CF) : List CF :=
  match cfs[r]? with
  | none => cfs
  | some cf => cfs.set r (f cf)

/-- The body of `dot_product` for one connection field: the value `tot` after the loop nest.
The loop state is `(tot, xi)`, resp. `(tot, xj)`, the pointers being offsets into `X`. -/
def dot_product_cf (X : Nat → ℚ) (icols : Nat) (cf : CF) : ℚ :=
  let data := cf.weights
  let s0 := cf.strides.1
  let s1 := cf.strides.2
  let (rr1, rr2, cc1, cc2) := cf.input_sheet_slice
  let tot : ℚ := 0
  let xj := icols * rr1 + cc1
  (forLoop rr1 rr2 (fun i (s : ℚ × Nat) =>
    let xi := s.2
    let t := forLoop cc1 cc2 (fun j (t : ℚ × Nat) =>
      (t.1 + data ((i - rr1) * s0 + (j - cc1) * s1) * X t.2, t.2 + 1)) (s.1, xi)
    (t.1, s.2 + icols)) (tot, xj)).1

/-- The `r` loop of `dot_product` run in index order, each iteration to its end before the
next: the contents of `temp_act` after it. -/
def dot_product_serial (mask X : Nat → ℚ) (strength : ℚ) (icols : Nat) (temp_act : Nat → ℚ)
    (cfs : List CF) (num_cfs : Nat) : Nat → ℚ :=
  forLoop 0 num_cfs (fun r temp_act =>
    if mask r = 0 then
      Function.update temp_act r 0
    else
      match cfs[r]? with
      | none => temp_act
      | some cf => Function.update temp_act r (dot_product_cf X icols cf * strength)) temp_act

/-- The place of a thread inside the body of the `r` loop of `dot_product`: before the test
of `mask[r]`, at the test `i<rr2`, or at the test `j<cc2`. -/
inductive DotPc where
  | unit
  | rows
  | cols

/-- The variables of `dot_product` that each thread has for itself: the iterations `r` that
it still has to run (the first being the current one), its place in the body, and `tot`,
`xj`, `xi`, which the body declares. -/
structure DotThread where
  work : List Nat
  pc : DotPc
  tot : ℚ
  xj : Nat
  xi : Nat

/-- The variables of `dot_product` that the threads of a team share: the loop counters `i`
and `j`, declared before the pragma, and the buffer `temp_act`. `stray` records that a
weight was read with `i < rr1` or `j < cc1`, where the C code reads before the start of the
buffer. -/
structure DotShared where
  i : Nat
  j : Nat
  temp_act : Nat → ℚ
  stray : Bool

/-- One step of a thread of `dot_product` on the iteration `r` that it has at hand.

* At `unit`: the test of `mask[r]`, then either the store `temp_act[r] = 0`, or the lookups,
  `tot = 0.0`, the first value of `xj` and the store `i = rr1`.
* At `rows`: the test `i<rr2`, then either `xi = xj` and the store `j = cc1`, or the store
  `temp_act[r] = tot*strength`, which ends the iteration.
* At `cols`: the test `j<cc2`, then either one pass through the body of the `j` loop and
  `++j`, or `xj += icols` and `++i`.

Every read and every store of `i` and `j` goes to the shared variable. A step is taken as a
whole; an order of such steps is also an order of their single reads and stores. Beyond the
end of the list, where `PyList_GetItem` returns `NULL`, the model skips the unit, as
`dot_product_serial` does. -/
def dot_product_thread (mask X : Nat → ℚ) (strength : ℚ) (icols : Nat) (cfs : List CF)
    (s : DotShared) (t : DotThread) : DotShared × DotThread :=
  match t.work with
  | [] => (s, t)
  | r :: rest =>
    match t.pc with
    | DotPc.unit =>
      if mask r = 0 then
        ({ s with temp_act := Function.update s.temp_act r 0 }, { t with work := rest })
      else
        match cfs[r]? with
        | none => (s, { t with work := rest })
        | some cf =>
          let (rr1, _, cc1, _) := cf.input_sheet_slice
          ({ s with i := rr1 }, { t with pc := DotPc.rows, tot := 0, xj := icols * rr1 + cc1 })
    | DotPc.rows =>
      match cfs[r]? with
      | none => (s, { t with work := rest, pc := DotPc.unit })
      | some cf =>
        let (_, rr2, cc1, _) := cf.input_sheet_slice
        if s.i < rr2 then
          ({ s with j := cc1 }, { t with pc := DotPc.cols, xi := t.xj })
        else
          ({ s with temp_act := Function.update s.temp_act r (t.tot * strength) },
            { t with work := rest, pc := DotPc.unit })
    | DotPc.cols =>
      match cfs[r]? with
      | none => (s, { t with work := rest, pc := DotPc.unit })
      | some cf =>
        let data := cf.weights
        let s0 := cf.strides.1
        let s1 := cf.strides.2
        let (rr1, _, cc1, cc2) := cf.input_sheet_slice
        if s.j < cc2 then
          ({ s with j := s.j + 1, stray := s.stray || decide (s.i < rr1 ∨ s.j < cc1) },
            { t with tot := t.tot + data ((s.i - rr1) * s0 + (s.j - cc1) * s1) * X t.xi,
                     xi := t.xi + 1 })
        else
          ({ s with i := s.i + 1 }, { t with pc := DotPc.rows, xj := t.xj + icols })

/-- A team of threads in the parallel region of `dot_product`: what they share and what each
has for itself. -/
structure DotTeam where
  shared : DotShared
  threads : List DotThread

/-- One step of thread `k` of the team. -/
def dot_product_step (mask X : Nat → ℚ) (strength : ℚ) (icols : Nat) (cfs : List CF)
    (s : DotTeam) (k : Nat) : DotTeam :=
  match s.threads[k]? with
  | none => s
  | some t =>
    let u := dot_product_thread mask X strength icols cfs s.shared t
    { shared := u.1, threads := s.threads.set k u.2 }

/-- The team when it enters the parallel region: `nthreads` threads, thread `k` with the
iterations `r < num_cfs` that `owner` gives to it, in ascending order. `i` and `j` have no
initial value in C, and no thread reads one of them before it has stored to it; the model
starts them at 0. -/
def dot_product_start (temp_act : Nat → ℚ) (num_cfs nthreads : Nat) (owner : Nat → Nat) :
    DotTeam :=
  { shared := { i := 0, j := 0, temp_act := temp_act, stray := false },
    threads := (List.range nthreads).map (fun k =>
      { work := (List.range num_cfs).filter (fun r => owner r = k), pc := DotPc.unit,
        tot := 0, xj := 0, xi := 0 }) }

/-- The function `dot_product`: the team after the steps that `sched` lists, each entry
being the number of the thread that moves. `owner r` is the thread to which the runtime
hands iteration `r`; under `schedule(guided, 8)` it hands out chunks of at least 8 consecutive
iterations, the last chunk apart. The call returns when every thread has run out of
iterations (`DotTeam.finished`), and `shared.temp_act` is then what it leaves in `temp_act`. -/
def dot_product (mask X : Nat → ℚ) (strength : ℚ) (icols : Nat) (temp_act : Nat → ℚ)
    (cfs : List CF) (num_cfs : Nat) (nthreads : Nat) (owner : Nat → Nat) (sched : List Nat) :
    DotTeam :=
  sched.foldl (dot_product_step mask X strength icols cfs)
    (dot_product_start temp_act num_cfs nthreads owner)

/-- All threads of the team have run their iterations. -/
def DotTeam.finished (s : DotTeam) : Bool := s.threads.all (fun t => t.work.isEmpty)

/-- The loop nest of `euclidean_response` for one connection field: the value `tot` after it.
The loop state is `(tot, xi, wi)`, resp. `(tot, xj, wj)`, with `xi`, `xj` offsets into
`input_activity` and `wi`, `wj` offsets into the weights. -/
def euclidean_tot (input_activity : Nat → ℚ) (icols : Nat) (cf : CF) : ℚ :=
  let (rr1, rr2, cc1, cc2) := cf.input_sheet_slice
  let xj := icols * rr1 + cc1
  let tot : ℚ := 0
  (forLoop rr1 rr2 (fun _ (u : ℚ × Nat × Nat) =>
    let v := forLoop cc1 cc2 (fun _ (v : ℚ × Nat × Nat) =>
      let diff := cf.weights v.2.2 - input_activity v.2.1
      (v.1 + diff * diff, v.2.1 + 1, v.2.2 + 1)) (u.1, u.2.1, u.2.2)
    (v.1, u.2.1 + icols, u.2.2 + (cc2 - cc1))) (tot, xj, 0)).1

/-- The function `euclidean_response`: the contents of `temp_act` after the call, `sqrt`
being the square root of the C library. The state of the first loop is
`(temp_act, tact, max_dist)`, that of the second `(temp_act, tact)`, with `tact` an offset
into `temp_act`. Beyond the end of the list, where `PyList_GetItem` returns `NULL`, the
model skips the unit. -/
def euclidean_response (sqrt : ℚ → ℚ) (input_activity : Nat → ℚ) (strength : ℚ) (icols : Nat)
    (temp_act : Nat → ℚ) (cfs : List CF) (num_cfs : Nat) : Nat → ℚ :=
  let max_dist : ℚ := 0
  let s := forLoop 0 num_cfs (fun r (s : (Nat → ℚ) × Nat × ℚ) =>
    match cfs[r]? with
    | none => s
    | some cf =>
      let tot := euclidean_tot input_activity icols cf
      let euclidean_distance := sqrt tot
      let max_dist := if euclidean_distance > s.2.2 then euclidean_distance else s.2.2
      (Function.update s.1 s.2.1 euclidean_distance, s.2.1 + 1, max_dist)) (temp_act, 0, max_dist)
  (forLoop 0 num_cfs (fun _ (t : (Nat → ℚ) × Nat) =>
    (Function.update t.1 t.2 (strength * (s.2.2 - t.1 t.2)), t.2 + 1)) (s.1, 0)).1

/-- The state of the scan of one weight patch by a learning rule: the contents of the
weight buffer, the offsets of the pointers `weights` and `mask` into their buffers, and the
running `total`. -/
@[ext]
structure Scan where
  buf : Nat → ℚ
  weights : Nat
  mask : Nat
  total : ℚ

/-- One cell of the scan, the body of the inner loop that `hebbian`, `bcm_fixed` and
`trace_learning` share: `rule w inp` is the value the learning rule stores in a cell that
held `w`, with `inp = *inpi`. The second component of the state is the offset `inpi`. -/
def learn_cell (rule : ℚ → ℚ → ℚ) (input_activity mask : Nat → ℚ) (t : Scan × Nat) : Scan × Nat :=
  let u : Scan :=
    if mask t.1.mask ≥ MASK_THRESHOLD then
      let w := rule (t.1.buf t.1.weights) (input_activity t.2)
      { t.1 with buf := Function.update t.1.buf t.1.weights w, total := t.1.total + |w| }
    else t.1
  ({ u with mask := u.mask + 1, weights := u.weights + 1 }, t.2 + 1)

/-- The loop nest that `hebbian`, `bcm_fixed` and `trace_learning` share, and the stores to
`_norm_total` and `_has_norm_total` that follow it. The state of the outer loop is the scan
and the offset `inpj`. -/
def learn_cf (rule : ℚ → ℚ → ℚ) (input_activity : Nat → ℚ) (icols : Nat) (cf : CF) : CF :=
  let (rr1, rr2, cc1, cc2) := cf.input_sheet_slice
  let total : ℚ := 0
  let inpj := icols * rr1 + cc1
  let s := (forLoop rr1 rr2 (fun _ (s : Scan × Nat) =>
    let inpi := s.2
    let t := forLoop cc1 cc2 (fun _ t => learn_cell rule input_activity cf.mask t) (s.1, inpi)
    (t.1, s.2 + icols)) (⟨cf.weights, 0, 0, total⟩, inpj)).1
  { cf with weights := s.buf, _norm_total := s.total, _has_norm_total := 1 }

/-- The function `hebbian`: the collection after the call. -/
def hebbian (input_activity output_activity sheet_mask : Nat → ℚ) (num_cfs icols : Nat)
    (cfs : List CF) (single_connection_learning_rate : ℚ) : List CF :=
  forLoop 0 num_cfs (fun r cfs =>
    let load := output_activity r
    if load ≠ 0 ∧ sheet_mask r ≠ 0 then
      let load := load * single_connection_learning_rate
      withCF cfs r (learn_cf (fun w inp => w + load * inp) input_activity icols)
    else cfs) cfs

/-- The function `bcm_fixed`: the collection after the call. -/
def bcm_fixed (input_activity output_activity : Nat → ℚ) (num_cfs icols : Nat)
    (cfs : List CF) (single_connection_learning_rate unit_threshold : ℚ) : List CF :=
  forLoop 0 num_cfs (fun r cfs =>
    let load := output_activity r
    let unit_activity := load
    if load ≠ 0 then
      let load := load * single_connection_learning_rate
      withCF cfs r (learn_cf (fun w inp =>
        let w := w + load * inp * (unit_activity - unit_threshold)
        if w < 0 then 0 else w) input_activity icols)
    else cfs) cfs

/-- The function `trace_learning`: the collection after the call. -/
def trace_learning (input_activity traces : Nat → ℚ) (num_cfs icols : Nat)
    (cfs : List CF) (single_connection_learning_rate : ℚ) : List CF :=
  forLoop 0 num_cfs (fun r cfs =>
    let load := traces r
    if load ≠ 0 then
      let load := load * single_connection_learning_rate
      withCF cfs r (learn_cf (fun w inp => w + load * inp) input_activity icols)
    else cfs) cfs

/-- The macro `SUM_NORM_TOTAL`: the value it stores in `_norm_total[0]`. `weights` is the
offset of the pointer it is given; the loop state is `(mask, weights_init, total)`. -/
def SUM_NORM_TOTAL (cf : CF) (weights : Nat) (rr1 rr2 cc1 cc2 : Nat) : ℚ :=
  let total : ℚ := 0
  let weights_init := weights
  (forLoop rr1 rr2 (fun _ (s : Nat × Nat × ℚ) =>
    forLoop cc1 cc2 (fun _ (t : Nat × Nat × ℚ) =>
      let total := if cf.mask t.1 ≥ MASK_THRESHOLD then t.2.2 + |cf.weights t.2.1| else t.2.2
      (t.1 + 1, t.2.1 + 1, total)) s) (0, weights_init, total)).2.2

/-- The body of `divisive_normalize_l1` for one connection field that passes the gate. The
state of the scaling loop is the weight buffer and the offset of the pointer `weights`. For
`_norm_total = 0` the C code's `factor` is the infinity `1.0/0` and the weights it leaves are
infinite or NaN; the model's `factor` is then 0, and what it says of the scaled weights holds
of the code for a nonzero `_norm_total` only. -/
def normalize_cf (cf : CF) : CF :=
  let (rr1, rr2, cc1, cc2) := cf.input_sheet_slice
  let _norm_total :=
    if cf._has_norm_total = 0 then SUM_NORM_TOTAL cf 0 rr1 rr2 cc1 cc2 else cf._norm_total
  let factor := 1 / _norm_total
  let rc : Int := ((rr2 : Int) - (rr1 : Int)) * ((cc2 : Int) - (cc1 : Int))
  let s := forLoop 0 rc.toNat (fun _ (s : (Nat → ℚ) × Nat) =>
    (Function.update s.1 s.2 (s.1 s.2 * factor), s.2 + 1)) (cf.weights, 0)
  { cf with weights := s.1, _norm_total := _norm_total, _has_norm_total := 0 }

/-- The function `divisive_normalize_l1`: the collection after the call. -/
def divisive_normalize_l1 (sheet_mask active_units_mask : Nat → ℚ) (cfs : List CF)
    (num_cfs : Nat) : List CF :=
  forLoop 0 num_cfs (fun r cfs =>
    if active_units_mask r ≠ 0 ∧ sheet_mask r ≠ 0 then withCF cfs r normalize_cf else cfs) cfs

/-! ## The sparse matrix -/

/-- Modelled from the spec: the Eigen class `SparseMatrix<T, ColMajor>` that `SparseMatrixExt`
extends, a library class whose source is not part of the repository: "a compressed sparse
column matrix of floating values" whose iteration "follows column-major storage: outer loop
over columns, inner loop over the column's stored (row, value) pairs". `innerSize` is the
number of rows; `outer` holds, for each column, its stored `(row, value)` pairs in storage
order, so that the number of columns `outerSize()` is its length. -/
structure SparseMatrixExt where
  innerSize : Nat
  outer : List (List (Nat × ℚ))

/-- The number of columns, `outerSize()`. -/
def SparseMatrixExt.outerSize (m : SparseMatrixExt) : Nat := m.outer.length

/-- The entries `(it.row(), it.value())` that `InnerIterator it(*this, k)` visits, in order
(`it.col()` is `k`). -/
def SparseMatrixExt.inner (m : SparseMatrixExt) (k : Nat) : List (Nat × ℚ) := m.outer.getD k []

/-- Modelled from the spec: the insertion of one triplet into a column of Eigen's
`setFromTriplets` (library code, not in the repository). The rows of a column are kept in
ascending order, and the value of a triplet that repeats a stored position is added to the
stored value, as Eigen documents. -/
def insertCoeff (col : List (Nat × ℚ)) (row : Nat) (v : ℚ) : List (Nat × ℚ) :=
  match col with
  | [] => [(row, v)]
  | e :: rest =>
    if row < e.1 then (row, v) :: e :: rest
    else if row = e.1 then (e.1, e.2 + v) :: rest
    else e :: insertCoeff rest row v

/-- Modelled from the spec: the step of Eigen's `setFromTriplets` (library code, not in the
repository) for one triplet `(row, col, value)`. A triplet whose column is outside the
matrix, which Eigen rejects by an assertion, is ignored. -/
def SparseMatrixExt.addTriplet (m : SparseMatrixExt) (t : Nat × Nat × ℚ) : SparseMatrixExt :=
  { m with outer := m.outer.modify (fun col => insertCoeff col t.1 t.2.2) t.2.1 }

/-- Modelled from the spec: Eigen's `setFromTriplets` (library code, not in the repository),
the "bulk construction from a coordinate list" that "replaces existing contents". The
dimensions are kept. -/
def SparseMatrixExt.setFromTriplets (m : SparseMatrixExt) (tripletList : List (Nat × Nat × ℚ)) :
    SparseMatrixExt :=
  tripletList.foldl SparseMatrixExt.addTriplet { m with outer := List.replicate m.outerSize [] }

/-- The method `setTriplets`: the matrix after the call. -/
def SparseMatrixExt.setTriplets (m : SparseMatrixExt) (is js : Nat → Nat) (vs : Nat → ℚ)
    (n : Nat) : SparseMatrixExt :=
  let tripletList : List (Nat × Nat × ℚ) :=
    forLoop 0 n (fun i tripletList => tripletList ++ [(is i, js i, vs i)]) []
  m.setFromTriplets tripletList

/-- The method `DotProduct`: the contents of `activity` after the call. -/
def SparseMatrixExt.DotProduct (m : SparseMatrixExt) (num_cfs : Nat) (strength : ℚ)
    (input activity : Nat → ℚ) : Nat → ℚ :=
  let activity := forLoop 0 m.outerSize (fun k activity =>
    (m.inner k).foldl (fun activity (it : Nat × ℚ) =>
      Function.update activity k (activity k + input it.1 * it.2)) activity) activity
  forLoop 0 num_cfs (fun j activity => Function.update activity j (activity j * strength))
    activity

/-- The method `DotProduct_opt`: the contents of `activity` after the call. -/
def SparseMatrixExt.DotProduct_opt (m : SparseMatrixExt) (num_cfs : Nat) (strength : ℚ)
    (input activity : Nat → ℚ) : Nat → ℚ :=
  let epsilon : ℚ := 1 / 1000000
  let activity := forLoop 0 m.outerSize (fun k activity =>
    (m.inner k).foldl (fun activity (it : Nat × ℚ) =>
      let src := input it.1
      if src ≥ epsilon then Function.update activity k (activity k + src * it.2)
      else activity) activity) activity
  forLoop 0 num_cfs (fun j activity => Function.update activity j (activity j * strength))
    activity

/-- The method `Hebbian`: the matrix and the contents of `norm_total` after the call. The
iterator visits the stored entries of column `k` in order and rewrites each value through
`valueRef`; the state of the inner loop is the part of the column already rewritten and
`norm_total`. -/
def SparseMatrixExt.Hebbian (m : SparseMatrixExt) (src_act dest_act norm_total : Nat → ℚ)
    (lr : ℚ) : SparseMatrixExt × (Nat → ℚ) :=
  forLoop 0 m.outerSize (fun k (s : SparseMatrixExt × (Nat → ℚ)) =>
    let t := (s.1.inner k).foldl (fun (t : List (Nat × ℚ) × (Nat → ℚ)) (it : Nat × ℚ) =>
      let y := k
      let value := it.2 + dest_act y * lr * src_act it.1
      (t.1 ++ [(it.1, value)], Function.update t.2 y (t.2 y + value))) ([], s.2)
    ({ s.1 with outer := s.1.outer.set k t.1 }, t.2)) (m, norm_total)

/-- The method `Hebbian_opt`: the matrix and the contents of `norm_total` after the call,
with the state of `Hebbian`. -/
def SparseMatrixExt.Hebbian_opt (m : SparseMatrixExt) (src_act dest_act norm_total : Nat → ℚ)
    (lr : ℚ) : SparseMatrixExt × (Nat → ℚ) :=
  let epsilon : ℚ := 1 / 1000000
  forLoop 0 m.outerSize (fun k (s : SparseMatrixExt × (Nat → ℚ)) =>
    let t := (s.1.inner k).foldl (fun (t : List (Nat × ℚ) × (Nat → ℚ)) (it : Nat × ℚ) =>
      let y := k
      let src := src_act it.1
      let dest := dest_act y
      let value := if src ≥ epsilon ∧ dest ≥ epsilon then it.2 + dest * lr * src else it.2
      (t.1 ++ [(it.1, value)], Function.update t.2 y (t.2 y + value))) ([], s.2)
    ({ s.1 with outer := s.1.outer.set k t.1 }, t.2)) (m, norm_total)

/-- Modelled from the spec: the placement of one new entry in a column by Eigen's
`insert(row, col)` (library code, not in the repository), which keeps the rows of the column
in ascending order. Eigen requires that the position is not stored yet; the model replaces
the value of a position that is. -/
def insertEntry (col : List (Nat × ℚ)) (row : Nat) (v : ℚ) : List (Nat × ℚ) :=
  match col with
  | [] => [(row, v)]
  | e :: rest =>
    if row < e.1 then (row, v) :: e :: rest
    else if row = e.1 then (row, v) :: rest
    else e :: insertEntry rest row v

/-- Modelled from the spec: Eigen's `insert(row, col) = value` (library code, not in the
repository). The row is not checked against the number of rows of the matrix. -/
def SparseMatrixExt.insert (m : SparseMatrixExt) (row col : Nat) (value : ℚ) :
    SparseMatrixExt :=
  { m with outer := m.outer.modify (fun c => insertEntry c row value) col }

/-- Modelled from the spec: the coefficient that Eigen's `coeff(row, col)` finds in a column
(library code, not in the repository): the value stored for the row, 0 when none is. -/
def coeffCol (col : List (Nat × ℚ)) (row : Nat) : ℚ :=
  match col.find? (fun e => e.1 == row) with
  | some e => e.2
  | none => 0

/-- Modelled from the spec: Eigen's `coeff(row, col)` (library code, not in the
repository). -/
def SparseMatrixExt.coeff (m : SparseMatrixExt) (row col : Nat) : ℚ :=
  coeffCol (m.inner col) row

/-- The `while` loop of `slice`, on the scan pointer `size1Ind` and the log of the positions
of `array1` that were read: every test of the loop condition reads `array1[size1Ind]` before
it compares `size1Ind` with `size1`. -/
def sliceWhile (array1 : Nat → Nat) (size1 row : Nat) (size1Ind : Nat) (reads : List Nat) :
    Nat × List Nat :=
  if _h : array1 size1Ind < row ∧ size1Ind < size1 then
    sliceWhile array1 size1 row (size1Ind + 1) (reads ++ [size1Ind])
  else (size1Ind, reads ++ [size1Ind])
termination_by size1 - size1Ind
decreasing_by omega

/-- The method `slice`: the matrix `*mat` after the call, and the log of the positions of
`array1` that the call read, in order. The state of the loops is
`(size1Ind, *mat, log)`; `array1` and `array2` are pointers, so that a position beyond
`size1` holds whatever lies behind the array. -/
def SparseMatrixExt.slice (m : SparseMatrixExt) (array1 : Nat → Nat) (size1 : Nat)
    (array2 : Nat → Nat) (size2 : Nat) (mat : SparseMatrixExt) : SparseMatrixExt × List Nat :=
  let size1Ind := 0
  let s := forLoop 0 size2 (fun j (s : Nat × SparseMatrixExt × List Nat) =>
    let size1Ind := 0
    (m.inner (array2 j)).foldl (fun (s : Nat × SparseMatrixExt × List Nat) (it : Nat × ℚ) =>
      let w := sliceWhile array1 size1 it.1 s.1 s.2.2
      if it.1 = array1 w.1 then (w.1, s.2.1.insert w.1 j it.2, w.2 ++ [w.1])
      else (w.1, s.2.1, w.2 ++ [w.1])) (size1Ind, s.2.1, s.2.2)) (size1Ind, mat, [])
  (s.2.1, s.2.2)

/-- The method `iterNonZero`: the contents of `array1`, `array2`, `array3` after the call and
the final value of `i`, the number of entries written. -/
def SparseMatrixExt.iterNonZero (m : SparseMatrixExt) (array1 array2 : Nat → Nat)
    (array3 : Nat → ℚ) : (Nat → Nat) × (Nat → Nat) × (Nat → ℚ) × Nat :=
  let i := 0
  forLoop 0 m.outerSize (fun k (s : (Nat → Nat) × (Nat → Nat) × (Nat → ℚ) × Nat) =>
    (m.inner k).foldl (fun (s : (Nat → Nat) × (Nat → Nat) × (Nat → ℚ) × Nat) (it : Nat × ℚ) =>
      (Function.update s.1 s.2.2.2 it.1, Function.update s.2.1 s.2.2.2 k,
        Function.update s.2.2.1 s.2.2.2 it.2, s.2.2.2 + 1)) s) (array1, array2, array3, i)

/-- The method `nonZeroInds`: the contents of `array1`, `array2` after the call and the final
value of `i`. -/
def SparseMatrixExt.nonZeroInds (m : SparseMatrixExt) (array1 array2 : Nat → Nat) :
    (Nat → Nat) × (Nat → Nat) × Nat :=
  let i := 0
  forLoop 0 m.outerSize (fun k (s : (Nat → Nat) × (Nat → Nat) × Nat) =>
    (m.inner k).foldl (fun (s : (Nat → Nat) × (Nat → Nat) × Nat) (it : Nat × ℚ) =>
      (Function.update s.1 s.2.2 it.1, Function.update s.2.1 s.2.2 k, s.2.2 + 1)) s)
    (array1, array2, i)

/-- The method `CFWeightTotals`: the contents of `norm_total` after the call. -/
def SparseMatrixExt.CFWeightTotals (m : SparseMatrixExt) (norm_total : Nat → ℚ) : Nat → ℚ :=
  forLoop 0 m.outerSize (fun k norm_total =>
    (m.inner k).foldl (fun norm_total (it : Nat × ℚ) =>
      Function.update norm_total k (norm_total k + it.2)) norm_total) norm_total

/-- The method `DivisiveNormalizeL1`: the matrix after the call. The iterator visits the
stored entries of column `k` in order and rewrites each value through `valueRef`; the state
of the inner loop is the part of the column already rewritten. -/
def SparseMatrixExt.DivisiveNormalizeL1 (m : SparseMatrixExt) (norm_total : Nat → ℚ) :
    SparseMatrixExt :=
  forLoop 0 m.outerSize (fun k (m : SparseMatrixExt) =>
    let col := (m.inner k).foldl (fun (col : List (Nat × ℚ)) (it : Nat × ℚ) =>
      let factor := 1 / norm_total k
      col ++ [(it.1, it.2 * factor)]) []
    { m with outer := m.outer.set k col }) m

/-- The row bound `r1` of the slice. -/
def CF.r1 (cf : CF) : Nat := cf.input_sheet_slice.1

/-- The row bound `r2` of the slice. -/
def CF.r2 (cf : CF) : Nat := cf.input_sheet_slice.2.1

/-- The column bound `c1` of the slice. -/
def CF.c1 (cf : CF) : Nat := cf.input_sheet_slice.2.2.1

/-- The column bound `c2` of the slice. -/
def CF.c2 (cf : CF) : Nat := cf.input_sheet_slice.2.2.2

/-- The element `weights[a][b]` of the weights array, read through its strides. -/
def CF.weight (cf : CF) (a b : Nat) : ℚ := cf.weights (a * cf.strides.1 + b * cf.strides.2)

/-- The number of cells that the loop nest over the rectangle visits. -/
def CF.ncells (cf : CF) : Nat := (cf.r2 - cf.r1) * (cf.c2 - cf.c1)

/-- The offset, in the contiguous row-major buffers `weights` and `mask`, of the cell at
row `i` and column `j` of the source sheet. -/
def CF.cell (cf : CF) (i j : Nat) : Nat := (i - cf.r1) * (cf.c2 - cf.c1) + (j - cf.c1)

/-- The offset into the source sheet of the unit under the `k`-th cell of the patch. -/
def CF.inputOffset (cf : CF) (icols k : Nat) : Nat :=
  icols * (cf.r1 + k / (cf.c2 - cf.c1)) + (cf.c1 + k % (cf.c2 - cf.c1))

/-- The sum of `|weight|` over those of the first `n` cells whose mask is at least
`MASK_THRESHOLD`. -/
def activeSum (weights mask : Nat → ℚ) (n : Nat) : ℚ :=
  ∑ k in Finset.range n, if mask k ≥ MASK_THRESHOLD then |weights k| else 0

/-- The value a learning rule leaves in the `k`-th cell of a patch it scans. -/
def learnedCell (rule : ℚ → ℚ → ℚ) (X : Nat → ℚ) (icols : Nat) (cf : CF) (k : Nat) : ℚ :=
  if cf.mask k ≥ MASK_THRESHOLD then rule (cf.weights k) (X (cf.inputOffset icols k))
  else cf.weights k

/-- The state of a learning scan that has visited the first `p` cells. -/
def scanAt (rule : ℚ → ℚ → ℚ) (X : Nat → ℚ) (icols : Nat) (cf : CF) (p : Nat) : Scan :=
  { buf := fun k => if k < p then learnedCell rule X icols cf k else cf.weights k
    weights := p
    mask := p
    total := ∑ k in Finset.range p,
      if cf.mask k ≥ MASK_THRESHOLD then |learnedCell rule X icols cf k| else 0 }

/-- The element count `rc` of `divisive_normalize_l1`, computed on `int`s. -/
def CF.rc (cf : CF) : Int := ((cf.r2 : Int) - (cf.r1 : Int)) * ((cf.c2 : Int) - (cf.c1 : Int))

/-- The divisor that `divisive_normalize_l1` uses for a connection field: the stored
`_norm_total` when the flag is set, the sum over the active cells otherwise. -/
def CF.divisor (cf : CF) : ℚ :=
  if cf._has_norm_total = 0 then activeSum cf.weights cf.mask cf.ncells else cf._norm_total

/-- The distance `dist_r` of a connection field as the specification writes it: the square
root of the sum over the rectangle of `(weight_ij - input_ij)^2`. -/
def CF.distance (sqrt : ℚ → ℚ) (X : Nat → ℚ) (icols : Nat) (cf : CF) : ℚ :=
  sqrt (∑ i in Finset.Ico cf.r1 cf.r2, ∑ j in Finset.Ico cf.c1 cf.c2,
    (cf.weights (cf.cell i j) - X (i * icols + j)) ^ 2)

/-- The distance of unit `k` of a collection (0 beyond its end). -/
def unitDistance (sqrt : ℚ → ℚ) (X : Nat → ℚ) (icols : Nat) (cfs : List CF) (k : Nat) : ℚ :=
  match cfs[k]? with
  | some cf => cf.distance sqrt X icols
  | none => 0

/-- The value of `max_dist` after the first `p` units, `d k` being the distance of unit `k`. -/
def maxTo (d : Nat → ℚ) : Nat → ℚ
  | 0 => 0
  | p + 1 => if d p > maxTo d p then d p else maxTo d p

/-- The triplets that the flattening of the specification makes of the connection field of
unit `r`: the cell `(i,j)` becomes `(row = i*icols + j, col = r, value = weight[i-r1][j-c1])`. -/
def cfTriplets (icols r : Nat) (cf : CF) : List (Nat × Nat × ℚ) :=
  (List.range' cf.r1 (cf.r2 - cf.r1)).flatMap (fun i =>
    (List.range' cf.c1 (cf.c2 - cf.c1)).map (fun j =>
      (i * icols + j, r, cf.weight (i - cf.r1) (j - cf.c1))))

/-- The triplets of the connection fields of the units `r, r+1, ...`. -/
def flattenFrom (icols : Nat) : Nat → List CF → List (Nat × Nat × ℚ)
  | _, [] => []
  | r, cf :: rest => cfTriplets icols r cf ++ flattenFrom icols (r + 1) rest

/-- The triplet flattening of a collection of dense connection fields. -/
def flattenTriplets (icols : Nat) (cfs : List CF) : List (Nat × Nat × ℚ) :=
  flattenFrom icols 0 cfs

/-- The dot product of a stored column with the input. -/
def SparseMatrixExt.colDot (m : SparseMatrixExt) (input : Nat → ℚ) (k : Nat) : ℚ :=
  ((m.inner k).map (fun e => input e.1 * e.2)).sum

/-- Two connection fields that are identical except, when the flag `_has_norm_total` is 0,
for the stored `_norm_total`. -/
def CF.sameButStale (cf1 cf2 : CF) : Prop :=
  cf1.weights = cf2.weights ∧ cf1.strides = cf2.strides ∧ cf1.mask = cf2.mask ∧
  cf1.input_sheet_slice = cf2.input_sheet_slice ∧
  cf1._has_norm_total = cf2._has_norm_total ∧
  (cf1._has_norm_total ≠ 0 → cf1._norm_total = cf2._norm_total)

/-- The rows of a stored column are in strictly ascending order, the storage invariant of
an Eigen sparse matrix. -/
def sortedRows (col : List (Nat × ℚ)) : Prop := col.Pairwise (fun a b => a.1 < b.1)

/-- The stored entries `(row, col, value)` of the columns `k, k+1, ...`, column by column. -/
def entriesFrom : Nat → List (List (Nat × ℚ)) → List (Nat × Nat × ℚ)
  | _, [] => []
  | k, col :: rest => col.map (fun e => (e.1, k, e.2)) ++ entriesFrom (k + 1) rest

/-- The stored entries `(row, col, value)` of a matrix in column-major order. -/
def SparseMatrixExt.entries (m : SparseMatrixExt) : List (Nat × Nat × ℚ) :=
  entriesFrom 0 m.outer

/-- The state of `iterNonZero` after it has written a list of entries. -/
def writeEntries (L : List (Nat × Nat × ℚ)) (s : (Nat → Nat) × (Nat → Nat) × (Nat → ℚ) × Nat) :
    (Nat → Nat) × (Nat → Nat) × (Nat → ℚ) × Nat :=
  L.foldl (fun s t => (Function.update s.1 s.2.2.2 t.1, Function.update s.2.1 s.2.2.2 t.2.1,
    Function.update s.2.2.1 s.2.2.2 t.2.2, s.2.2.2 + 1)) s

/-- The triple that the three output arrays hold at a position. -/
def tripleAt (s : (Nat → Nat) × (Nat → Nat) × (Nat → ℚ) × Nat) (q : Nat) : Nat × Nat × ℚ :=
  (s.1 q, s.2.1 q, s.2.2.1 q)

/-- The step of `slice` for one stored entry, seen on the scan pointer and on the column of
the result that is being filled. -/
def sliceColStep (array1 : Nat → Nat) (size1 : Nat) (s : Nat × List (Nat × ℚ)) (it : Nat × ℚ) :
    Nat × List (Nat × ℚ) :=
  if it.1 = array1 (sliceWhile array1 size1 it.1 s.1 []).1 then
    ((sliceWhile array1 size1 it.1 s.1 []).1,
      insertEntry s.2 (sliceWhile array1 size1 it.1 s.1 []).1 it.2)
  else ((sliceWhile array1 size1 it.1 s.1 []).1, s.2)

/-- The invariant of the scan of one column by `slice`: `P` holds the entries already
visited, `S` those still to visit, `ind` is the scan pointer and `rcol` the column of the
result. -/
def sliceInv (array1 : Nat → Nat) (size1 : Nat) (P S : List (Nat × ℚ)) (ind : Nat)
    (rcol : List (Nat × ℚ)) : Prop :=
  (∀ a v, (a, v) ∈ rcol → (array1 a, v) ∈ P ∧ a ≤ ind) ∧
  (∀ a v, a < size1 → (array1 a, v) ∈ P → (a, v) ∈ rcol) ∧
  (∀ a, a < ind → ∀ e ∈ S, array1 a < e.1) ∧
  ind ≤ size1 ∧ sortedRows rcol

/-- The signed sum of the values that a column stores. -/
def SparseMatrixExt.colSum (m : SparseMatrixExt) (c : Nat) : ℚ :=
  ((m.inner c).map Prod.snd).sum

/-- The cache invariant of a connection field: a set flag means that `_norm_total` is the
sum of `|weight|` over the cells whose mask is at least `MASK_THRESHOLD`. -/
def CF.cacheOK (cf : CF) : Prop :=
  cf._has_norm_total ≠ 0 → cf._norm_total = activeSum cf.weights cf.mask cf.ncells

/-- The 1-CF system of the dot-product example: weights `[[0.5,0.5],[0.5,0.5]]` over the
whole of a 2×2 source sheet. -/
def exampleCF : CF :=
  { weights := fun _ => 1 / 2, strides := (2, 1), mask := fun _ => 1,
    input_sheet_slice := (0, 2, 0, 2), _norm_total := 0, _has_norm_total := 0 }

/-- The source sheet `[[1,2],[3,4]]`, row-major. -/
def exampleX : Nat → ℚ := fun k => (k : ℚ) + 1

/-- A 1×2 patch whose first cell has mask 0.49999 and whose second has mask exactly 0.5;
both weights are 1. -/
def thresholdCF : CF :=
  { weights := fun _ => 1, strides := (2, 1)
    mask := fun k => if k = 0 then 49999 / 100000 else 1 / 2
    input_sheet_slice := (0, 1, 0, 2), _norm_total := 0, _has_norm_total := 0 }

/-- A 1×1 patch with the weight -1 under a mask of 0. -/
def maskedNegativeCF : CF :=
  { weights := fun _ => -1, strides := (1, 1), mask := fun _ => 0,
    input_sheet_slice := (0, 1, 0, 1), _norm_total := 0, _has_norm_total := 0 }

/-- A 1×1 patch with the weight -1 under a mask of 1. -/
def negativeCF : CF :=
  { weights := fun _ => -1, strides := (1, 1), mask := fun _ => 1,
    input_sheet_slice := (0, 1, 0, 1), _norm_total := 0, _has_norm_total := 0 }

/-- The example field with a valid cache: the four active weights 0.5 sum to 2. -/
def cachedCF : CF :=
  { weights := fun _ => 1 / 2, strides := (2, 1), mask := fun _ => 1,
    input_sheet_slice := (0, 2, 0, 2), _norm_total := 2, _has_norm_total := 1 }

/-- An empty sparse matrix of 4 rows and 1 column. -/
def exampleMatrix : SparseMatrixExt := { innerSize := 4, outer := [[]] }

/-- The example field with the flag cleared and a stored total of 77 that is stale. -/
def staleCF : CF :=
  { weights := fun _ => 1 / 2, strides := (2, 1), mask := fun _ => 1,
    input_sheet_slice := (0, 2, 0, 2), _norm_total := 77, _has_norm_total := 0 }

/-- A matrix of 3 rows and 2 columns that stores `(0,0) = 1`, `(2,0) = 2` and
`(1,1) = 3`. -/
def exampleSparse : SparseMatrixExt := { innerSize := 3, outer := [[(0, 1), (2, 2)], [(1, 3)]] }

/-- A matrix of 6 rows and 1 column that stores `(5,0) = 1`. -/
def tallMatrix : SparseMatrixExt := { innerSize := 6, outer := [[(5, 1)]] }

/-- An empty matrix of 1 row and 1 column. -/
def emptyMatrix : SparseMatrixExt := { innerSize := 1, outer := [[]] }

/-- An empty matrix of 2 rows and 2 columns. -/
def emptyMatrix2 : SparseMatrixExt := { innerSize := 2, outer := [[], []] }

/-- A matrix of 1 row and 1 column that stores `(0,0) = 2`. -/
def oneEntryMatrix : SparseMatrixExt := { innerSize := 1, outer := [[(0, 2)]] }

/-- A 3×2 matrix that stores `(0,0) = 7` and `(2,1) = 9`. -/
def twoColumnMatrix : SparseMatrixExt := { innerSize := 3, outer := [[(0, 7)], [(2, 9)]] }

/-- The gating mask of the two-thread run: units 0 and 8 are computed, the others gated off. -/
def raceMask : Nat → ℚ := fun r => if r = 0 ∨ r = 8 then 1 else 0

/-- The chunks of 9 iterations under `schedule(guided, 8)` with two threads: the iterations
`0..7` go to thread 0 and the iteration 8 to thread 1. -/
def raceOwner : Nat → Nat := fun r => if r < 8 then 0 else 1

/-- An order of steps of two threads: thread 0 takes 3 steps into unit 0 (up to the first
`++j`), thread 1 runs unit 8 to its end in 10 steps, then thread 0 takes the 2 steps that end
unit 0 and the 7 steps of the units `1..7`. -/
def raceSched : List Nat :=
  [0, 0, 0, 1, 1, 1, 1, 1, 1, 1, 1, 1, 1, 0, 0, 0, 0, 0, 0, 0, 0, 0]

/-! ## Loop lemmas -/

theorem loopFrom_succ_last {σ : Type} (body : Nat → σ → σ) (n : Nat) :
    ∀ (i : Nat) (s : σ), loopFrom body i (n + 1) s = body (i + n) (loopFrom body i n s) := by
  induction n with
  | zero => intro i s; rfl
  | succ n ih =>
    intro i s
    show loopFrom body (i + 1) (n + 1) (body i s) = _
    rw [ih (i + 1) (body i s)]
    have e : i + 1 + n = i + (n + 1) := by omega
    rw [e]
    rfl

/-- Loop invariant rule: `P k` holds of the state after `k` iterations. -/
theorem loopFrom_inv {σ : Type} (body : Nat → σ → σ) (P : Nat → σ → Prop) (i n : Nat) (s : σ)
    (h0 : P 0 s) (hstep : ∀ k t, k < n → P k t → P (k + 1) (body (i + k) t)) :
    P n (loopFrom body i n s) := by
  induction n with
  | zero => exact h0
  | succ n ih =>
    rw [loopFrom_succ_last]
    exact hstep n _ (Nat.lt_succ_self n) (ih (fun k t hk hP => hstep k t (Nat.lt_succ_of_lt hk) hP))

/-- A loop that adds `f i p` to an accumulator while a pointer `p` advances by `d`. -/
theorem loopFrom_acc (f : Nat → Nat → ℚ) (d lo n : Nat) (a : ℚ) (p : Nat) :
    loopFrom (fun i (s : ℚ × Nat) => (s.1 + f i s.2, s.2 + d)) lo n (a, p)
      = (a + ∑ k in Finset.range n, f (lo + k) (p + k * d), p + n * d) := by
  induction n with
  | zero => simp [loopFrom]
  | succ n ih =>
    rw [loopFrom_succ_last, ih, Finset.sum_range_succ]
    ext
    · simp only; ring
    · simp only; ring

/-- A loop over units in which iteration `r` rewrites entry `r` only. -/
theorem loopFrom_update {α : Type} (h : Nat → α → α) (n : Nat) (s : Nat → α) (r : Nat) :
    loopFrom (fun r (t : Nat → α) => Function.update t r (h r (t r))) 0 n s r
      = if r < n then h r (s r) else s r := by
  induction n with
  | zero => simp [loopFrom]
  | succ n ih =>
    rw [loopFrom_succ_last, zero_add]
    by_cases hrn : r = n
    · subst hrn
      simp [ih]
    · rw [Function.update_noteq hrn, ih]
      by_cases h1 : r < n
      · simp [h1, Nat.lt_succ_of_lt h1]
      · have h2 : ¬ r < n + 1 := by omega
        simp [h1, h2]

/-! ## dot_product -/

/-- The loop nest of `dot_product` computes the sum over the rectangle. -/
theorem dot_product_cf_eq (X : Nat → ℚ) (icols : Nat) (cf : CF) :
    dot_product_cf X icols cf
      = ∑ i in Finset.Ico cf.r1 cf.r2, ∑ j in Finset.Ico cf.c1 cf.c2,
          cf.weight (i - cf.r1) (j - cf.c1) * X (i * icols + j) := by
  obtain ⟨w, st, m, ⟨rr1, rr2, cc1, cc2⟩, nt, hnt⟩ := cf
  simp only [dot_product_cf, forLoop, CF.r1, CF.r2, CF.c1, CF.c2, CF.weight]
  have inner : ∀ (i : Nat) (s : ℚ × Nat),
      loopFrom (fun j (t : ℚ × Nat) =>
          (t.1 + w ((i - rr1) * st.1 + (j - cc1) * st.2) * X t.2, t.2 + 1)) cc1 (cc2 - cc1)
          (s.1, s.2)
        = (s.1 + ∑ k in Finset.range (cc2 - cc1),
              w ((i - rr1) * st.1 + (cc1 + k - cc1) * st.2) * X (s.2 + k * 1),
            s.2 + (cc2 - cc1) * 1) := by
    intro i s
    exact loopFrom_acc (fun j p => w ((i - rr1) * st.1 + (j - cc1) * st.2) * X p) 1 cc1
      (cc2 - cc1) s.1 s.2
  simp only [inner]
  rw [loopFrom_acc (fun i p => ∑ k in Finset.range (cc2 - cc1),
      w ((i - rr1) * st.1 + (cc1 + k - cc1) * st.2) * X (p + k * 1)) icols rr1 (rr2 - rr1) 0
      (icols * rr1 + cc1)]
  simp only [zero_add, Finset.sum_Ico_eq_sum_range]
  refine Finset.sum_congr rfl (fun a _ => Finset.sum_congr rfl (fun b _ => ?_))
  congr 2
  ring

theorem dot_product_apply (mask X : Nat → ℚ) (strength : ℚ) (icols : Nat) (temp_act : Nat → ℚ)
    (cfs : List CF) (num_cfs r : Nat) :
    dot_product_serial mask X strength icols temp_act cfs num_cfs r
      = if r < num_cfs then
          (if mask r = 0 then 0
           else match cfs[r]? with
             | none => temp_act r
             | some cf => dot_product_cf X icols cf * strength)
        else temp_act r := by
  have hbody : (fun r (t : Nat → ℚ) =>
      if mask r = 0 then Function.update t r 0
      else match cfs[r]? with
        | none => t
        | some cf => Function.update t r (dot_product_cf X icols cf * strength))
      = (fun r (t : Nat → ℚ) => Function.update t r
          ((fun r v => if mask r = 0 then 0
            else match cfs[r]? with
              | none => v
              | some cf => dot_product_cf X icols cf * strength) r (t r))) := by
    funext r t
    by_cases hm : mask r = 0
    · simp [hm]
    · cases hc : cfs[r]? <;> simp [hm, hc]
  unfold dot_product_serial forLoop
  rw [hbody, Nat.sub_zero]
  exact loopFrom_update (fun r v => if mask r = 0 then 0
    else match cfs[r]? with
      | none => v
      | some cf => dot_product_cf X icols cf * strength) num_cfs temp_act r

/-! ## dot_product with a team of one thread -/

theorem solo_succ (mask X : Nat → ℚ) (strength : ℚ) (icols : Nat) (cfs : List CF) (n : Nat)
    (s : DotShared) (t : DotThread) :
    (List.replicate (n + 1) 0).foldl (dot_product_step mask X strength icols cfs)
        { shared := s, threads := [t] }
      = (List.replicate n 0).foldl (dot_product_step mask X strength icols cfs)
          { shared := (dot_product_thread mask X strength icols cfs s t).1,
            threads := [(dot_product_thread mask X strength icols cfs s t).2] } := rfl

theorem solo_add (mask X : Nat → ℚ) (strength : ℚ) (icols : Nat) (cfs : List CF) (a b : Nat)
    (u : DotTeam) :
    (List.replicate (a + b) 0).foldl (dot_product_step mask X strength icols cfs) u
      = (List.replicate b 0).foldl (dot_product_step mask X strength icols cfs)
          ((List.replicate a 0).foldl (dot_product_step mask X strength icols cfs) u) := by
  rw [List.replicate_add, List.foldl_append]

/-- A thread alone in the `j` loop: it leaves the loop after `cc2 - j` passes. -/
theorem solo_cols (mask X : Nat → ℚ) (strength : ℚ) (icols : Nat) (cfs : List CF) (r : Nat)
    (rest : List Nat) (cf : CF) (rr1 rr2 cc1 cc2 : Nat) (hcf : cfs[r]? = some cf)
    (hs : cf.input_sheet_slice = (rr1, rr2, cc1, cc2)) (i0 : Nat) (ta : Nat → ℚ) (xj : Nat)
    (hi : rr1 ≤ i0) :
    ∀ (n j0 : Nat) (tot : ℚ) (xi : Nat), n = cc2 - j0 → cc1 ≤ j0 →
      (List.replicate (n + 1) 0).foldl (dot_product_step mask X strength icols cfs)
          { shared := { i := i0, j := j0, temp_act := ta, stray := false },
            threads := [{ work := r :: rest, pc := DotPc.cols, tot := tot, xj := xj,
                          xi := xi }] }
        = { shared := { i := i0 + 1, j := j0 + n, temp_act := ta, stray := false },
            threads := [{ work := r :: rest, pc := DotPc.rows,
                          tot := (loopFrom (fun j (t : ℚ × Nat) =>
                            (t.1 + cf.weights ((i0 - rr1) * cf.strides.1
                              + (j - cc1) * cf.strides.2) * X t.2, t.2 + 1)) j0 n (tot, xi)).1,
                          xj := xj + icols,
                          xi := (loopFrom (fun j (t : ℚ × Nat) =>
                            (t.1 + cf.weights ((i0 - rr1) * cf.strides.1
                              + (j - cc1) * cf.strides.2) * X t.2, t.2 + 1)) j0 n (tot, xi)).2 }] }
    := by
  intro n
  induction n with
  | zero =>
    intro j0 tot xi hn hj
    have hlt : ¬ j0 < cc2 := by omega
    rw [solo_succ]
    simp [dot_product_thread, hcf, hs, hlt, loopFrom]
  | succ n ih =>
    intro j0 tot xi hn hj
    have hlt : j0 < cc2 := by omega
    have h1 : ¬ i0 < rr1 := by omega
    have h2 : ¬ j0 < cc1 := by omega
    rw [solo_succ]
    have e : dot_product_thread mask X strength icols cfs
        { i := i0, j := j0, temp_act := ta, stray := false }
        { work := r :: rest, pc := DotPc.cols, tot := tot, xj := xj, xi := xi }
        = ({ i := i0, j := j0 + 1, temp_act := ta, stray := false },
           { work := r :: rest, pc := DotPc.cols,
             tot := tot + cf.weights ((i0 - rr1) * cf.strides.1 + (j0 - cc1) * cf.strides.2)
               * X xi,
             xj := xj, xi := xi + 1 }) := by
      simp [dot_product_thread, hcf, hs, hlt, h1, h2]
    rw [e, ih (j0 + 1) _ _ (by omega) (by omega)]
    have e2 : j0 + 1 + n = j0 + (n + 1) := by omega
    rw [e2]
    rfl

/-- A thread alone in the `i` loop: it reaches the store to `temp_act[r]` with the value of
`tot` that the loop nest computes. -/
theorem solo_rows (mask X : Nat → ℚ) (strength : ℚ) (icols : Nat) (cfs : List CF) (r : Nat)
    (rest : List Nat) (cf : CF) (rr1 rr2 cc1 cc2 : Nat) (hcf : cfs[r]? = some cf)
    (hs : cf.input_sheet_slice = (rr1, rr2, cc1, cc2)) (ta : Nat → ℚ) :
    ∀ (m i0 j : Nat) (tot : ℚ) (xj xi : Nat), m = rr2 - i0 → rr1 ≤ i0 →
      ∃ (N i' j' xj' xi' : Nat),
        (List.replicate N 0).foldl (dot_product_step mask X strength icols cfs)
            { shared := { i := i0, j := j, temp_act := ta, stray := false },
              threads := [{ work := r :: rest, pc := DotPc.rows, tot := tot, xj := xj,
                            xi := xi }] }
          = { shared :=
                { i := i', j := j', stray := false,
                  temp_act := (Function.update ta r ((loopFrom (fun i (s : ℚ × Nat) =>
                    ((forLoop cc1 cc2 (fun j (t : ℚ × Nat) =>
                      (t.1 + cf.weights ((i - rr1) * cf.strides.1 + (j - cc1) * cf.strides.2)
                        * X t.2, t.2 + 1)) (s.1, s.2)).1, s.2 + icols)) i0 m (tot, xj)).1
                    * strength)) },
              threads :=
                [{ work := rest, pc := DotPc.unit, xj := xj', xi := xi',
                   tot := ((loopFrom (fun i (s : ℚ × Nat) =>
                    ((forLoop cc1 cc2 (fun j (t : ℚ × Nat) =>
                      (t.1 + cf.weights ((i - rr1) * cf.strides.1 + (j - cc1) * cf.strides.2)
                        * X t.2, t.2 + 1)) (s.1, s.2)).1, s.2 + icols)) i0 m (tot, xj)).1) }] }
    := by
  intro m
  induction m with
  | zero =>
    intro i0 j tot xj xi hm hi
    have hlt : ¬ i0 < rr2 := by omega
    refine ⟨1, i0, j, xj, xi, ?_⟩
    rw [solo_succ]
    simp [dot_product_thread, hcf, hs, hlt, loopFrom]
  | succ m ih =>
    intro i0 j tot xj xi hm hi
    have hlt : i0 < rr2 := by omega
    obtain ⟨N, i', j', xj', xi', hN⟩ := ih (i0 + 1) (cc1 + (cc2 - cc1))
      (loopFrom (fun j (t : ℚ × Nat) =>
        (t.1 + cf.weights ((i0 - rr1) * cf.strides.1 + (j - cc1) * cf.strides.2) * X t.2,
          t.2 + 1)) cc1 (cc2 - cc1) (tot, xj)).1
      (xj + icols)
      (loopFrom (fun j (t : ℚ × Nat) =>
        (t.1 + cf.weights ((i0 - rr1) * cf.strides.1 + (j - cc1) * cf.strides.2) * X t.2,
          t.2 + 1)) cc1 (cc2 - cc1) (tot, xj)).2
      (by omega) (by omega)
    refine ⟨((cc2 - cc1) + 1 + N) + 1, i', j', xj', xi', ?_⟩
    rw [solo_succ]
    have e : dot_product_thread mask X strength icols cfs
        { i := i0, j := j, temp_act := ta, stray := false }
        { work := r :: rest, pc := DotPc.rows, tot := tot, xj := xj, xi := xi }
        = ({ i := i0, j := cc1, temp_act := ta, stray := false },
           { work := r :: rest, pc := DotPc.cols, tot := tot, xj := xj, xi := xj }) := by
      simp [dot_product_thread, hcf, hs, hlt]
    rw [e, solo_add, solo_cols mask X strength icols cfs r rest cf rr1 rr2 cc1 cc2 hcf hs i0 ta
      xj hi (cc2 - cc1) cc1 tot xj rfl (le_refl _), hN]
    rfl

/-- A thread alone runs one iteration of the `r` loop as the serial loop body does. -/
theorem solo_unit (mask X : Nat → ℚ) (strength : ℚ) (icols : Nat) (cfs : List CF) (r : Nat)
    (rest : List Nat) (ta : Nat → ℚ) (i j : Nat) (tot : ℚ) (xj xi : Nat) :
    ∃ (N i' j' : Nat) (tot' : ℚ) (xj' xi' : Nat),
      (List.replicate N 0).foldl (dot_product_step mask X strength icols cfs)
          { shared := { i := i, j := j, temp_act := ta, stray := false },
            threads := [{ work := r :: rest, pc := DotPc.unit, tot := tot, xj := xj,
                          xi := xi }] }
        = { shared :=
              { i := i', j := j', stray := false,
                temp_act := (if mask r = 0 then Function.update ta r 0
                  else match cfs[r]? with
                    | none => ta
                    | some cf => Function.update ta r (dot_product_cf X icols cf * strength)) },
            threads := [{ work := rest, pc := DotPc.unit, tot := tot', xj := xj', xi := xi' }] }
    := by
  by_cases hm : mask r = 0
  · refine ⟨1, i, j, tot, xj, xi, ?_⟩
    rw [solo_succ]
    simp [dot_product_thread, hm]
  · cases hcf : cfs[r]? with
    | none =>
      refine ⟨1, i, j, tot, xj, xi, ?_⟩
      rw [solo_succ]
      simp [dot_product_thread, hm, hcf]
    | some cf =>
      rcases hs : cf.input_sheet_slice with ⟨rr1, rr2, cc1, cc2⟩
      obtain ⟨N, i', j', xj', xi', hN⟩ := solo_rows mask X strength icols cfs r rest cf rr1 rr2
        cc1 cc2 hcf hs ta (rr2 - rr1) rr1 j 0 (icols * rr1 + cc1) xi rfl (le_refl _)
      refine ⟨N + 1, i', j', (loopFrom (fun i (s : ℚ × Nat) =>
        ((forLoop cc1 cc2 (fun j (t : ℚ × Nat) =>
          (t.1 + cf.weights ((i - rr1) * cf.strides.1 + (j - cc1) * cf.strides.2) * X t.2,
            t.2 + 1)) (s.1, s.2)).1, s.2 + icols)) rr1 (rr2 - rr1) (0, icols * rr1 + cc1)).1,
        xj', xi', ?_⟩
      rw [solo_succ]
      have e : dot_product_thread mask X strength icols cfs
          { i := i, j := j, temp_act := ta, stray := false }
          { work := r :: rest, pc := DotPc.unit, tot := tot, xj := xj, xi := xi }
          = ({ i := rr1, j := j, temp_act := ta, stray := false },
             { work := r :: rest, pc := DotPc.rows, tot := 0, xj := icols * rr1 + cc1,
               xi := xi }) := by
        simp [dot_product_thread, hm, hcf, hs]
      rw [e, hN]
      simp only [hm, if_false, dot_product_cf, hs, forLoop]

/-- A thread alone runs its iterations as the serial `r` loop does. -/
theorem solo_units (mask X : Nat → ℚ) (strength : ℚ) (icols : Nat) (cfs : List CF) :
    ∀ (n a : Nat) (ta : Nat → ℚ) (i j : Nat) (tot : ℚ) (xj xi : Nat),
      ∃ (N i' j' : Nat) (tot' : ℚ) (xj' xi' : Nat),
        (List.replicate N 0).foldl (dot_product_step mask X strength icols cfs)
            { shared := { i := i, j := j, temp_act := ta, stray := false },
              threads := [{ work := List.range' a n, pc := DotPc.unit, tot := tot, xj := xj,
                            xi := xi }] }
          = { shared :=
                { i := i', j := j', stray := false,
                  temp_act := (loopFrom (fun r temp_act =>
                    if mask r = 0 then Function.update temp_act r 0
                    else match cfs[r]? with
                      | none => temp_act
                      | some cf =>
                        Function.update temp_act r (dot_product_cf X icols cf * strength))
                    a n ta) },
              threads := [{ work := [], pc := DotPc.unit, tot := tot', xj := xj', xi := xi' }] }
    := by
  intro n
  induction n with
  | zero =>
    intro a ta i j tot xj xi
    exact ⟨0, i, j, tot, xj, xi, rfl⟩
  | succ n ih =>
    intro a ta i j tot xj xi
    obtain ⟨N1, i1, j1, tot1, xj1, xi1, h1⟩ := solo_unit mask X strength icols cfs a
      (List.range' (a + 1) n) ta i j tot xj xi
    obtain ⟨N2, i2, j2, tot2, xj2, xi2, h2⟩ := ih (a + 1)
      (if mask a = 0 then Function.update ta a 0
        else match cfs[a]? with
          | none => ta
          | some cf => Function.update ta a (dot_product_cf X icols cf * strength))
      i1 j1 tot1 xj1 xi1
    refine ⟨N1 + N2, i2, j2, tot2, xj2, xi2, ?_⟩
    rw [solo_add]
    have e : List.range' a (n + 1) = a :: List.range' (a + 1) n := rfl
    rw [e, h1, h2]
    rfl

/-- A thread without work takes no step. -/
theorem solo_done (mask X : Nat → ℚ) (strength : ℚ) (icols : Nat) (cfs : List CF)
    (s : DotShared) (t : DotThread) (ht : t.work = []) (n : Nat) :
    (List.replicate n 0).foldl (dot_product_step mask X strength icols cfs)
        { shared := s, threads := [t] } = { shared := s, threads := [t] } := by
  induction n with
  | zero => rfl
  | succ n ih =>
    rw [solo_succ]
    have e : dot_product_thread mask X strength icols cfs s t = (s, t) := by
      unfold dot_product_thread
      rw [ht]
    rw [e]
    exact ih

/-- With a team of one thread, `dot_product` leaves in `temp_act` what the serial loop
leaves there, once the thread has taken enough steps. -/
theorem dot_product_one_thread (mask X : Nat → ℚ) (strength : ℚ) (icols : Nat)
    (temp_act : Nat → ℚ) (cfs : List CF) (num_cfs : Nat) :
    ∃ N, ∀ n, N ≤ n →
      (dot_product mask X strength icols temp_act cfs num_cfs 1 (fun _ => 0)
        (List.replicate n 0)).finished = true ∧
      (dot_product mask X strength icols temp_act cfs num_cfs 1 (fun _ => 0)
        (List.replicate n 0)).shared.stray = false ∧
      (dot_product mask X strength icols temp_act cfs num_cfs 1 (fun _ => 0)
        (List.replicate n 0)).shared.temp_act
        = dot_product_serial mask X strength icols temp_act cfs num_cfs := by
  obtain ⟨N, i', j', tot', xj', xi', hN⟩ := solo_units mask X strength icols cfs num_cfs 0
    temp_act 0 0 0 0 0
  have hstart : dot_product_start temp_act num_cfs 1 (fun _ => 0)
      = { shared := { i := 0, j := 0, temp_act := temp_act, stray := false },
          threads := [{ work := List.range' 0 num_cfs, pc := DotPc.unit, tot := 0, xj := 0,
                        xi := 0 }] } := by
    simp [dot_product_start, List.range_eq_range']
  refine ⟨N, fun n hn => ?_⟩
  have e : n = N + (n - N) := by omega
  have hrun : dot_product mask X strength icols temp_act cfs num_cfs 1 (fun _ => 0)
      (List.replicate n 0)
      = { shared :=
            { i := i', j := j', stray := false,
              temp_act := dot_product_serial mask X strength icols temp_act cfs num_cfs },
          threads := [{ work := [], pc := DotPc.unit, tot := tot', xj := xj', xi := xi' }] }
      := by
    unfold dot_product
    rw [hstart, e, solo_add, hN, solo_done _ _ _ _ _ _ _ rfl]
    simp only [dot_product_serial, forLoop, Nat.sub_zero]
  rw [hrun]
  exact ⟨rfl, rfl, rfl⟩

/-! ## Loops over the collection -/

theorem withCF_length (cfs : List CF) (r : Nat) (f : CF → CF) :
    (withCF cfs r f).length = cfs.length := by
  unfold withCF
  cases cfs[r]? <;> simp

theorem withCF_getElem? (cfs : List CF) (n r : Nat) (f : CF → CF) :
    (withCF cfs n f)[r]? = if r = n then (cfs[r]?).map f else cfs[r]? := by
  unfold withCF
  by_cases hrn : r = n
  · subst hrn
    cases h : cfs[r]? with
    | none => simp [h]
    | some cf =>
      have hlt : r < cfs.length := by
        by_contra hge
        rw [List.getElem?_eq_none (by omega)] at h
        exact Option.noConfusion h
      simp [List.getElem?_set, hlt]
  · cases h : cfs[n]? with
    | none => simp [hrn]
    | some cf => simp [hrn, List.getElem?_set_ne (Ne.symm hrn)]

/-- A loop over the units that mutates the unit `r` when its gate `g r` is open. -/
theorem loopFrom_withCF (g : Nat → Prop) [DecidablePred g] (f : Nat → CF → CF) (n : Nat)
    (cfs : List CF) (r : Nat) :
    (loopFrom (fun r cfs => if g r then withCF cfs r (f r) else cfs) 0 n cfs)[r]?
      = (cfs[r]?).map (fun cf => if r < n ∧ g r then f r cf else cf) := by
  induction n with
  | zero => simp [loopFrom]
  | succ n ih =>
    rw [loopFrom_succ_last, zero_add]
    by_cases hg : g n
    · rw [if_pos hg, withCF_getElem?, ih]
      by_cases hrn : r = n
      · subst hrn
        cases cfs[r]? <;> simp [hg]
      · have e : (r < n + 1 ∧ g r) ↔ (r < n ∧ g r) := by
          constructor
          · rintro ⟨h1, h2⟩; exact ⟨by omega, h2⟩
          · rintro ⟨h1, h2⟩; exact ⟨by omega, h2⟩
        simp only [hrn, if_false, e]
    · rw [if_neg hg, ih]
      have e : (r < n + 1 ∧ g r) ↔ (r < n ∧ g r) := by
        constructor
        · rintro ⟨h1, h2⟩
          refine ⟨?_, h2⟩
          rcases Nat.lt_succ_iff_lt_or_eq.1 h1 with h | h
          · exact h
          · subst h; exact absurd h2 hg
        · rintro ⟨h1, h2⟩; exact ⟨by omega, h2⟩
      simp only [e]

theorem hebbian_getElem? (X out sm : Nat → ℚ) (n icols : Nat) (cfs : List CF) (lr : ℚ)
    (r : Nat) :
    (hebbian X out sm n icols cfs lr)[r]? = (cfs[r]?).map (fun cf =>
      if r < n ∧ (out r ≠ 0 ∧ sm r ≠ 0) then
        learn_cf (fun w inp => w + out r * lr * inp) X icols cf
      else cf) := by
  unfold hebbian forLoop
  rw [Nat.sub_zero]
  exact loopFrom_withCF (fun r => out r ≠ 0 ∧ sm r ≠ 0)
    (fun r => learn_cf (fun w inp => w + out r * lr * inp) X icols) n cfs r

theorem bcm_fixed_getElem? (X out : Nat → ℚ) (n icols : Nat) (cfs : List CF) (lr th : ℚ)
    (r : Nat) :
    (bcm_fixed X out n icols cfs lr th)[r]? = (cfs[r]?).map (fun cf =>
      if r < n ∧ out r ≠ 0 then
        learn_cf (fun w inp =>
          if w + out r * lr * inp * (out r - th) < 0 then 0
          else w + out r * lr * inp * (out r - th)) X icols cf
      else cf) := by
  unfold bcm_fixed forLoop
  rw [Nat.sub_zero]
  exact loopFrom_withCF (fun r => out r ≠ 0)
    (fun r => learn_cf (fun w inp =>
      if w + out r * lr * inp * (out r - th) < 0 then 0
      else w + out r * lr * inp * (out r - th)) X icols) n cfs r

theorem trace_learning_getElem? (X tr : Nat → ℚ) (n icols : Nat) (cfs : List CF) (lr : ℚ)
    (r : Nat) :
    (trace_learning X tr n icols cfs lr)[r]? = (cfs[r]?).map (fun cf =>
      if r < n ∧ tr r ≠ 0 then
        learn_cf (fun w inp => w + tr r * lr * inp) X icols cf
      else cf) := by
  unfold trace_learning forLoop
  rw [Nat.sub_zero]
  exact loopFrom_withCF (fun r => tr r ≠ 0)
    (fun r => learn_cf (fun w inp => w + tr r * lr * inp) X icols) n cfs r

theorem divisive_normalize_l1_getElem? (sm am : Nat → ℚ) (cfs : List CF) (n r : Nat) :
    (divisive_normalize_l1 sm am cfs n)[r]? = (cfs[r]?).map (fun cf =>
      if r < n ∧ (am r ≠ 0 ∧ sm r ≠ 0) then normalize_cf cf else cf) := by
  unfold divisive_normalize_l1 forLoop
  rw [Nat.sub_zero]
  exact loopFrom_withCF (fun r => am r ≠ 0 ∧ sm r ≠ 0) (fun _ => normalize_cf) n cfs r

/-! ## The scan of one patch by a learning rule -/

theorem inputOffset_row (cf : CF) (icols a k : Nat) (hk : k < cf.c2 - cf.c1) :
    cf.inputOffset icols (a * (cf.c2 - cf.c1) + k) = icols * (cf.r1 + a) + cf.c1 + k := by
  unfold CF.inputOffset
  have hpos : 0 < cf.c2 - cf.c1 := by omega
  have h1 : (a * (cf.c2 - cf.c1) + k) / (cf.c2 - cf.c1) = a := by
    rw [Nat.add_comm, Nat.add_mul_div_right _ _ hpos, Nat.div_eq_of_lt hk, Nat.zero_add]
  have h2 : (a * (cf.c2 - cf.c1) + k) % (cf.c2 - cf.c1) = k := by
    rw [Nat.add_comm, Nat.add_mul_mod_self_right, Nat.mod_eq_of_lt hk]
  rw [h1, h2]
  omega

/-- One step of the scan, at the `p`-th cell. -/
theorem learn_cell_scanAt (rule : ℚ → ℚ → ℚ) (X : Nat → ℚ) (icols : Nat) (cf : CF) (p : Nat) :
    learn_cell rule X cf.mask (scanAt rule X icols cf p, cf.inputOffset icols p)
      = (scanAt rule X icols cf (p + 1), cf.inputOffset icols p + 1) := by
  have hbuf : ∀ v : ℚ, v = learnedCell rule X icols cf p →
      Function.update (fun k => if k < p then learnedCell rule X icols cf k else cf.weights k) p v
        = fun k => if k < p + 1 then learnedCell rule X icols cf k else cf.weights k := by
    intro v hv
    funext k
    by_cases hkp : k = p
    · subst hkp
      simp [hv]
    · rw [Function.update_noteq hkp]
      by_cases h1 : k < p
      · simp [h1, Nat.lt_succ_of_lt h1]
      · have h2 : ¬ k < p + 1 := by omega
        simp [h1, h2]
  by_cases hm : cf.mask p ≥ MASK_THRESHOLD
  · have hl : learnedCell rule X icols cf p = rule (cf.weights p) (X (cf.inputOffset icols p)) := by
      simp [learnedCell, hm]
    simp only [learn_cell, scanAt, hm, if_true, lt_irrefl, if_false, Finset.sum_range_succ]
    refine Prod.ext ?_ rfl
    apply Scan.ext
    · exact hbuf _ hl.symm
    · rfl
    · rfl
    · simp only [hl]
  · have hl : learnedCell rule X icols cf p = cf.weights p := by
      simp [learnedCell, hm]
    simp only [learn_cell, scanAt, hm, if_false, Finset.sum_range_succ, add_zero]
    refine Prod.ext ?_ rfl
    apply Scan.ext
    · simp only
      have h := hbuf (cf.weights p) hl.symm
      rw [← h]
      funext k
      by_cases hkp : k = p
      · subst hkp; simp
      · rw [Function.update_noteq hkp]
    · rfl
    · rfl
    · rfl

/-- The inner loop of the scan, over the first `n` cells of row `a` of the patch. -/
theorem learn_row_scanAt (rule : ℚ → ℚ → ℚ) (X : Nat → ℚ) (icols : Nat) (cf : CF)
    (a n j0 : Nat) (hn : n ≤ cf.c2 - cf.c1) :
    loopFrom (fun _ t => learn_cell rule X cf.mask t) j0 n
        (scanAt rule X icols cf (a * (cf.c2 - cf.c1)), icols * (cf.r1 + a) + cf.c1)
      = (scanAt rule X icols cf (a * (cf.c2 - cf.c1) + n), icols * (cf.r1 + a) + cf.c1 + n) := by
  refine loopFrom_inv (fun _ t => learn_cell rule X cf.mask t)
    (fun k t => t = (scanAt rule X icols cf (a * (cf.c2 - cf.c1) + k),
      icols * (cf.r1 + a) + cf.c1 + k)) j0 n _ rfl ?_
  intro k t hk ht
  subst ht
  have e := inputOffset_row cf icols a k (by omega)
  show learn_cell rule X cf.mask (scanAt rule X icols cf (a * (cf.c2 - cf.c1) + k),
    icols * (cf.r1 + a) + cf.c1 + k) = _
  rw [← e, learn_cell_scanAt, e]
  rfl

/-- The whole loop nest of the scan. -/
theorem learn_scan_eq (rule : ℚ → ℚ → ℚ) (X : Nat → ℚ) (icols : Nat) (cf : CF) (i0 n : Nat) :
    loopFrom (fun _ (s : Scan × Nat) =>
        ((loopFrom (fun _ t => learn_cell rule X cf.mask t) cf.c1 (cf.c2 - cf.c1) (s.1, s.2)).1,
          s.2 + icols)) i0 n
        (scanAt rule X icols cf 0, icols * cf.r1 + cf.c1)
      = (scanAt rule X icols cf (n * (cf.c2 - cf.c1)), icols * (cf.r1 + n) + cf.c1) := by
  refine loopFrom_inv _
    (fun k (s : Scan × Nat) => s = (scanAt rule X icols cf (k * (cf.c2 - cf.c1)),
      icols * (cf.r1 + k) + cf.c1)) i0 n _ ?_ ?_
  · simp
  · intro k t _ ht
    subst ht
    simp only
    rw [learn_row_scanAt rule X icols cf k (cf.c2 - cf.c1) cf.c1 (le_refl _)]
    refine Prod.ext ?_ ?_
    · simp only
      congr 1
      ring
    · simp only
      ring

theorem scanAt_zero (rule : ℚ → ℚ → ℚ) (X : Nat → ℚ) (icols : Nat) (cf : CF) :
    scanAt rule X icols cf 0 = ⟨cf.weights, 0, 0, 0⟩ := by
  apply Scan.ext <;> simp [scanAt]

/-- What a learning rule leaves in a connection field that it scans. -/
theorem learn_cf_eq (rule : ℚ → ℚ → ℚ) (X : Nat → ℚ) (icols : Nat) (cf : CF) :
    learn_cf rule X icols cf =
      { cf with
        weights := fun k => if k < cf.ncells then learnedCell rule X icols cf k else cf.weights k
        _norm_total := ∑ k in Finset.range cf.ncells,
          if cf.mask k ≥ MASK_THRESHOLD then |learnedCell rule X icols cf k| else 0
        _has_norm_total := 1 } := by
  have h := learn_scan_eq rule X icols cf cf.r1 (cf.r2 - cf.r1)
  rw [scanAt_zero] at h
  have h' : learn_cf rule X icols cf =
      { cf with
        weights := (scanAt rule X icols cf cf.ncells).buf
        _norm_total := (scanAt rule X icols cf cf.ncells).total
        _has_norm_total := 1 } := by
    unfold learn_cf forLoop CF.ncells
    simp only [CF.r1, CF.r2, CF.c1, CF.c2] at h ⊢
    rw [h]
  rw [h']
  rfl

theorem learn_cf_weights (rule : ℚ → ℚ → ℚ) (X : Nat → ℚ) (icols : Nat) (cf : CF) (k : Nat) :
    (learn_cf rule X icols cf).weights k
      = if k < cf.ncells then learnedCell rule X icols cf k else cf.weights k := by
  rw [learn_cf_eq]

theorem learn_cf_mask (rule : ℚ → ℚ → ℚ) (X : Nat → ℚ) (icols : Nat) (cf : CF) :
    (learn_cf rule X icols cf).mask = cf.mask := by
  rw [learn_cf_eq]

theorem learn_cf_ncells (rule : ℚ → ℚ → ℚ) (X : Nat → ℚ) (icols : Nat) (cf : CF) :
    (learn_cf rule X icols cf).ncells = cf.ncells := by
  rw [learn_cf_eq]
  rfl

theorem learn_cf_flag (rule : ℚ → ℚ → ℚ) (X : Nat → ℚ) (icols : Nat) (cf : CF) :
    (learn_cf rule X icols cf)._has_norm_total = 1 := by
  rw [learn_cf_eq]

/-- The total a learning rule stores is the sum over the active cells of the new weights. -/
theorem learn_cf_norm_total (rule : ℚ → ℚ → ℚ) (X : Nat → ℚ) (icols : Nat) (cf : CF) :
    (learn_cf rule X icols cf)._norm_total
      = activeSum (learn_cf rule X icols cf).weights (learn_cf rule X icols cf).mask
          (learn_cf rule X icols cf).ncells := by
  rw [learn_cf_ncells, learn_cf_mask]
  have h1 : (learn_cf rule X icols cf)._norm_total
      = ∑ k in Finset.range cf.ncells,
          if cf.mask k ≥ MASK_THRESHOLD then |learnedCell rule X icols cf k| else 0 := by
    rw [learn_cf_eq]
  rw [h1]
  unfold activeSum
  refine Finset.sum_congr rfl (fun k hk => ?_)
  rw [learn_cf_weights, if_pos (Finset.mem_range.1 hk)]

theorem learn_cf_cacheOK (rule : ℚ → ℚ → ℚ) (X : Nat → ℚ) (icols : Nat) (cf : CF) :
    (learn_cf rule X icols cf).cacheOK :=
  fun _ => learn_cf_norm_total rule X icols cf

/-! ## The normalisation of one patch -/

/-- The inner loop of `SUM_NORM_TOTAL`, and the loop over the rows, are runs of the same
cell step. -/
theorem sum_norm_loop (cf : CF) (i0 n p : Nat) :
    loopFrom (fun _ (t : Nat × Nat × ℚ) =>
        (t.1 + 1, t.2.1 + 1,
          if cf.mask t.1 ≥ MASK_THRESHOLD then t.2.2 + |cf.weights t.2.1| else t.2.2)) i0 n
        (p, p, activeSum cf.weights cf.mask p)
      = (p + n, p + n, activeSum cf.weights cf.mask (p + n)) := by
  refine loopFrom_inv _
    (fun k (t : Nat × Nat × ℚ) => t = (p + k, p + k, activeSum cf.weights cf.mask (p + k)))
    i0 n _ rfl ?_
  intro k t _ ht
  subst ht
  have e : p + (k + 1) = (p + k) + 1 := rfl
  simp only [e, activeSum, Finset.sum_range_succ]
  by_cases hm : cf.mask (p + k) ≥ MASK_THRESHOLD
  · simp only [hm, if_true]
  · simp only [hm, if_false, add_zero]

theorem SUM_NORM_TOTAL_eq (cf : CF) :
    SUM_NORM_TOTAL cf 0 cf.r1 cf.r2 cf.c1 cf.c2 = activeSum cf.weights cf.mask cf.ncells := by
  unfold SUM_NORM_TOTAL forLoop
  have hrows : ∀ n i0, loopFrom (fun _ (s : Nat × Nat × ℚ) =>
      loopFrom (fun _ (t : Nat × Nat × ℚ) =>
        (t.1 + 1, t.2.1 + 1,
          if cf.mask t.1 ≥ MASK_THRESHOLD then t.2.2 + |cf.weights t.2.1| else t.2.2))
        cf.c1 (cf.c2 - cf.c1) s) i0 n (0, 0, activeSum cf.weights cf.mask 0)
      = (n * (cf.c2 - cf.c1), n * (cf.c2 - cf.c1),
          activeSum cf.weights cf.mask (n * (cf.c2 - cf.c1))) := by
    intro n i0
    refine loopFrom_inv _
      (fun k (s : Nat × Nat × ℚ) => s = (k * (cf.c2 - cf.c1), k * (cf.c2 - cf.c1),
        activeSum cf.weights cf.mask (k * (cf.c2 - cf.c1)))) i0 n _ ?_ ?_
    · simp
    · intro k t _ ht
      subst ht
      beta_reduce
      rw [sum_norm_loop]
      have e : k * (cf.c2 - cf.c1) + (cf.c2 - cf.c1) = (k + 1) * (cf.c2 - cf.c1) := by ring
      rw [e]
  have h0 : activeSum cf.weights cf.mask 0 = 0 := by simp [activeSum]
  have h := hrows (cf.r2 - cf.r1) cf.r1
  rw [h0] at h
  simp only [h]
  rfl

/-- A loop that rewrites the entries `0, 1, ..., n-1` of a buffer through a walking pointer. -/
theorem map_loop (g : ℚ → ℚ) (w : Nat → ℚ) (i0 n : Nat) :
    loopFrom (fun _ (s : (Nat → ℚ) × Nat) =>
        (Function.update s.1 s.2 (g (s.1 s.2)), s.2 + 1)) i0 n (w, 0)
      = (fun k => if k < n then g (w k) else w k, n) := by
  refine loopFrom_inv _
    (fun p (s : (Nat → ℚ) × Nat) => s = (fun k => if k < p then g (w k) else w k, p))
    i0 n _ ?_ ?_
  · simp
  · intro p t _ ht
    subst ht
    refine Prod.ext ?_ rfl
    funext k
    simp only
    by_cases hkp : k = p
    · subst hkp
      simp
    · rw [Function.update_noteq hkp]
      by_cases h1 : k < p
      · simp [h1, Nat.lt_succ_of_lt h1]
      · have h2 : ¬ k < p + 1 := by omega
        simp [h1, h2]

/-- The scaling loop of `divisive_normalize_l1`. -/
theorem scale_loop (w : Nat → ℚ) (factor : ℚ) (i0 n : Nat) :
    loopFrom (fun _ (s : (Nat → ℚ) × Nat) =>
        (Function.update s.1 s.2 (s.1 s.2 * factor), s.2 + 1)) i0 n (w, 0)
      = (fun k => if k < n then w k * factor else w k, n) :=
  map_loop (fun v => v * factor) w i0 n

/-- What `divisive_normalize_l1` leaves in a connection field that passes its gate. -/
theorem normalize_cf_eq (cf : CF) :
    normalize_cf cf =
      { cf with
        weights := fun k => if k < cf.rc.toNat then cf.weights k * (1 / cf.divisor)
          else cf.weights k
        _norm_total := cf.divisor
        _has_norm_total := 0 } := by
  have hs := SUM_NORM_TOTAL_eq cf
  unfold normalize_cf forLoop CF.divisor CF.rc
  simp only [CF.r1, CF.r2, CF.c1, CF.c2] at hs ⊢
  rw [hs, Nat.sub_zero, scale_loop]

/-- The cells that the loop nests visit are among those that the scaling loop visits. -/
theorem ncells_le_rc (cf : CF) : cf.ncells ≤ cf.rc.toNat := by
  unfold CF.ncells CF.rc
  by_cases h1 : cf.r1 ≤ cf.r2
  · by_cases h2 : cf.c1 ≤ cf.c2
    · have e : ((cf.r2 : Int) - (cf.r1 : Int)) * ((cf.c2 : Int) - (cf.c1 : Int))
          = (((cf.r2 - cf.r1) * (cf.c2 - cf.c1) : Nat) : Int) := by
        push_cast [Nat.cast_sub h1, Nat.cast_sub h2]
        ring
      rw [e, Int.toNat_natCast]
    · have : cf.c2 - cf.c1 = 0 := by omega
      simp [this]
  · have : cf.r2 - cf.r1 = 0 := by omega
    simp [this]

theorem normalize_cf_weights (cf : CF) (k : Nat) (hk : k < cf.ncells) :
    (normalize_cf cf).weights k = cf.weights k * (1 / cf.divisor) := by
  have h : k < cf.rc.toNat := lt_of_lt_of_le hk (ncells_le_rc cf)
  rw [normalize_cf_eq]
  simp only [h, if_true]

theorem normalize_cf_mask (cf : CF) : (normalize_cf cf).mask = cf.mask := by
  rw [normalize_cf_eq]

theorem normalize_cf_ncells (cf : CF) : (normalize_cf cf).ncells = cf.ncells := by
  rw [normalize_cf_eq]
  rfl

theorem normalize_cf_flag (cf : CF) : (normalize_cf cf)._has_norm_total = 0 := by
  rw [normalize_cf_eq]

theorem normalize_cf_cacheOK (cf : CF) : (normalize_cf cf).cacheOK := by
  intro h
  exact absurd (normalize_cf_flag cf) h

theorem activeSum_nonneg (w m : Nat → ℚ) (n : Nat) : 0 ≤ activeSum w m n := by
  unfold activeSum
  refine Finset.sum_nonneg (fun k _ => ?_)
  by_cases hm : m k ≥ MASK_THRESHOLD
  · simp only [hm, if_true]; exact abs_nonneg _
  · simp only [hm, if_false]; exact le_refl _

theorem activeSum_scale (w m : Nat → ℚ) (n : Nat) (c : ℚ) :
    activeSum (fun k => w k * c) m n = activeSum w m n * |c| := by
  unfold activeSum
  rw [Finset.sum_mul]
  refine Finset.sum_congr rfl (fun k _ => ?_)
  by_cases hm : m k ≥ MASK_THRESHOLD
  · simp only [hm, if_true, abs_mul]
  · simp only [hm, if_false, zero_mul]

theorem activeSum_congr (w w' m : Nat → ℚ) (n : Nat) (h : ∀ k, k < n → w' k = w k) :
    activeSum w' m n = activeSum w m n := by
  unfold activeSum
  refine Finset.sum_congr rfl (fun k hk => ?_)
  rw [h k (Finset.mem_range.1 hk)]

/-- The active mass of a patch after its normalisation. -/
theorem normalize_cf_activeSum (cf : CF) :
    activeSum (normalize_cf cf).weights (normalize_cf cf).mask (normalize_cf cf).ncells
      = activeSum cf.weights cf.mask cf.ncells * |1 / cf.divisor| := by
  rw [normalize_cf_mask, normalize_cf_ncells, ← activeSum_scale]
  exact activeSum_congr _ _ _ _ (fun k hk => normalize_cf_weights cf k hk)

/-! ## Cells of the rectangle -/

theorem cell_lt_ncells (cf : CF) (i j : Nat) (hi : cf.r1 ≤ i) (hi2 : i < cf.r2)
    (hj : cf.c1 ≤ j) (hj2 : j < cf.c2) : cf.cell i j < cf.ncells := by
  unfold CF.cell CF.ncells
  have h1 : j - cf.c1 < cf.c2 - cf.c1 := by omega
  have h2 : i - cf.r1 + 1 ≤ cf.r2 - cf.r1 := by omega
  calc (i - cf.r1) * (cf.c2 - cf.c1) + (j - cf.c1)
      < (i - cf.r1) * (cf.c2 - cf.c1) + (cf.c2 - cf.c1) := by omega
    _ = (i - cf.r1 + 1) * (cf.c2 - cf.c1) := by ring
    _ ≤ (cf.r2 - cf.r1) * (cf.c2 - cf.c1) := Nat.mul_le_mul_right _ h2

theorem inputOffset_cell (cf : CF) (icols i j : Nat) (hi : cf.r1 ≤ i)
    (hj : cf.c1 ≤ j) (hj2 : j < cf.c2) : cf.inputOffset icols (cf.cell i j) = i * icols + j := by
  unfold CF.cell
  rw [inputOffset_row cf icols (i - cf.r1) (j - cf.c1) (by omega)]
  have e : cf.r1 + (i - cf.r1) = i := by omega
  rw [e, Nat.mul_comm]
  omega

/-! ## One unit of a learning call -/

theorem gated_getElem? (G : Prop) [Decidable G] (f : CF → CF) (res cfs : List CF) (r : Nat)
    (cf : CF) (h : res[r]? = (cfs[r]?).map (fun cf => if G then f cf else cf))
    (hcf : cfs[r]? = some cf) : res[r]? = some (if G then f cf else cf) := by
  rw [h, hcf]
  rfl

theorem learn_cf_below (rule : ℚ → ℚ → ℚ) (X : Nat → ℚ) (icols : Nat) (cf : CF) (k : Nat)
    (hm : cf.mask k < MASK_THRESHOLD) : (learn_cf rule X icols cf).weights k = cf.weights k := by
  rw [learn_cf_weights]
  have hm' : ¬ cf.mask k ≥ MASK_THRESHOLD := not_le.2 hm
  simp only [learnedCell, hm', if_false, ite_self]

theorem learn_cf_active (rule : ℚ → ℚ → ℚ) (X : Nat → ℚ) (icols : Nat) (cf : CF) (k : Nat)
    (hk : k < cf.ncells) (hm : cf.mask k ≥ MASK_THRESHOLD) :
    (learn_cf rule X icols cf).weights k
      = rule (cf.weights k) (X (cf.inputOffset icols k)) := by
  rw [learn_cf_weights, if_pos hk]
  simp only [learnedCell, hm, if_true]

theorem clamp_eq_max (v : ℚ) : (if v < 0 then 0 else v) = max v 0 := by
  by_cases h : v < 0
  · rw [if_pos h, max_eq_right (le_of_lt h)]
  · rw [if_neg h, max_eq_left (not_lt.1 h)]

/-! ## The cache invariant and the unit mass -/

theorem cacheOK_preserved (res cfs : List CF) (F : Nat → CF → CF)
    (h : ∀ r, res[r]? = (cfs[r]?).map (F r)) (hF : ∀ r cf, cf.cacheOK → (F r cf).cacheOK)
    (hc : ∀ cf ∈ cfs, cf.cacheOK) : ∀ cf ∈ res, cf.cacheOK := by
  intro cf hmem
  obtain ⟨r, hr⟩ := List.mem_iff_getElem?.1 hmem
  rw [h r] at hr
  cases h0 : cfs[r]? with
  | none => rw [h0] at hr; exact Option.noConfusion hr
  | some cf0 =>
    rw [h0] at hr
    have e : F r cf0 = cf := Option.some.inj hr
    rw [← e]
    exact hF r cf0 (hc cf0 (List.mem_iff_getElem?.2 ⟨r, h0⟩))

theorem activeSum_example : activeSum (fun _ => 1 / 2) (fun _ => 1) 4 = 2 := by
  simp [activeSum, MASK_THRESHOLD, Finset.sum_range_succ]
  norm_num
  rw [abs_of_pos (by norm_num : (0 : ℚ) < 1 / 2)]
  norm_num

theorem cachedCF_cacheOK : cachedCF.cacheOK := by
  intro _
  exact activeSum_example.symm

/-- A patch of nonzero active mass, divided by that mass, has the active mass 1. -/
theorem normalize_cf_unit (cf : CF) (hd : cf.divisor = activeSum cf.weights cf.mask cf.ncells)
    (hne : activeSum cf.weights cf.mask cf.ncells ≠ 0) :
    activeSum (normalize_cf cf).weights (normalize_cf cf).mask (normalize_cf cf).ncells = 1 := by
  rw [normalize_cf_activeSum, hd]
  have hpos : 0 < activeSum cf.weights cf.mask cf.ncells :=
    lt_of_le_of_ne (activeSum_nonneg _ _ _) (Ne.symm hne)
  rw [abs_of_pos (by positivity)]
  field_simp

theorem divisor_of_stale (cf : CF) (h : cf._has_norm_total = 0) :
    cf.divisor = activeSum cf.weights cf.mask cf.ncells := by
  unfold CF.divisor
  rw [if_pos h]

theorem divisor_of_cacheOK (cf : CF) (h : cf.cacheOK) :
    cf.divisor = activeSum cf.weights cf.mask cf.ncells := by
  by_cases h0 : cf._has_norm_total = 0
  · exact divisor_of_stale cf h0
  · unfold CF.divisor
    rw [if_neg h0]
    exact h h0

/-! ## euclidean_response -/

/-- A loop that adds `f i p q` to an accumulator while two pointers advance. -/
theorem loopFrom_acc2 (f : Nat → Nat → Nat → ℚ) (d1 d2 lo n : Nat) (a : ℚ) (p q : Nat) :
    loopFrom (fun i (s : ℚ × Nat × Nat) => (s.1 + f i s.2.1 s.2.2, s.2.1 + d1, s.2.2 + d2))
        lo n (a, p, q)
      = (a + ∑ k in Finset.range n, f (lo + k) (p + k * d1) (q + k * d2),
          p + n * d1, q + n * d2) := by
  induction n with
  | zero => simp [loopFrom]
  | succ n ih =>
    rw [loopFrom_succ_last, ih, Finset.sum_range_succ]
    refine Prod.ext ?_ (Prod.ext ?_ ?_)
    · simp only; ring
    · simp only; ring
    · simp only; ring

/-- The loop nest of `euclidean_response` computes the sum of squares over the rectangle. -/
theorem euclidean_tot_eq (X : Nat → ℚ) (icols : Nat) (cf : CF) :
    euclidean_tot X icols cf
      = ∑ i in Finset.Ico cf.r1 cf.r2, ∑ j in Finset.Ico cf.c1 cf.c2,
          (cf.weights (cf.cell i j) - X (i * icols + j)) ^ 2 := by
  obtain ⟨w, st, m, ⟨rr1, rr2, cc1, cc2⟩, nt, hnt⟩ := cf
  simp only [euclidean_tot, forLoop, CF.r1, CF.r2, CF.c1, CF.c2, CF.cell]
  have inner : ∀ (u : ℚ × Nat × Nat),
      loopFrom (fun _ (v : ℚ × Nat × Nat) =>
          (v.1 + (w v.2.2 - X v.2.1) * (w v.2.2 - X v.2.1), v.2.1 + 1, v.2.2 + 1))
          cc1 (cc2 - cc1) (u.1, u.2.1, u.2.2)
        = (u.1 + ∑ k in Finset.range (cc2 - cc1),
              (w (u.2.2 + k * 1) - X (u.2.1 + k * 1)) * (w (u.2.2 + k * 1) - X (u.2.1 + k * 1)),
            u.2.1 + (cc2 - cc1) * 1, u.2.2 + (cc2 - cc1) * 1) := by
    intro u
    exact loopFrom_acc2 (fun _ p q => (w q - X p) * (w q - X p)) 1 1 cc1 (cc2 - cc1)
      u.1 u.2.1 u.2.2
  simp only [inner]
  rw [loopFrom_acc2 (fun _ p q => ∑ k in Finset.range (cc2 - cc1),
      (w (q + k * 1) - X (p + k * 1)) * (w (q + k * 1) - X (p + k * 1))) icols (cc2 - cc1)
      rr1 (rr2 - rr1) 0 (icols * rr1 + cc1) 0]
  simp only [zero_add, Finset.sum_Ico_eq_sum_range]
  refine Finset.sum_congr rfl (fun a _ => Finset.sum_congr rfl (fun b _ => ?_))
  have e1 : a * (cc2 - cc1) + b * 1 = (rr1 + a - rr1) * (cc2 - cc1) + (cc1 + b - cc1) := by
    rw [Nat.add_sub_cancel_left, Nat.add_sub_cancel_left, Nat.mul_one]
  have e2 : icols * rr1 + cc1 + a * icols + b * 1 = (rr1 + a) * icols + (cc1 + b) := by ring
  rw [e1, e2, sq]

theorem euclidean_tot_nonneg (X : Nat → ℚ) (icols : Nat) (cf : CF) :
    0 ≤ euclidean_tot X icols cf := by
  rw [euclidean_tot_eq]
  exact Finset.sum_nonneg (fun i _ => Finset.sum_nonneg (fun j _ => sq_nonneg _))

theorem maxTo_ge (d : Nat → ℚ) (p k : Nat) (hk : k < p) : d k ≤ maxTo d p := by
  induction p with
  | zero => exact absurd hk (Nat.not_lt_zero k)
  | succ p ih =>
    unfold maxTo
    by_cases hgt : d p > maxTo d p
    · rw [if_pos hgt]
      rcases Nat.lt_succ_iff_lt_or_eq.1 hk with h | h
      · exact le_trans (ih h) (le_of_lt hgt)
      · rw [h]
    · rw [if_neg hgt]
      rcases Nat.lt_succ_iff_lt_or_eq.1 hk with h | h
      · exact ih h
      · rw [h]; exact not_lt.1 hgt

theorem maxTo_attained (d : Nat → ℚ) (p : Nat) :
    maxTo d p = 0 ∨ ∃ k, k < p ∧ d k = maxTo d p := by
  induction p with
  | zero => left; rfl
  | succ p ih =>
    unfold maxTo
    by_cases hgt : d p > maxTo d p
    · rw [if_pos hgt]
      exact Or.inr ⟨p, Nat.lt_succ_self p, rfl⟩
    · rw [if_neg hgt]
      rcases ih with h | ⟨k, hk, hd⟩
      · exact Or.inl h
      · exact Or.inr ⟨k, Nat.lt_succ_of_lt hk, hd⟩

/-- With distances that are not negative, the maximum over a non-empty range is attained. -/
theorem maxTo_attained_of_nonneg (d : Nat → ℚ) (p : Nat) (hp : 0 < p)
    (hd : ∀ k, k < p → 0 ≤ d k) : ∃ k, k < p ∧ d k = maxTo d p := by
  rcases maxTo_attained d p with h | h
  · refine ⟨0, hp, ?_⟩
    have h1 := maxTo_ge d p 0 hp
    rw [h] at h1 ⊢
    exact le_antisymm h1 (hd 0 hp)
  · exact h

/-- The first loop of `euclidean_response` over units that all exist. -/
theorem euclidean_first_pass (sqrt : ℚ → ℚ) (X : Nat → ℚ) (icols : Nat) (temp_act : Nat → ℚ)
    (cfs : List CF) (d : Nat → ℚ) (n : Nat) (hlen : n ≤ cfs.length)
    (hd : ∀ k cf, cfs[k]? = some cf → d k = sqrt (euclidean_tot X icols cf)) :
    loopFrom (fun r (s : (Nat → ℚ) × Nat × ℚ) =>
        match cfs[r]? with
        | none => s
        | some cf =>
          (Function.update s.1 s.2.1 (sqrt (euclidean_tot X icols cf)), s.2.1 + 1,
            if sqrt (euclidean_tot X icols cf) > s.2.2 then sqrt (euclidean_tot X icols cf)
            else s.2.2)) 0 n (temp_act, 0, 0)
      = (fun k => if k < n then d k else temp_act k, n, maxTo d n) := by
  refine loopFrom_inv _
    (fun p (s : (Nat → ℚ) × Nat × ℚ) =>
      s = (fun k => if k < p then d k else temp_act k, p, maxTo d p)) 0 n _ ?_ ?_
  · simp [maxTo]
  · intro p t hp ht
    subst ht
    rw [zero_add]
    have hlt : p < cfs.length := lt_of_lt_of_le hp hlen
    have hsome : cfs[p]? = some cfs[p] := List.getElem?_eq_getElem hlt
    simp only [hsome, ← hd p cfs[p] hsome]
    refine Prod.ext ?_ (Prod.ext rfl ?_)
    · funext k
      simp only
      by_cases hkp : k = p
      · subst hkp
        simp
      · rw [Function.update_noteq hkp]
        by_cases h1 : k < p
        · simp [h1, Nat.lt_succ_of_lt h1]
        · have h2 : ¬ k < p + 1 := by omega
          simp [h1, h2]
    · rfl

/-- The contents of `temp_act` after `euclidean_response`. -/
theorem euclidean_response_apply (sqrt : ℚ → ℚ) (X : Nat → ℚ) (strength : ℚ) (icols : Nat)
    (temp_act : Nat → ℚ) (cfs : List CF) (d : Nat → ℚ) (n : Nat) (hlen : n ≤ cfs.length)
    (hd : ∀ k cf, cfs[k]? = some cf → d k = sqrt (euclidean_tot X icols cf))
    (r : Nat) (hr : r < n) :
    euclidean_response sqrt X strength icols temp_act cfs n r
      = strength * (maxTo d n - d r) := by
  unfold euclidean_response forLoop
  simp only [Nat.sub_zero]
  rw [euclidean_first_pass sqrt X icols temp_act cfs d n hlen hd]
  simp only
  rw [map_loop (fun v => strength * (maxTo d n - v))]
  simp only [hr, if_true]

/-! ## The sparse dot product -/

theorem foldl_update_acc (input : Nat → ℚ) (k : Nat) (l : List (Nat × ℚ)) :
    ∀ act : Nat → ℚ,
      l.foldl (fun activity (it : Nat × ℚ) =>
          Function.update activity k (activity k + input it.1 * it.2)) act
        = Function.update act k (act k + (l.map (fun e => input e.1 * e.2)).sum) := by
  induction l with
  | nil =>
    intro act
    simp
  | cons e rest ih =>
    intro act
    rw [List.foldl_cons, ih]
    simp only [Function.update_same, Function.update_idem, List.map_cons, List.sum_cons]
    rw [add_assoc]

/-- The contents of `activity` after `DotProduct`, at a column of the matrix. -/
theorem DotProduct_apply (m : SparseMatrixExt) (num_cfs : Nat) (strength : ℚ)
    (input activity : Nat → ℚ) (r : Nat) (hr : r < m.outerSize) (hn : r < num_cfs) :
    m.DotProduct num_cfs strength input activity r
      = (activity r + m.colDot input r) * strength := by
  unfold SparseMatrixExt.DotProduct forLoop
  simp only [Nat.sub_zero, foldl_update_acc]
  have h2 := loopFrom_update (fun _ (v : ℚ) => v * strength) num_cfs
    (loopFrom (fun k (activity : Nat → ℚ) => Function.update activity k
      (activity k + ((m.inner k).map (fun e => input e.1 * e.2)).sum)) 0 m.outerSize activity) r
  have h1 := loopFrom_update (fun k (v : ℚ) => v + ((m.inner k).map (fun e => input e.1 * e.2)).sum)
    m.outerSize activity r
  rw [h2, if_pos hn, h1, if_pos hr]
  rfl

/-- The list that the loop of `setTriplets` builds. -/
theorem tripletList_eq (f : Nat → Nat × Nat × ℚ) (n : Nat) :
    loopFrom (fun i (l : List (Nat × Nat × ℚ)) => l ++ [f i]) 0 n [] = (List.range n).map f := by
  induction n with
  | zero => rfl
  | succ n ih =>
    rw [loopFrom_succ_last, ih, zero_add, List.range_succ, List.map_append]
    rfl

theorem insertCoeff_sum (input : Nat → ℚ) (row : Nat) (v : ℚ) (col : List (Nat × ℚ)) :
    ((insertCoeff col row v).map (fun e => input e.1 * e.2)).sum
      = (col.map (fun e => input e.1 * e.2)).sum + input row * v := by
  induction col with
  | nil => simp [insertCoeff]
  | cons e rest ih =>
    unfold insertCoeff
    by_cases h1 : row < e.1
    · rw [if_pos h1]
      simp only [List.map_cons, List.sum_cons]
      ring
    · rw [if_neg h1]
      by_cases h2 : row = e.1
      · rw [if_pos h2]
        simp only [List.map_cons, List.sum_cons, h2]
        ring
      · rw [if_neg h2]
        simp only [List.map_cons, List.sum_cons, ih]
        ring

theorem getD_modify (f : List (Nat × ℚ) → List (Nat × ℚ)) (l : List (List (Nat × ℚ)))
    (n r : Nat) (hr : r < l.length) :
    (l.modify f n).getD r [] = if n = r then f (l.getD r []) else l.getD r [] := by
  simp only [List.getD_eq_getElem?_getD, List.getElem?_modify, List.getElem?_eq_getElem hr,
    Option.map_eq_map, Option.map_some', Option.getD_some]

theorem addTriplet_length (m : SparseMatrixExt) (t : Nat × Nat × ℚ) :
    (m.addTriplet t).outer.length = m.outer.length := by
  simp [SparseMatrixExt.addTriplet]

theorem addTriplet_colDot (m : SparseMatrixExt) (t : Nat × Nat × ℚ) (input : Nat → ℚ) (r : Nat)
    (hr : r < m.outer.length) :
    (m.addTriplet t).colDot input r
      = m.colDot input r + (if t.2.1 = r then input t.1 * t.2.2 else 0) := by
  simp only [SparseMatrixExt.colDot, SparseMatrixExt.inner, SparseMatrixExt.addTriplet]
  rw [getD_modify _ _ _ _ hr]
  by_cases hc : t.2.1 = r
  · rw [if_pos hc, if_pos hc, insertCoeff_sum]
  · rw [if_neg hc, if_neg hc, add_zero]

/-- The fold of `setFromTriplets` adds to the dot product of column `r` the terms of the
triplets of that column. -/
theorem foldl_triplets_colDot (input : Nat → ℚ) (r : Nat) (T : List (Nat × Nat × ℚ)) :
    ∀ m : SparseMatrixExt, r < m.outer.length →
      (T.foldl SparseMatrixExt.addTriplet m).colDot input r
        = m.colDot input r + (T.map (fun t => if t.2.1 = r then input t.1 * t.2.2 else 0)).sum
      ∧ (T.foldl SparseMatrixExt.addTriplet m).outer.length = m.outer.length := by
  induction T with
  | nil =>
    intro m _
    simp
  | cons t rest ih =>
    intro m hr
    rw [List.foldl_cons]
    obtain ⟨h1, h2⟩ := ih (m.addTriplet t) (by rw [addTriplet_length]; exact hr)
    refine ⟨?_, by rw [h2, addTriplet_length]⟩
    rw [h1, addTriplet_colDot m t input r hr, List.map_cons, List.sum_cons, add_assoc]

/-- The dot product of a column of the matrix that `setFromTriplets` builds. -/
theorem setFromTriplets_colDot (m : SparseMatrixExt) (input : Nat → ℚ)
    (T : List (Nat × Nat × ℚ)) (r : Nat) (hr : r < m.outerSize) :
    (m.setFromTriplets T).colDot input r
      = (T.map (fun t => if t.2.1 = r then input t.1 * t.2.2 else 0)).sum
    ∧ (m.setFromTriplets T).outerSize = m.outerSize := by
  unfold SparseMatrixExt.setFromTriplets
  have h0 : r < ({ m with outer := List.replicate m.outerSize [] }
      : SparseMatrixExt).outer.length := by
    simp only [List.length_replicate]
    exact hr
  obtain ⟨h1, h2⟩ := foldl_triplets_colDot input r T _ h0
  refine ⟨?_, ?_⟩
  · rw [h1]
    have e : ({ m with outer := List.replicate m.outerSize [] } : SparseMatrixExt).colDot
        input r = 0 := by
      simp [SparseMatrixExt.colDot, SparseMatrixExt.inner, List.getD_eq_getElem?_getD,
        List.getElem?_replicate, hr]
    rw [e, zero_add]
  · unfold SparseMatrixExt.outerSize at *
    rw [h2]
    simp

/-! ## The triplet flattening -/

theorem sum_map_range' (f : Nat → ℚ) (lo n : Nat) :
    ((List.range' lo n).map f).sum = ∑ k in Finset.range n, f (lo + k) := by
  induction n with
  | zero => simp
  | succ n ih =>
    rw [List.range'_concat, List.map_append, List.sum_append, ih, Finset.sum_range_succ]
    simp

theorem sum_map_flatMap {α β : Type} (l : List α) (g : α → List β) (h : β → ℚ) :
    ((l.flatMap g).map h).sum = (l.map (fun a => ((g a).map h).sum)).sum := by
  induction l with
  | nil => simp
  | cons a rest ih =>
    rw [List.flatMap_cons, List.map_append, List.sum_append, ih, List.map_cons, List.sum_cons]

/-- The terms of column `r` among the triplets of the unit `r0`. -/
theorem cfTriplets_sum (X : Nat → ℚ) (icols r0 r : Nat) (cf : CF) :
    ((cfTriplets icols r0 cf).map (fun t => if t.2.1 = r then X t.1 * t.2.2 else 0)).sum
      = if r0 = r then dot_product_cf X icols cf else 0 := by
  unfold cfTriplets
  rw [sum_map_flatMap, sum_map_range']
  simp only [List.map_map, sum_map_range']
  by_cases h : r0 = r
  · rw [if_pos h, dot_product_cf_eq]
    simp only [Finset.sum_Ico_eq_sum_range]
    refine Finset.sum_congr rfl (fun a _ => Finset.sum_congr rfl (fun b _ => ?_))
    simp only [Function.comp, h, if_true]
    rw [mul_comm]
  · rw [if_neg h]
    refine Finset.sum_eq_zero (fun a _ => Finset.sum_eq_zero (fun b _ => ?_))
    simp only [Function.comp, h, if_false]

/-- The terms of column `r` among the triplets of a collection. -/
theorem flattenFrom_sum (X : Nat → ℚ) (icols r : Nat) (cfs : List CF) :
    ∀ r0, ((flattenFrom icols r0 cfs).map
        (fun t => if t.2.1 = r then X t.1 * t.2.2 else 0)).sum
      = if r0 ≤ r then
          (match cfs[r - r0]? with
            | some cf => dot_product_cf X icols cf
            | none => 0)
        else 0 := by
  induction cfs with
  | nil =>
    intro r0
    simp [flattenFrom]
  | cons cf rest ih =>
    intro r0
    unfold flattenFrom
    rw [List.map_append, List.sum_append, cfTriplets_sum, ih (r0 + 1)]
    by_cases h1 : r0 = r
    · subst h1
      simp
    · rw [if_neg h1, zero_add]
      by_cases h2 : r0 ≤ r
      · have h3 : r0 + 1 ≤ r := by omega
        have e : r - r0 = (r - (r0 + 1)) + 1 := by omega
        rw [if_pos h2, if_pos h3, e, List.getElem?_cons_succ]
      · have h3 : ¬ r0 + 1 ≤ r := by omega
        rw [if_neg h2, if_neg h3]

/-! ## Stale totals -/

theorem divisor_sameButStale (cf1 cf2 : CF) (h : cf1.sameButStale cf2) :
    cf1.divisor = cf2.divisor := by
  obtain ⟨hw, _, hm, hs, hf, hn⟩ := h
  unfold CF.divisor CF.ncells CF.r1 CF.r2 CF.c1 CF.c2
  rw [← hw, ← hm, ← hs, ← hf]
  by_cases h0 : cf1._has_norm_total = 0
  · rw [if_pos h0, if_pos h0]
  · rw [if_neg h0, if_neg h0]
    exact hn h0

theorem normalize_cf_sameButStale (cf1 cf2 : CF) (h : cf1.sameButStale cf2) :
    (normalize_cf cf1).weights = (normalize_cf cf2).weights := by
  have hd := divisor_sameButStale cf1 cf2 h
  obtain ⟨hw, _, _, hs, _, _⟩ := h
  rw [normalize_cf_eq, normalize_cf_eq]
  simp only [CF.rc, CF.r1, CF.r2, CF.c1, CF.c2, hw, hs, hd]

/-! ## The sparse propagation and learning methods -/

/-- The contents of `activity` after `DotProduct`, at any position. -/
theorem DotProduct_apply_all (m : SparseMatrixExt) (num_cfs : Nat) (strength : ℚ)
    (input activity : Nat → ℚ) (r : Nat) :
    m.DotProduct num_cfs strength input activity r
      = (fun v => if r < num_cfs then v * strength else v)
          (if r < m.outerSize then activity r + m.colDot input r else activity r) := by
  unfold SparseMatrixExt.DotProduct forLoop
  simp only [Nat.sub_zero, foldl_update_acc]
  have h2 := loopFrom_update (fun _ (v : ℚ) => v * strength) num_cfs
    (loopFrom (fun k (activity : Nat → ℚ) => Function.update activity k
      (activity k + ((m.inner k).map (fun e => input e.1 * e.2)).sum)) 0 m.outerSize activity) r
  have h1 := loopFrom_update (fun k (v : ℚ) => v + ((m.inner k).map (fun e => input e.1 * e.2)).sum)
    m.outerSize activity r
  rw [h2, h1]
  rfl

/-- The step of `DotProduct_opt` is the step of `DotProduct` on the input whose entries below
`epsilon` are replaced by 0. -/
theorem DotProduct_opt_step (input : Nat → ℚ) (k : Nat) (activity : Nat → ℚ) (it : Nat × ℚ) :
    (if input it.1 ≥ (1 / 1000000 : ℚ) then
        Function.update activity k (activity k + input it.1 * it.2)
      else activity)
      = Function.update activity k
          (activity k + (if input it.1 < (1 / 1000000 : ℚ) then 0 else input it.1) * it.2) := by
  by_cases h : input it.1 ≥ (1 / 1000000 : ℚ)
  · rw [if_pos h, if_neg (not_lt.2 h)]
  · rw [if_neg h, if_pos (not_le.1 h), zero_mul, add_zero, Function.update_eq_self]

theorem DotProduct_opt_eq (m : SparseMatrixExt) (num_cfs : Nat) (strength : ℚ)
    (input activity : Nat → ℚ) :
    m.DotProduct_opt num_cfs strength input activity
      = m.DotProduct num_cfs strength
          (fun i => if input i < (1 / 1000000 : ℚ) then 0 else input i) activity := by
  unfold SparseMatrixExt.DotProduct_opt SparseMatrixExt.DotProduct
  simp only [DotProduct_opt_step]

/-- The inner loop of `Hebbian` and `Hebbian_opt`, `upd` giving the rewritten value of an
entry. -/
theorem foldl_column_update (upd : Nat × ℚ → ℚ) (k : Nat) (col : List (Nat × ℚ)) :
    ∀ (acc : List (Nat × ℚ)) (nt : Nat → ℚ),
      col.foldl (fun (t : List (Nat × ℚ) × (Nat → ℚ)) (it : Nat × ℚ) =>
          (t.1 ++ [(it.1, upd it)], Function.update t.2 k (t.2 k + upd it))) (acc, nt)
        = (acc ++ col.map (fun it => (it.1, upd it)),
            Function.update nt k (nt k + (col.map upd).sum)) := by
  induction col with
  | nil =>
    intro acc nt
    simp
  | cons e rest ih =>
    intro acc nt
    rw [List.foldl_cons, ih]
    simp only [Function.update_same, Function.update_idem, List.map_cons, List.sum_cons,
      List.append_assoc, List.singleton_append, add_assoc]

theorem inner_set (m : SparseMatrixExt) (k c : Nat) (col : List (Nat × ℚ))
    (hk : k < m.outer.length) :
    ({ m with outer := m.outer.set k col } : SparseMatrixExt).inner c
      = if c = k then col else m.inner c := by
  simp only [SparseMatrixExt.inner, List.getD_eq_getElem?_getD, List.getElem?_set]
  by_cases h : c = k
  · subst h
    simp [hk]
  · rw [if_neg (Ne.symm h), if_neg h]

/-- A loop over the columns that rewrites column `k` to `F k` of it and adds `D k` of it to
entry `k` of a vector. -/
theorem column_loop (F : Nat → List (Nat × ℚ) → List (Nat × ℚ))
    (D : Nat → List (Nat × ℚ) → ℚ) (m : SparseMatrixExt) (nt : Nat → ℚ) (p : Nat)
    (hp : p ≤ m.outer.length) :
    ∃ res : SparseMatrixExt × (Nat → ℚ),
      loopFrom (fun k (s : SparseMatrixExt × (Nat → ℚ)) =>
          (({ s.1 with outer := s.1.outer.set k (F k (s.1.inner k)) } : SparseMatrixExt),
            Function.update s.2 k (s.2 k + D k (s.1.inner k)))) 0 p (m, nt) = res ∧
      res.1.innerSize = m.innerSize ∧ res.1.outer.length = m.outer.length ∧
      (∀ c, res.1.inner c = if c < p then F c (m.inner c) else m.inner c) ∧
      (∀ c, res.2 c = if c < p then nt c + D c (m.inner c) else nt c) := by
  induction p with
  | zero => exact ⟨(m, nt), rfl, rfl, rfl, fun c => by simp, fun c => by simp⟩
  | succ p ih =>
    obtain ⟨res, hres, h1, h2, h3, h4⟩ := ih (by omega)
    rw [loopFrom_succ_last, hres, zero_add]
    refine ⟨_, rfl, h1, ?_, ?_, ?_⟩
    · simp only [List.length_set]
      exact h2
    · intro c
      rw [inner_set res.1 p c _ (by rw [h2]; omega)]
      by_cases hc : c = p
      · subst hc
        rw [if_pos rfl, if_pos (Nat.lt_succ_self c), h3 c, if_neg (Nat.lt_irrefl c)]
      · rw [if_neg hc, h3 c]
        by_cases hlt : c < p
        · rw [if_pos hlt, if_pos (Nat.lt_succ_of_lt hlt)]
        · rw [if_neg hlt, if_neg (by omega)]
    · intro c
      by_cases hc : c = p
      · subst hc
        simp only [Function.update_same]
        rw [if_pos (Nat.lt_succ_self c), h4 c, if_neg (Nat.lt_irrefl c), h3 c,
          if_neg (Nat.lt_irrefl c)]
      · simp only [Function.update_noteq hc]
        rw [h4 c]
        by_cases hlt : c < p
        · rw [if_pos hlt, if_pos (Nat.lt_succ_of_lt hlt)]
        · rw [if_neg hlt, if_neg (by omega)]

theorem inner_of_ge (m : SparseMatrixExt) (c : Nat) (hc : ¬ c < m.outerSize) : m.inner c = [] := by
  unfold SparseMatrixExt.inner SparseMatrixExt.outerSize at *
  rw [List.getD_eq_getElem?_getD, List.getElem?_eq_none (by omega)]
  rfl

/-- The matrix and the vector after a call of `Hebbian` or `Hebbian_opt`, `upd c` giving the
rewritten value of an entry of column `c`. -/
theorem hebbian_loop (upd : Nat → Nat × ℚ → ℚ) (m : SparseMatrixExt) (nt : Nat → ℚ) :
    ∃ res : SparseMatrixExt × (Nat → ℚ),
      loopFrom (fun k (s : SparseMatrixExt × (Nat → ℚ)) =>
          (({ s.1 with outer := (s.1.outer.set k
              ((s.1.inner k).foldl (fun (t : List (Nat × ℚ) × (Nat → ℚ)) (it : Nat × ℚ) =>
                (t.1 ++ [(it.1, upd k it)], Function.update t.2 k (t.2 k + upd k it)))
                ([], s.2)).1) } : SparseMatrixExt),
            ((s.1.inner k).foldl (fun (t : List (Nat × ℚ) × (Nat → ℚ)) (it : Nat × ℚ) =>
                (t.1 ++ [(it.1, upd k it)], Function.update t.2 k (t.2 k + upd k it)))
                ([], s.2)).2)) 0 m.outerSize (m, nt) = res ∧
      res.1.innerSize = m.innerSize ∧ res.1.outerSize = m.outerSize ∧
      (∀ c, res.1.inner c = (m.inner c).map (fun it => (it.1, upd c it))) ∧
      (∀ c, res.2 c = nt c + ((res.1.inner c).map Prod.snd).sum) := by
  obtain ⟨res, hres, h1, h2, h3, h4⟩ := column_loop
    (fun k col => col.map (fun it => (it.1, upd k it))) (fun k col => (col.map (upd k)).sum)
    m nt m.outerSize (le_refl _)
  refine ⟨res, ?_, h1, h2, ?_, ?_⟩
  · rw [← hres]
    simp only [foldl_column_update, List.nil_append]
  · intro c
    rw [h3 c]
    by_cases hc : c < m.outerSize
    · rw [if_pos hc]
    · rw [if_neg hc, inner_of_ge m c hc]
      rfl
  · intro c
    rw [h4 c, h3 c]
    by_cases hc : c < m.outerSize
    · rw [if_pos hc, if_pos hc, List.map_map]
      rfl
    · rw [if_neg hc, if_neg hc, inner_of_ge m c hc]
      simp

/-! ## The stored entries of a matrix -/

theorem entriesFrom_append (l1 l2 : List (List (Nat × ℚ))) :
    ∀ k, entriesFrom k (l1 ++ l2) = entriesFrom k l1 ++ entriesFrom (k + l1.length) l2 := by
  induction l1 with
  | nil => intro k; simp [entriesFrom]
  | cons c rest ih =>
    intro k
    have e : k + 1 + rest.length = k + (rest.length + 1) := by omega
    show List.map (fun e => (e.1, k, e.2)) c ++ entriesFrom (k + 1) (rest ++ l2)
      = (List.map (fun e => (e.1, k, e.2)) c ++ entriesFrom (k + 1) rest)
        ++ entriesFrom (k + (rest.length + 1)) l2
    rw [ih (k + 1), e, List.append_assoc]

theorem mem_entriesFrom (row c : Nat) (v : ℚ) (l : List (List (Nat × ℚ))) :
    ∀ k, (row, c, v) ∈ entriesFrom k l ↔ k ≤ c ∧ (row, v) ∈ l.getD (c - k) [] := by
  induction l with
  | nil => intro k; simp [entriesFrom]
  | cons c0 rest ih =>
    intro k
    simp only [entriesFrom, List.mem_append, List.mem_map, ih (k + 1)]
    constructor
    · rintro (⟨e, he, heq⟩ | ⟨hk, hmem⟩)
      · simp only [Prod.mk.injEq] at heq
        obtain ⟨h1, h2, h3⟩ := heq
        subst h2
        refine ⟨le_refl _, ?_⟩
        rw [Nat.sub_self]
        have : e = (row, v) := Prod.ext h1 h3
        rw [← this]
        exact he
      · refine ⟨by omega, ?_⟩
        have e : c - k = (c - (k + 1)) + 1 := by omega
        rw [e]
        exact hmem
    · rintro ⟨hk, hmem⟩
      by_cases hc : c = k
      · subst hc
        rw [Nat.sub_self] at hmem
        exact Or.inl ⟨(row, v), hmem, rfl⟩
      · have e : c - k = (c - (k + 1)) + 1 := by omega
        rw [e] at hmem
        exact Or.inr ⟨by omega, hmem⟩

theorem mem_entries (m : SparseMatrixExt) (row c : Nat) (v : ℚ) :
    (row, c, v) ∈ m.entries ↔ (row, v) ∈ m.inner c := by
  unfold SparseMatrixExt.entries SparseMatrixExt.inner
  rw [mem_entriesFrom]
  simp

/-- The columns of the stored entries, in their order, do not decrease. -/
theorem entriesFrom_cols (l : List (List (Nat × ℚ))) :
    ∀ k, ((entriesFrom k l).map (fun t => t.2.1)).Pairwise (fun a b => a ≤ b) := by
  induction l with
  | nil => intro k; simp [entriesFrom]
  | cons c0 rest ih =>
    intro k
    simp only [entriesFrom, List.map_append, List.map_map]
    rw [List.pairwise_append]
    refine ⟨?_, ih (k + 1), ?_⟩
    · rw [List.pairwise_map]
      exact List.pairwise_of_forall (fun _ _ => le_refl k)
    · intro a ha b hb
      simp only [List.mem_map, Function.comp] at ha hb
      obtain ⟨e, _, rfl⟩ := ha
      obtain ⟨t, ht, rfl⟩ := hb
      obtain ⟨r, c, v⟩ := t
      have := (mem_entriesFrom r c v rest (k + 1)).1 ht
      show k ≤ c
      omega

/-- Writing a list of entries: the counter advances by the length, and the arrays hold the
entries at the positions written. -/
theorem writeEntries_spec (L : List (Nat × Nat × ℚ)) :
    ∀ s : (Nat → Nat) × (Nat → Nat) × (Nat → ℚ) × Nat,
      (writeEntries L s).2.2.2 = s.2.2.2 + L.length ∧
      ∀ q, tripleAt (writeEntries L s) q
        = if s.2.2.2 ≤ q then (L[q - s.2.2.2]?).getD (tripleAt s q) else tripleAt s q := by
  induction L with
  | nil =>
    intro s
    simp [writeEntries]
  | cons t rest ih =>
    intro s
    have hstep : writeEntries (t :: rest) s
        = writeEntries rest (Function.update s.1 s.2.2.2 t.1, Function.update s.2.1 s.2.2.2 t.2.1,
            Function.update s.2.2.1 s.2.2.2 t.2.2, s.2.2.2 + 1) := rfl
    rw [hstep]
    obtain ⟨h1, h2⟩ := ih (Function.update s.1 s.2.2.2 t.1, Function.update s.2.1 s.2.2.2 t.2.1,
      Function.update s.2.2.1 s.2.2.2 t.2.2, s.2.2.2 + 1)
    refine ⟨?_, ?_⟩
    · rw [h1, List.length_cons]
      simp only
      omega
    · intro q
      rw [h2 q]
      simp only
      by_cases hq : s.2.2.2 + 1 ≤ q
      · have hq' : s.2.2.2 ≤ q := by omega
        have hne : q ≠ s.2.2.2 := by omega
        have e : q - s.2.2.2 = (q - (s.2.2.2 + 1)) + 1 := by omega
        rw [if_pos hq, if_pos hq', e, List.getElem?_cons_succ]
        simp only [tripleAt, Function.update_noteq hne]
      · rw [if_neg hq]
        by_cases hq' : s.2.2.2 ≤ q
        · have heq : q = s.2.2.2 := by omega
          rw [if_pos hq']
          subst heq
          simp [tripleAt]
        · have hne : q ≠ s.2.2.2 := by omega
          rw [if_neg hq']
          simp only [tripleAt, Function.update_noteq hne]

/-- The arrays written from position 0, read back. -/
theorem writeEntries_read (L : List (Nat × Nat × ℚ)) (a1 a2 : Nat → Nat) (a3 : Nat → ℚ) :
    (List.range L.length).map (tripleAt (writeEntries L (a1, a2, a3, 0))) = L := by
  apply List.ext_getElem
  · simp
  · intro q h1 h2
    rw [List.getElem_map, List.getElem_range, (writeEntries_spec L (a1, a2, a3, 0)).2 q]
    simp only [Nat.zero_le, if_true, Nat.sub_zero, List.getElem?_eq_getElem h2, Option.getD_some]

/-- The loops of `iterNonZero` write the stored entries of the matrix in column-major
order. -/
theorem iterNonZero_eq (m : SparseMatrixExt) (a1 a2 : Nat → Nat) (a3 : Nat → ℚ) :
    m.iterNonZero a1 a2 a3 = writeEntries m.entries (a1, a2, a3, 0) := by
  unfold SparseMatrixExt.iterNonZero forLoop SparseMatrixExt.entries
  rw [Nat.sub_zero]
  have key : ∀ p, p ≤ m.outer.length →
      loopFrom (fun k (s : (Nat → Nat) × (Nat → Nat) × (Nat → ℚ) × Nat) =>
        (m.inner k).foldl (fun (s : (Nat → Nat) × (Nat → Nat) × (Nat → ℚ) × Nat)
          (it : Nat × ℚ) =>
          (Function.update s.1 s.2.2.2 it.1, Function.update s.2.1 s.2.2.2 k,
            Function.update s.2.2.1 s.2.2.2 it.2, s.2.2.2 + 1)) s) 0 p (a1, a2, a3, 0)
        = writeEntries (entriesFrom 0 (m.outer.take p)) (a1, a2, a3, 0) := by
    intro p
    induction p with
    | zero => intro _; rfl
    | succ p ih =>
      intro hp
      have hlt : p < m.outer.length := by omega
      rw [loopFrom_succ_last, ih (by omega), zero_add, List.take_succ,
        List.getElem?_eq_getElem hlt, Option.toList_some, entriesFrom_append]
      simp only [entriesFrom, List.append_nil, List.length_take, Nat.min_eq_left (le_of_lt hlt),
        zero_add]
      unfold writeEntries
      rw [List.foldl_append, List.foldl_map]
      have hin : m.inner p = m.outer[p] := by
        simp [SparseMatrixExt.inner, List.getD_eq_getElem?_getD, List.getElem?_eq_getElem hlt]
      rw [hin]
  have h := key m.outerSize (le_refl _)
  rw [h]
  unfold SparseMatrixExt.outerSize
  rw [List.take_length]

/-! ## The matrix built from triplets -/

theorem insertCoeff_perm (row : Nat) (v : ℚ) (col : List (Nat × ℚ))
    (h : ∀ e ∈ col, e.1 ≠ row) : (insertCoeff col row v).Perm ((row, v) :: col) := by
  induction col with
  | nil => exact List.Perm.refl _
  | cons e rest ih =>
    unfold insertCoeff
    have he : e.1 ≠ row := h e (List.mem_cons_self _ _)
    by_cases h1 : row < e.1
    · rw [if_pos h1]
    · rw [if_neg h1, if_neg (Ne.symm he)]
      exact ((ih (fun e' he' => h e' (List.mem_cons_of_mem _ he'))).cons e).trans
        (List.Perm.swap _ _ _)

theorem insertCoeff_sorted (row : Nat) (v : ℚ) (col : List (Nat × ℚ)) (h : sortedRows col) :
    sortedRows (insertCoeff col row v) ∧
    ∀ e ∈ insertCoeff col row v, e.1 = row ∨ ∃ e' ∈ col, e'.1 = e.1 := by
  induction col with
  | nil =>
    refine ⟨by simp [insertCoeff, sortedRows], ?_⟩
    intro e he
    simp only [insertCoeff, List.mem_singleton] at he
    exact Or.inl (by rw [he])
  | cons e0 rest ih =>
    unfold sortedRows at h
    rw [List.pairwise_cons] at h
    obtain ⟨ih1, ih2⟩ := ih h.2
    unfold insertCoeff
    by_cases h1 : row < e0.1
    · rw [if_pos h1]
      refine ⟨?_, ?_⟩
      · unfold sortedRows
        rw [List.pairwise_cons, List.pairwise_cons]
        refine ⟨?_, h.1, h.2⟩
        intro a ha
        rcases List.mem_cons.1 ha with rfl | ha
        · exact h1
        · exact lt_trans h1 (h.1 a ha)
      · intro e he
        rcases List.mem_cons.1 he with rfl | he
        · exact Or.inl rfl
        · exact Or.inr ⟨e, he, rfl⟩
    · rw [if_neg h1]
      by_cases h2 : row = e0.1
      · rw [if_pos h2]
        refine ⟨?_, ?_⟩
        · unfold sortedRows
          rw [List.pairwise_cons]
          exact ⟨h.1, h.2⟩
        · intro e he
          rcases List.mem_cons.1 he with rfl | he
          · exact Or.inr ⟨e0, List.mem_cons_self _ _, rfl⟩
          · exact Or.inr ⟨e, List.mem_cons_of_mem _ he, rfl⟩
      · rw [if_neg h2]
        refine ⟨?_, ?_⟩
        · unfold sortedRows
          rw [List.pairwise_cons]
          refine ⟨?_, ih1⟩
          intro a ha
          rcases ih2 a ha with hr | ⟨e', he', hk⟩
          · rw [hr]
            omega
          · rw [← hk]
            exact h.1 e' he'
        · intro e he
          rcases List.mem_cons.1 he with rfl | he
          · exact Or.inr ⟨e, List.mem_cons_self _ _, rfl⟩
          · rcases ih2 e he with hr | ⟨e', he', hk⟩
            · exact Or.inl hr
            · exact Or.inr ⟨e', List.mem_cons_of_mem _ he', hk⟩

theorem entriesFrom_modify (f : List (Nat × ℚ) → List (Nat × ℚ)) (x : Nat × Nat × ℚ)
    (l : List (List (Nat × ℚ))) :
    ∀ (k j : Nat) (col : List (Nat × ℚ)), l[j]? = some col →
      ((f col).map (fun e => (e.1, k + j, e.2))).Perm
        (x :: col.map (fun e => (e.1, k + j, e.2))) →
      (entriesFrom k (l.modify f j)).Perm (x :: entriesFrom k l) := by
  induction l with
  | nil =>
    intro k j col h
    simp at h
  | cons c0 rest ih =>
    intro k j col h hp
    cases j with
    | zero =>
      simp only [List.getElem?_cons_zero, Option.some.injEq] at h
      subst h
      simp only [List.modify, List.modifyTailIdx, List.modifyHead, entriesFrom]
      rw [Nat.add_zero] at hp
      exact hp.append_right _
    | succ j =>
      rw [List.getElem?_cons_succ] at h
      have e : k + (j + 1) = k + 1 + j := by omega
      rw [e] at hp
      have h' := ih (k + 1) j col h hp
      rw [List.modify_succ_cons]
      simp only [entriesFrom]
      exact (h'.append_left _).trans List.perm_middle

theorem addTriplet_perm (m : SparseMatrixExt) (t : Nat × Nat × ℚ) (hc : t.2.1 < m.outer.length)
    (hnew : ∀ e ∈ m.inner t.2.1, e.1 ≠ t.1) :
    (m.addTriplet t).entries.Perm (t :: m.entries) := by
  unfold SparseMatrixExt.entries SparseMatrixExt.addTriplet
  have hin : m.inner t.2.1 = m.outer[t.2.1] := by
    simp [SparseMatrixExt.inner, List.getD_eq_getElem?_getD, List.getElem?_eq_getElem hc]
  rw [hin] at hnew
  refine entriesFrom_modify _ t m.outer 0 t.2.1 m.outer[t.2.1] (List.getElem?_eq_getElem hc) ?_
  have hp := (insertCoeff_perm t.1 t.2.2 m.outer[t.2.1] hnew).map
    (fun e => (e.1, 0 + t.2.1, e.2))
  rw [List.map_cons] at hp
  simp only [Nat.zero_add] at hp ⊢
  exact hp

theorem addTriplet_sorted (m : SparseMatrixExt) (t : Nat × Nat × ℚ)
    (h : ∀ c, sortedRows (m.inner c)) : ∀ c, sortedRows ((m.addTriplet t).inner c) := by
  intro c
  by_cases hc : c < m.outer.length
  · simp only [SparseMatrixExt.inner, SparseMatrixExt.addTriplet]
    rw [getD_modify _ _ _ _ hc]
    split
    · exact (insertCoeff_sorted _ _ _ (h c)).1
    · exact h c
  · have hc' : ¬ c < (m.addTriplet t).outerSize := by
      unfold SparseMatrixExt.outerSize
      rw [addTriplet_length]
      exact hc
    rw [inner_of_ge _ c hc']
    exact List.Pairwise.nil

/-- The stored entries of the matrix after the fold of `setFromTriplets`, for triplets at
pairwise distinct positions that the matrix does not store yet. -/
theorem foldl_addTriplet_perm (T : List (Nat × Nat × ℚ)) :
    ∀ m : SparseMatrixExt, (∀ t ∈ T, t.2.1 < m.outer.length) →
      (T.map (fun t => (t.1, t.2.1))).Nodup →
      (∀ t ∈ T, ∀ e ∈ m.entries, (e.1, e.2.1) ≠ (t.1, t.2.1)) →
      (T.foldl SparseMatrixExt.addTriplet m).entries.Perm (m.entries ++ T) := by
  induction T with
  | nil =>
    intro m _ _ _
    simp
  | cons t rest ih =>
    intro m hcols hnd hnew
    rw [List.foldl_cons]
    rw [List.map_cons, List.nodup_cons] at hnd
    have hc : t.2.1 < m.outer.length := hcols t (List.mem_cons_self _ _)
    have hstep : (m.addTriplet t).entries.Perm (t :: m.entries) := by
      refine addTriplet_perm m t hc ?_
      intro e he heq
      have hmem : (e.1, t.2.1, e.2) ∈ m.entries := (mem_entries m e.1 t.2.1 e.2).2 he
      exact hnew t (List.mem_cons_self _ _) _ hmem (by rw [heq])
    have h := ih (m.addTriplet t)
      (fun t' ht' => by rw [addTriplet_length]; exact hcols t' (List.mem_cons_of_mem _ ht'))
      hnd.2
      (fun t' ht' e he => by
        rcases List.mem_cons.1 (hstep.mem_iff.1 he) with rfl | he'
        · intro heq
          exact hnd.1 (List.mem_map.2 ⟨t', ht', heq.symm⟩)
        · exact hnew t' (List.mem_cons_of_mem _ ht') e he')
    exact h.trans ((hstep.append_right rest).trans List.perm_middle.symm)

theorem foldl_addTriplet_sorted (T : List (Nat × Nat × ℚ)) :
    ∀ m : SparseMatrixExt, (∀ c, sortedRows (m.inner c)) →
      ∀ c, sortedRows ((T.foldl SparseMatrixExt.addTriplet m).inner c) := by
  induction T with
  | nil => intro m h; exact h
  | cons t rest ih =>
    intro m h
    rw [List.foldl_cons]
    exact ih _ (addTriplet_sorted m t h)

theorem inner_replicate (r n c : Nat) :
    ({ innerSize := r, outer := List.replicate n [] } : SparseMatrixExt).inner c = [] := by
  simp only [SparseMatrixExt.inner, List.getD_eq_getElem?_getD, List.getElem?_replicate]
  split <;> rfl

theorem entriesFrom_replicate (n : Nat) : ∀ k, entriesFrom k (List.replicate n []) = [] := by
  induction n with
  | zero => intro k; rfl
  | succ n ih =>
    intro k
    rw [List.replicate_succ]
    simp only [entriesFrom, List.map_nil, List.nil_append]
    exact ih (k + 1)

/-- The value that `coeff` finds in a column with ascending rows that stores the row. -/
theorem coeffCol_of_mem (col : List (Nat × ℚ)) (row : Nat) (v : ℚ) (hs : sortedRows col)
    (h : (row, v) ∈ col) : coeffCol col row = v := by
  induction col with
  | nil => simp at h
  | cons e rest ih =>
    unfold sortedRows at hs
    rw [List.pairwise_cons] at hs
    unfold coeffCol
    rw [List.find?_cons]
    rcases List.mem_cons.1 h with heq | hmem
    · rw [← heq]
      simp
    · have hlt := hs.1 _ hmem
      have hne : (e.1 == row) = false := by
        simp only [beq_eq_false_iff_ne, ne_eq]
        exact Nat.ne_of_lt hlt
      rw [hne]
      exact ih hs.2 hmem

/-- The value that `coeff` gives for a row that a column does not store. -/
theorem coeffCol_of_not_mem (col : List (Nat × ℚ)) (row : Nat)
    (h : ∀ e ∈ col, e.1 ≠ row) : coeffCol col row = 0 := by
  unfold coeffCol
  have : col.find? (fun e => e.1 == row) = none := by
    rw [List.find?_eq_none]
    intro e he
    simp only [beq_iff_eq]
    exact h e he
  rw [this]

theorem loopFrom_proj {σ τ : Type} (π : σ → τ) (body : Nat → σ → σ) (body' : Nat → τ → τ)
    (h : ∀ k s, π (body k s) = body' k (π s)) (n : Nat) :
    ∀ i s, π (loopFrom body i n s) = loopFrom body' i n (π s) := by
  induction n with
  | zero => intro i s; rfl
  | succ n ih =>
    intro i s
    show π (loopFrom body (i + 1) n (body i s)) = loopFrom body' (i + 1) n (body' i (π s))
    rw [ih, h]

theorem foldl_proj {σ τ α : Type} (π : σ → τ) (f : σ → α → σ) (g : τ → α → τ)
    (h : ∀ s a, π (f s a) = g (π s) a) (l : List α) :
    ∀ s, π (l.foldl f s) = l.foldl g (π s) := by
  induction l with
  | nil => intro s; rfl
  | cons a rest ih =>
    intro s
    rw [List.foldl_cons, List.foldl_cons, ih, h]

/-- The method `nonZeroInds` writes the rows and columns that `iterNonZero` writes. -/
theorem nonZeroInds_eq (m : SparseMatrixExt) (b1 b2 : Nat → Nat) (a3 : Nat → ℚ) :
    m.nonZeroInds b1 b2
      = ((m.iterNonZero b1 b2 a3).1, (m.iterNonZero b1 b2 a3).2.1,
          (m.iterNonZero b1 b2 a3).2.2.2) := by
  unfold SparseMatrixExt.nonZeroInds SparseMatrixExt.iterNonZero forLoop
  exact (loopFrom_proj
    (fun (s : (Nat → Nat) × (Nat → Nat) × (Nat → ℚ) × Nat) => (s.1, s.2.1, s.2.2.2)) _ _
    (fun k s => foldl_proj
      (fun (s : (Nat → Nat) × (Nat → Nat) × (Nat → ℚ) × Nat) => (s.1, s.2.1, s.2.2.2)) _ _
      (fun _ _ => rfl) (m.inner k) s) _ 0 (b1, b2, a3, 0)).symm

/-- The matrix that `setTriplets` builds from triplets at pairwise distinct positions inside
the columns: its stored entries are a permutation of the triplets, and its columns have
ascending rows. -/
theorem setTriplets_entries (m : SparseMatrixExt) (is js : Nat → Nat) (vs : Nat → ℚ) (n : Nat)
    (hrange : ∀ i, i < n → js i < m.outerSize)
    (hdist : ∀ i j, i < n → j < n → (is i, js i) = (is j, js j) → i = j) :
    (m.setTriplets is js vs n).entries.Perm ((List.range n).map (fun i => (is i, js i, vs i))) ∧
    ∀ c, sortedRows ((m.setTriplets is js vs n).inner c) := by
  have hT : m.setTriplets is js vs n
      = m.setFromTriplets ((List.range n).map (fun i => (is i, js i, vs i))) := by
    unfold SparseMatrixExt.setTriplets forLoop
    rw [Nat.sub_zero, tripletList_eq]
  rw [hT]
  unfold SparseMatrixExt.setFromTriplets
  constructor
  · have h := foldl_addTriplet_perm ((List.range n).map (fun i => (is i, js i, vs i)))
      { m with outer := List.replicate m.outerSize [] }
      (by
        intro t ht
        obtain ⟨i, hi, rfl⟩ := List.mem_map.1 ht
        simp only [List.length_replicate]
        exact hrange i (List.mem_range.1 hi))
      (by
        rw [List.map_map]
        refine List.Nodup.map_on ?_ (List.nodup_range n)
        intro i hi j hj heq
        exact hdist i j (List.mem_range.1 hi) (List.mem_range.1 hj) heq)
      (by
        intro t _ e he
        unfold SparseMatrixExt.entries at he
        rw [entriesFrom_replicate] at he
        simp at he)
    have e0 : ({ m with outer := List.replicate m.outerSize [] } : SparseMatrixExt).entries
        = [] := entriesFrom_replicate _ 0
    rw [e0, List.nil_append] at h
    exact h
  · exact foldl_addTriplet_sorted _ _ (fun c => by
      rw [inner_replicate]
      exact List.Pairwise.nil)

/-! ## slice -/

/-- Where the scan pointer stops does not depend on the log. -/
theorem sliceWhile_fst (array1 : Nat → Nat) (size1 row : Nat) :
    ∀ (ind : Nat) (log log' : List Nat),
      (sliceWhile array1 size1 row ind log).1 = (sliceWhile array1 size1 row ind log').1 := by
  intro ind log
  induction ind, log using sliceWhile.induct array1 size1 row with
  | case1 ind log hc ih =>
    intro log'
    rw [sliceWhile.eq_1 array1 size1 row ind log, dif_pos hc,
      sliceWhile.eq_1 array1 size1 row ind log', dif_pos hc]
    exact ih (log' ++ [ind])
  | case2 ind log hc =>
    intro log'
    rw [sliceWhile.eq_1 array1 size1 row ind log, dif_neg hc,
      sliceWhile.eq_1 array1 size1 row ind log', dif_neg hc]

/-- The `while` loop of `slice`: where the scan pointer stops, and what it reads. -/
theorem sliceWhile_spec (array1 : Nat → Nat) (size1 row : Nat) :
    ∀ (ind : Nat) (log : List Nat),
      ind ≤ (sliceWhile array1 size1 row ind log).1 ∧
      (ind ≤ size1 → (sliceWhile array1 size1 row ind log).1 ≤ size1) ∧
      (∀ a, ind ≤ a → a < (sliceWhile array1 size1 row ind log).1 → array1 a < row) ∧
      ¬ (array1 (sliceWhile array1 size1 row ind log).1 < row ∧
          (sliceWhile array1 size1 row ind log).1 < size1) ∧
      (sliceWhile array1 size1 row ind log).2
        = log ++ List.range' ind ((sliceWhile array1 size1 row ind log).1 - ind + 1) := by
  intro ind log
  induction ind, log using sliceWhile.induct array1 size1 row with
  | case1 ind log hc ih =>
    obtain ⟨h1, h2, h3, h4, h6⟩ := ih
    rw [sliceWhile.eq_1 array1 size1 row ind log, dif_pos hc]
    refine ⟨by omega, fun _ => h2 (by omega), ?_, h4, ?_⟩
    · intro a ha1 ha2
      by_cases hai : a = ind
      · rw [hai]; exact hc.1
      · exact h3 a (by omega) ha2
    · rw [h6, List.append_assoc]
      congr 1
      have e : (sliceWhile array1 size1 row (ind + 1) (log ++ [ind])).1 - ind + 1
          = ((sliceWhile array1 size1 row (ind + 1) (log ++ [ind])).1 - (ind + 1) + 1) + 1 := by
        omega
      rw [e, List.range'_succ]
      rfl
  | case2 ind log hc =>
    rw [sliceWhile.eq_1 array1 size1 row ind log, dif_neg hc]
    refine ⟨le_refl _, fun h => h, ?_, hc, ?_⟩
    · intro a ha1 ha2
      simp only at ha2
      omega
    · simp

theorem insertEntry_perm (row : Nat) (v : ℚ) (col : List (Nat × ℚ))
    (h : ∀ e ∈ col, e.1 ≠ row) : (insertEntry col row v).Perm ((row, v) :: col) := by
  induction col with
  | nil => exact List.Perm.refl _
  | cons e rest ih =>
    unfold insertEntry
    have he : e.1 ≠ row := h e (List.mem_cons_self _ _)
    by_cases h1 : row < e.1
    · rw [if_pos h1]
    · rw [if_neg h1, if_neg (Ne.symm he)]
      exact ((ih (fun e' he' => h e' (List.mem_cons_of_mem _ he'))).cons e).trans
        (List.Perm.swap _ _ _)

theorem insertEntry_sorted (row : Nat) (v : ℚ) (col : List (Nat × ℚ)) (h : sortedRows col) :
    sortedRows (insertEntry col row v) ∧
    ∀ e ∈ insertEntry col row v, e.1 = row ∨ ∃ e' ∈ col, e'.1 = e.1 := by
  induction col with
  | nil =>
    refine ⟨by simp [insertEntry, sortedRows], ?_⟩
    intro e he
    simp only [insertEntry, List.mem_singleton] at he
    exact Or.inl (by rw [he])
  | cons e0 rest ih =>
    unfold sortedRows at h
    rw [List.pairwise_cons] at h
    obtain ⟨ih1, ih2⟩ := ih h.2
    unfold insertEntry
    by_cases h1 : row < e0.1
    · rw [if_pos h1]
      refine ⟨?_, ?_⟩
      · unfold sortedRows
        rw [List.pairwise_cons, List.pairwise_cons]
        refine ⟨?_, h.1, h.2⟩
        intro a ha
        rcases List.mem_cons.1 ha with rfl | ha
        · exact h1
        · exact lt_trans h1 (h.1 a ha)
      · intro e he
        rcases List.mem_cons.1 he with rfl | he
        · exact Or.inl rfl
        · exact Or.inr ⟨e, he, rfl⟩
    · rw [if_neg h1]
      by_cases h2 : row = e0.1
      · rw [if_pos h2]
        refine ⟨?_, ?_⟩
        · unfold sortedRows
          rw [List.pairwise_cons]
          refine ⟨?_, h.2⟩
          intro a ha
          show row < a.1
          rw [h2]
          exact h.1 a ha
        · intro e he
          rcases List.mem_cons.1 he with rfl | he
          · exact Or.inl rfl
          · exact Or.inr ⟨e, List.mem_cons_of_mem _ he, rfl⟩
      · rw [if_neg h2]
        refine ⟨?_, ?_⟩
        · unfold sortedRows
          rw [List.pairwise_cons]
          refine ⟨?_, ih1⟩
          intro a ha
          rcases ih2 a ha with hr | ⟨e', he', hk⟩
          · rw [hr]
            omega
          · rw [← hk]
            exact h.1 e' he'
        · intro e he
          rcases List.mem_cons.1 he with rfl | he
          · exact Or.inr ⟨e, List.mem_cons_self _ _, rfl⟩
          · rcases ih2 e he with hr | ⟨e', he', hk⟩
            · exact Or.inl hr
            · exact Or.inr ⟨e', List.mem_cons_of_mem _ he', hk⟩

theorem insert_length (m : SparseMatrixExt) (row j : Nat) (v : ℚ) :
    (m.insert row j v).outer.length = m.outer.length := by
  simp [SparseMatrixExt.insert]

theorem insert_inner (m : SparseMatrixExt) (row j c : Nat) (v : ℚ) (hj : j < m.outer.length) :
    (m.insert row j v).inner c
      = if j = c then insertEntry (m.inner c) row v else m.inner c := by
  by_cases hc : c < m.outer.length
  · simp only [SparseMatrixExt.inner, SparseMatrixExt.insert]
    exact getD_modify _ _ _ _ hc
  · have hne : j ≠ c := by omega
    rw [if_neg hne, inner_of_ge m c hc,
      inner_of_ge _ c (by unfold SparseMatrixExt.outerSize; rw [insert_length]; exact hc)]

/-- One step of the scan of a column keeps the invariant. -/
theorem sliceInv_step (array1 : Nat → Nat) (size1 : Nat)
    (hrows : ∀ a a', a < a' → a' < size1 → array1 a < array1 a')
    (P S : List (Nat × ℚ)) (e : Nat × ℚ) (ind : Nat) (rcol : List (Nat × ℚ))
    (hs : sortedRows (P ++ e :: S)) (hinv : sliceInv array1 size1 P (e :: S) ind rcol) :
    sliceInv array1 size1 (P ++ [e]) S (sliceColStep array1 size1 (ind, rcol) e).1
      (sliceColStep array1 size1 (ind, rcol) e).2 := by
  obtain ⟨ha, hb, hc, hd, hsr⟩ := hinv
  obtain ⟨w1, w2, w3, w4, -⟩ := sliceWhile_spec array1 size1 e.1 ind []
  unfold sortedRows at hs
  rw [List.pairwise_append] at hs
  obtain ⟨-, hsS, hPS⟩ := hs
  rw [List.pairwise_cons] at hsS
  have hPe : ∀ p ∈ P, p.1 < e.1 := fun p hp => hPS p hp e (List.mem_cons_self _ _)
  -- a requested row that equals the row of the entry is the one under the scan pointer
  have hkey : ∀ a, a < size1 → array1 a = e.1 →
      a = (sliceWhile array1 size1 e.1 ind []).1 := by
    intro a ha1 ha2
    have h1 : ind ≤ a := by
      by_contra hlt
      have := hc a (by omega) e (List.mem_cons_self _ _)
      omega
    have h2 : (sliceWhile array1 size1 e.1 ind []).1 ≤ a := by
      by_contra hlt
      have := w3 a h1 (by omega)
      omega
    by_contra hne
    have h3 : (sliceWhile array1 size1 e.1 ind []).1 < a := by omega
    have h4 := hrows _ a h3 ha1
    exact w4 ⟨by omega, by omega⟩
  have hc' : ∀ a, a < (sliceWhile array1 size1 e.1 ind []).1 → ∀ e' ∈ S, array1 a < e'.1 := by
    intro a ha1 e' he'
    by_cases hlt : a < ind
    · exact hc a hlt e' (List.mem_cons_of_mem _ he')
    · exact lt_trans (w3 a (by omega) ha1) (hsS.1 e' he')
  unfold sliceColStep
  by_cases hmatch : e.1 = array1 (sliceWhile array1 size1 e.1 ind []).1
  · simp only [if_pos hmatch]
    have hfresh : ∀ x ∈ rcol, x.1 ≠ (sliceWhile array1 size1 e.1 ind []).1 := by
      intro x hx heq
      obtain ⟨hxP, hxi⟩ := ha x.1 x.2 hx
      have h1 := hPe _ hxP
      simp only at h1
      rw [heq] at h1
      omega
    have hperm := insertEntry_perm (sliceWhile array1 size1 e.1 ind []).1 e.2 rcol hfresh
    refine ⟨?_, ?_, hc', w2 hd, (insertEntry_sorted _ _ _ hsr).1⟩
    · intro a v hav
      rcases List.mem_cons.1 (hperm.mem_iff.1 hav) with heq | hmem
      · simp only [Prod.mk.injEq] at heq
        refine ⟨?_, by omega⟩
        rw [heq.1, heq.2, ← hmatch]
        exact List.mem_append_right _ (List.mem_singleton.2 rfl)
      · exact ⟨List.mem_append_left _ (ha a v hmem).1, le_trans (ha a v hmem).2 w1⟩
    · intro a v ha1 hav
      rcases List.mem_append.1 hav with hP | he
      · exact hperm.mem_iff.2 (List.mem_cons_of_mem _ (hb a v ha1 hP))
      · have heq := List.mem_singleton.1 he
        have h1 : array1 a = e.1 := by rw [← heq]
        have h2 : v = e.2 := by rw [← heq]
        rw [hkey a ha1 h1, h2]
        exact hperm.mem_iff.2 (List.mem_cons_self _ _)
  · simp only [if_neg hmatch]
    refine ⟨?_, ?_, hc', w2 hd, hsr⟩
    · intro a v hav
      exact ⟨List.mem_append_left _ (ha a v hav).1, le_trans (ha a v hav).2 w1⟩
    · intro a v ha1 hav
      rcases List.mem_append.1 hav with hP | he
      · exact hb a v ha1 hP
      · have heq := List.mem_singleton.1 he
        have h1 : array1 a = e.1 := by rw [← heq]
        have h2 := hkey a ha1 h1
        rw [← h2] at hmatch
        exact absurd h1.symm hmatch

/-- The scan of a whole column keeps the invariant. -/
theorem sliceInv_fold (array1 : Nat → Nat) (size1 : Nat)
    (hrows : ∀ a a', a < a' → a' < size1 → array1 a < array1 a') (S : List (Nat × ℚ)) :
    ∀ (P : List (Nat × ℚ)) (ind : Nat) (rcol : List (Nat × ℚ)),
      sortedRows (P ++ S) → sliceInv array1 size1 P S ind rcol →
      sliceInv array1 size1 (P ++ S) []
        (S.foldl (sliceColStep array1 size1) (ind, rcol)).1
        (S.foldl (sliceColStep array1 size1) (ind, rcol)).2 := by
  induction S with
  | nil =>
    intro P ind rcol _ h
    rw [List.append_nil]
    exact h
  | cons e rest ih =>
    intro P ind rcol hs hinv
    rw [List.foldl_cons]
    have hstep := sliceInv_step array1 size1 hrows P rest e ind rcol hs hinv
    have e1 : P ++ e :: rest = (P ++ [e]) ++ rest := by simp
    rw [e1] at hs ⊢
    exact ih (P ++ [e]) _ _ hs hstep

/-- The column that the scan of a column with ascending rows leaves in the result. -/
theorem slice_column (array1 : Nat → Nat) (size1 : Nat)
    (hrows : ∀ a a', a < a' → a' < size1 → array1 a < array1 a') (mcol : List (Nat × ℚ))
    (hs : sortedRows mcol) :
    (∀ a, a < size1 →
      coeffCol (mcol.foldl (sliceColStep array1 size1) (0, [])).2 a
        = coeffCol mcol (array1 a)) ∧
    (∀ a v, (a, v) ∈ (mcol.foldl (sliceColStep array1 size1) (0, [])).2 →
      (array1 a, v) ∈ mcol) ∧
    (∀ a v, a < size1 → (array1 a, v) ∈ mcol →
      (a, v) ∈ (mcol.foldl (sliceColStep array1 size1) (0, [])).2) := by
  have hinv := sliceInv_fold array1 size1 hrows mcol [] 0 [] (by simpa using hs)
    ⟨fun a v h => by simp at h, fun a v _ h => by simp at h, fun a h => by omega,
      Nat.zero_le _, List.Pairwise.nil⟩
  rw [List.nil_append] at hinv
  obtain ⟨ha, hb, -, -, hsr⟩ := hinv
  refine ⟨?_, fun a v h => (ha a v h).1, hb⟩
  intro a ha1
  by_cases hex : ∃ v, (array1 a, v) ∈ mcol
  · obtain ⟨v, hv⟩ := hex
    rw [coeffCol_of_mem _ _ v hs hv, coeffCol_of_mem _ _ v hsr (hb a v ha1 hv)]
  · have h1 : ∀ e ∈ mcol, e.1 ≠ array1 a := by
      intro e he heq
      exact hex ⟨e.2, by rw [← heq]; exact he⟩
    have h2 : ∀ e ∈ (mcol.foldl (sliceColStep array1 size1) (0, [])).2, e.1 ≠ a := by
      intro e he heq
      have := (ha e.1 e.2 he).1
      rw [heq] at this
      exact hex ⟨e.2, this⟩
    rw [coeffCol_of_not_mem _ _ h1, coeffCol_of_not_mem _ _ h2]

/-- The inner loop of `slice` for the column `j` of the result, seen on that column. -/
theorem slice_fold_col (array1 : Nat → Nat) (size1 j : Nat) (l : List (Nat × ℚ)) :
    ∀ s : Nat × SparseMatrixExt × List Nat, j < s.2.1.outer.length →
      (l.foldl (fun (s : Nat × SparseMatrixExt × List Nat) (it : Nat × ℚ) =>
          if it.1 = array1 (sliceWhile array1 size1 it.1 s.1 s.2.2).1 then
            ((sliceWhile array1 size1 it.1 s.1 s.2.2).1,
              s.2.1.insert (sliceWhile array1 size1 it.1 s.1 s.2.2).1 j it.2,
              (sliceWhile array1 size1 it.1 s.1 s.2.2).2
                ++ [(sliceWhile array1 size1 it.1 s.1 s.2.2).1])
          else ((sliceWhile array1 size1 it.1 s.1 s.2.2).1, s.2.1,
              (sliceWhile array1 size1 it.1 s.1 s.2.2).2
                ++ [(sliceWhile array1 size1 it.1 s.1 s.2.2).1])) s).2.1.outer.length
        = s.2.1.outer.length ∧
      (l.foldl (fun (s : Nat × SparseMatrixExt × List Nat) (it : Nat × ℚ) =>
          if it.1 = array1 (sliceWhile array1 size1 it.1 s.1 s.2.2).1 then
            ((sliceWhile array1 size1 it.1 s.1 s.2.2).1,
              s.2.1.insert (sliceWhile array1 size1 it.1 s.1 s.2.2).1 j it.2,
              (sliceWhile array1 size1 it.1 s.1 s.2.2).2
                ++ [(sliceWhile array1 size1 it.1 s.1 s.2.2).1])
          else ((sliceWhile array1 size1 it.1 s.1 s.2.2).1, s.2.1,
              (sliceWhile array1 size1 it.1 s.1 s.2.2).2
                ++ [(sliceWhile array1 size1 it.1 s.1 s.2.2).1])) s).2.1.inner j
        = (l.foldl (sliceColStep array1 size1) (s.1, s.2.1.inner j)).2 ∧
      ∀ c, c ≠ j →
        (l.foldl (fun (s : Nat × SparseMatrixExt × List Nat) (it : Nat × ℚ) =>
          if it.1 = array1 (sliceWhile array1 size1 it.1 s.1 s.2.2).1 then
            ((sliceWhile array1 size1 it.1 s.1 s.2.2).1,
              s.2.1.insert (sliceWhile array1 size1 it.1 s.1 s.2.2).1 j it.2,
              (sliceWhile array1 size1 it.1 s.1 s.2.2).2
                ++ [(sliceWhile array1 size1 it.1 s.1 s.2.2).1])
          else ((sliceWhile array1 size1 it.1 s.1 s.2.2).1, s.2.1,
              (sliceWhile array1 size1 it.1 s.1 s.2.2).2
                ++ [(sliceWhile array1 size1 it.1 s.1 s.2.2).1])) s).2.1.inner c
          = s.2.1.inner c := by
  induction l with
  | nil =>
    intro s _
    exact ⟨rfl, rfl, fun _ _ => rfl⟩
  | cons it rest ih =>
    intro s hj
    simp only [List.foldl_cons]
    have hw := sliceWhile_fst array1 size1 it.1 s.1 s.2.2 []
    by_cases hmatch : it.1 = array1 (sliceWhile array1 size1 it.1 s.1 s.2.2).1
    · simp only [if_pos hmatch]
      obtain ⟨h1, h2, h3⟩ := ih ((sliceWhile array1 size1 it.1 s.1 s.2.2).1,
        s.2.1.insert (sliceWhile array1 size1 it.1 s.1 s.2.2).1 j it.2,
        (sliceWhile array1 size1 it.1 s.1 s.2.2).2
          ++ [(sliceWhile array1 size1 it.1 s.1 s.2.2).1])
        (by simp only [insert_length]; exact hj)
      refine ⟨?_, ?_, ?_⟩
      · rw [h1]
        exact insert_length _ _ _ _
      · rw [h2]
        simp only [insert_inner _ _ _ _ _ hj, if_true]
        have hstep : sliceColStep array1 size1 (s.1, s.2.1.inner j) it
            = ((sliceWhile array1 size1 it.1 s.1 s.2.2).1,
                insertEntry (s.2.1.inner j) (sliceWhile array1 size1 it.1 s.1 s.2.2).1 it.2) := by
          unfold sliceColStep
          simp only [← hw, if_pos hmatch]
        rw [hstep]
      · intro c hc
        rw [h3 c hc]
        simp only [insert_inner _ _ _ _ _ hj, if_neg (Ne.symm hc)]
    · simp only [if_neg hmatch]
      obtain ⟨h1, h2, h3⟩ := ih ((sliceWhile array1 size1 it.1 s.1 s.2.2).1, s.2.1,
        (sliceWhile array1 size1 it.1 s.1 s.2.2).2
          ++ [(sliceWhile array1 size1 it.1 s.1 s.2.2).1]) hj
      refine ⟨h1, ?_, h3⟩
      rw [h2]
      have hstep : sliceColStep array1 size1 (s.1, s.2.1.inner j) it
          = ((sliceWhile array1 size1 it.1 s.1 s.2.2).1, s.2.1.inner j) := by
        unfold sliceColStep
        simp only [← hw, if_neg hmatch]
      rw [hstep]

/-- The columns of the result of `slice`. -/
theorem slice_inner (m : SparseMatrixExt) (array1 : Nat → Nat) (size1 : Nat)
    (array2 : Nat → Nat) (size2 : Nat) (mat : SparseMatrixExt)
    (hsize : size2 ≤ mat.outer.length) :
    (m.slice array1 size1 array2 size2 mat).1.outer.length = mat.outer.length ∧
    ∀ c, (m.slice array1 size1 array2 size2 mat).1.inner c
      = if c < size2 then
          ((m.inner (array2 c)).foldl (sliceColStep array1 size1) (0, mat.inner c)).2
        else mat.inner c := by
  unfold SparseMatrixExt.slice forLoop
  rw [Nat.sub_zero]
  simp only
  refine loopFrom_inv _
    (fun p (s : Nat × SparseMatrixExt × List Nat) => p ≤ size2 →
      s.2.1.outer.length = mat.outer.length ∧
      ∀ c, s.2.1.inner c
        = if c < p then
            ((m.inner (array2 c)).foldl (sliceColStep array1 size1) (0, mat.inner c)).2
          else mat.inner c) 0 size2 (0, mat, []) ?_ ?_ (le_refl _)
  · intro _
    exact ⟨rfl, fun c => by simp⟩
  · intro p t hp hP _
    obtain ⟨hlen, hcols⟩ := hP (by omega)
    rw [zero_add]
    obtain ⟨h1, h2, h3⟩ := slice_fold_col array1 size1 p (m.inner (array2 p)) (0, t.2.1, t.2.2)
      (by show p < t.2.1.outer.length; omega)
    refine ⟨by rw [h1]; exact hlen, ?_⟩
    intro c
    by_cases hc : c = p
    · subst hc
      rw [h2, if_pos (Nat.lt_succ_self c)]
      simp only
      rw [hcols c, if_neg (Nat.lt_irrefl c)]
    · rw [h3 c hc]
      simp only
      rw [hcols c]
      by_cases hlt : c < p
      · rw [if_pos hlt, if_pos (Nat.lt_succ_of_lt hlt)]
      · rw [if_neg hlt, if_neg (by omega)]

/-! ## Column totals and their normalisation -/

theorem foldl_total_acc (k : Nat) (l : List (Nat × ℚ)) :
    ∀ nt : Nat → ℚ,
      l.foldl (fun norm_total (it : Nat × ℚ) =>
          Function.update norm_total k (norm_total k + it.2)) nt
        = Function.update nt k (nt k + (l.map Prod.snd).sum) := by
  induction l with
  | nil =>
    intro nt
    simp
  | cons e rest ih =>
    intro nt
    rw [List.foldl_cons, ih]
    simp only [Function.update_same, Function.update_idem, List.map_cons, List.sum_cons]
    rw [add_assoc]

/-- The contents of `norm_total` after `CFWeightTotals`. -/
theorem CFWeightTotals_apply (m : SparseMatrixExt) (nt : Nat → ℚ) (c : Nat) :
    m.CFWeightTotals nt c = if c < m.outerSize then nt c + m.colSum c else nt c := by
  unfold SparseMatrixExt.CFWeightTotals forLoop
  simp only [Nat.sub_zero, foldl_total_acc]
  exact loopFrom_update (fun k (v : ℚ) => v + ((m.inner k).map Prod.snd).sum) m.outerSize nt c

theorem colSum_of_ge (m : SparseMatrixExt) (c : Nat) (hc : ¬ c < m.outerSize) :
    m.colSum c = 0 := by
  unfold SparseMatrixExt.colSum
  rw [inner_of_ge m c hc]
  rfl

/-- From a vector of zeros, `CFWeightTotals` leaves the column sums. -/
theorem CFWeightTotals_zero (m : SparseMatrixExt) (c : Nat) :
    m.CFWeightTotals (fun _ => 0) c = m.colSum c := by
  rw [CFWeightTotals_apply]
  by_cases hc : c < m.outerSize
  · rw [if_pos hc, zero_add]
  · rw [if_neg hc, colSum_of_ge m c hc]

theorem foldl_scale_column (factor : ℚ) (l : List (Nat × ℚ)) :
    ∀ acc : List (Nat × ℚ),
      l.foldl (fun (col : List (Nat × ℚ)) (it : Nat × ℚ) => col ++ [(it.1, it.2 * factor)]) acc
        = acc ++ l.map (fun it => (it.1, it.2 * factor)) := by
  induction l with
  | nil =>
    intro acc
    simp
  | cons e rest ih =>
    intro acc
    rw [List.foldl_cons, ih]
    simp

/-- The matrix after `DivisiveNormalizeL1`: every stored value of column `c` is multiplied
by `1 / norm_total[c]`; the stored positions and the dimensions are as they were. -/
theorem DivisiveNormalizeL1_spec (m : SparseMatrixExt) (nt : Nat → ℚ) :
    (m.DivisiveNormalizeL1 nt).innerSize = m.innerSize ∧
    (m.DivisiveNormalizeL1 nt).outer.length = m.outer.length ∧
    ∀ c, (m.DivisiveNormalizeL1 nt).inner c
      = (m.inner c).map (fun it => (it.1, it.2 * (1 / nt c))) := by
  obtain ⟨res, hres, h1, h2, h3, -⟩ := column_loop
    (fun k col => col.map (fun it => (it.1, it.2 * (1 / nt k)))) (fun _ _ => 0)
    m (fun _ => 0) m.outerSize (le_refl _)
  have hproj := loopFrom_proj (fun (s : SparseMatrixExt × (Nat → ℚ)) => s.1)
    (fun k (s : SparseMatrixExt × (Nat → ℚ)) =>
      (({ s.1 with outer := (s.1.outer.set k ((fun k col => col.map (fun (it : Nat × ℚ) =>
          (it.1, it.2 * (1 / nt k)))) k (s.1.inner k))) } : SparseMatrixExt),
        Function.update s.2 k (s.2 k + (fun _ _ => (0 : ℚ)) k (s.1.inner k))))
    (fun k (m : SparseMatrixExt) =>
      ({ m with outer := (m.outer.set k ((m.inner k).map (fun (it : Nat × ℚ) =>
          (it.1, it.2 * (1 / nt k))))) } : SparseMatrixExt))
    (fun _ _ => rfl) m.outerSize 0 (m, fun _ => 0)
  rw [hres] at hproj
  have e : m.DivisiveNormalizeL1 nt = res.1 := by
    unfold SparseMatrixExt.DivisiveNormalizeL1 forLoop
    simp only [Nat.sub_zero, foldl_scale_column, List.nil_append]
    exact hproj.symm
  rw [e]
  refine ⟨h1, h2, ?_⟩
  intro c
  rw [h3 c]
  by_cases hc : c < m.outerSize
  · rw [if_pos hc]
  · rw [if_neg hc, inner_of_ge m c hc]
    rfl

theorem colSum_scale (col : List (Nat × ℚ)) (f : ℚ) :
    ((col.map (fun it => (it.1, it.2 * f))).map Prod.snd).sum
      = (col.map Prod.snd).sum * f := by
  induction col with
  | nil => simp
  | cons e rest ih =>
    simp only [List.map_cons, List.sum_cons, ih]
    ring

/-- Two matrices with the same dimensions and the same columns are equal. -/
theorem matrix_ext (m1 m2 : SparseMatrixExt) (h1 : m1.innerSize = m2.innerSize)
    (h2 : m1.outer.length = m2.outer.length) (h3 : ∀ c, m1.inner c = m2.inner c) : m1 = m2 := by
  obtain ⟨r1, o1⟩ := m1
  obtain ⟨r2, o2⟩ := m2
  simp only at h1 h2
  subst h1
  congr 1
  apply List.ext_getElem h2
  intro c hc1 hc2
  have h := h3 c
  simp only [SparseMatrixExt.inner, List.getD_eq_getElem?_getD, List.getElem?_eq_getElem hc1,
    List.getElem?_eq_getElem hc2, Option.getD_some] at h
  exact h

/-- One round from a zeroed `norm_total`: column `c` is scaled by `1 / colSum c`. -/
theorem normalize_round_inner (m : SparseMatrixExt) (c : Nat) :
    (m.DivisiveNormalizeL1 (m.CFWeightTotals (fun _ => 0))).inner c
      = (m.inner c).map (fun it => (it.1, it.2 * (1 / m.colSum c))) := by
  rw [(DivisiveNormalizeL1_spec m _).2.2 c, CFWeightTotals_zero]

/-- One round from a zeroed `norm_total` leaves a column of sum 1 as it is. -/
theorem normalize_round_fixed (m : SparseMatrixExt) (c : Nat) (h : m.colSum c = 1) :
    (m.DivisiveNormalizeL1 (m.CFWeightTotals (fun _ => 0))).inner c = m.inner c := by
  rw [normalize_round_inner, h]
  simp

/-- One round from a zeroed `norm_total` brings a column of nonzero sum to the sum 1. -/
theorem normalize_round_colSum (m : SparseMatrixExt) (c : Nat) (h : m.colSum c ≠ 0) :
    (m.DivisiveNormalizeL1 (m.CFWeightTotals (fun _ => 0))).colSum c = 1 := by
  unfold SparseMatrixExt.colSum at h ⊢
  rw [normalize_round_inner, colSum_scale]
  unfold SparseMatrixExt.colSum
  exact mul_one_div_cancel h

/-! ## dot_product: the units of a team of one thread -/

/-- With a team of one thread `dot_product` ends, and it leaves in `temp_act[r]`, for every
unit `r < num_cfs` of the collection, 0 when `mask[r]` is exactly 0, and otherwise `strength`
times the sum over the rectangle `[r1,r2) × [c1,c2)` of `weight[i-r1][j-c1] * X[i*icols + j]`. -/
theorem dot_product_one_thread_spec (mask X : Nat → ℚ) (strength : ℚ) (icols : Nat)
    (temp_act : Nat → ℚ) (cfs : List CF) (num_cfs : Nat) :
    ∃ N, ∀ n, N ≤ n →
      (dot_product mask X strength icols temp_act cfs num_cfs 1 (fun _ => 0)
        (List.replicate n 0)).finished = true ∧
      ∀ r (_ : r < num_cfs) (hc : r < cfs.length),
        (mask r = 0 →
          (dot_product mask X strength icols temp_act cfs num_cfs 1 (fun _ => 0)
            (List.replicate n 0)).shared.temp_act r = 0) ∧
        (mask r ≠ 0 →
          (dot_product mask X strength icols temp_act cfs num_cfs 1 (fun _ => 0)
            (List.replicate n 0)).shared.temp_act r
            = strength * ∑ i in Finset.Ico cfs[r].r1 cfs[r].r2,
                ∑ j in Finset.Ico cfs[r].c1 cfs[r].c2,
                  cfs[r].weight (i - cfs[r].r1) (j - cfs[r].c1) * X (i * icols + j)) := by
  obtain ⟨N, hN⟩ := dot_product_one_thread mask X strength icols temp_act cfs num_cfs
  refine ⟨N, fun n hn => ⟨(hN n hn).1, fun r hr hc => ?_⟩⟩
  rw [(hN n hn).2.2, dot_product_apply]
  constructor
  · intro hm
    simp [hr, hm]
  · intro hm
    simp only [hr, hm, if_true, if_false, List.getElem?_eq_getElem hc]
    rw [dot_product_cf_eq, mul_comm]

/-! ## Claims -/

/-- C1 fails on the code: `dot_product` declares `int r, i, j;` before the pragma, so the
threads of a team share the loop counters `i` and `j`. Nine copies of the example field over
the source sheet `[[1,2],[3,4]]`, strength 1, the gating mask 1 at the units 0 and 8 and 0
elsewhere, two threads, thread 0 with the chunk `0..7` and thread 1 with the chunk `8`. Thread
0 adds the first cell of unit 0 to its `tot` and sets `j = 1`; thread 1 then runs unit 8 to its
end and leaves `i = 2`, `j = 2`; thread 0 finds `j<cc2` false and then `i<rr2` false, and
stores `temp_act[0] = 0.5`, where the claim has `1 * (0.5*1 + 0.5*2 + 0.5*3 + 0.5*4) = 5`. -/
theorem dot_product_race :
    (List.range 9).filter (fun r => raceOwner r = 0) = [0, 1, 2, 3, 4, 5, 6, 7] ∧
    (List.range 9).filter (fun r => raceOwner r = 1) = [8] ∧
    raceMask 0 ≠ 0 ∧
    (dot_product raceMask exampleX 1 2 (fun _ => 0) (List.replicate 9 exampleCF) 9 2 raceOwner
      raceSched).finished = true ∧
    (dot_product raceMask exampleX 1 2 (fun _ => 0) (List.replicate 9 exampleCF) 9 2 raceOwner
      raceSched).shared.stray = false ∧
    (dot_product raceMask exampleX 1 2 (fun _ => 0) (List.replicate 9 exampleCF) 9 2 raceOwner
      raceSched).shared.temp_act 8 = 5 ∧
    (dot_product raceMask exampleX 1 2 (fun _ => 0) (List.replicate 9 exampleCF) 9 2 raceOwner
      raceSched).shared.temp_act 0 = 1 / 2 ∧
    (1 : ℚ) * ∑ i in Finset.Ico exampleCF.r1 exampleCF.r2,
      ∑ j in Finset.Ico exampleCF.c1 exampleCF.c2,
        exampleCF.weight (i - exampleCF.r1) (j - exampleCF.c1) * exampleX (i * 2 + j) = 5 := by
  refine ⟨by decide, by decide, by simp [raceMask], ?_, ?_, ?_, ?_, ?_⟩
  · simp [dot_product, dot_product_start, dot_product_step, dot_product_thread, raceSched,
      raceMask, raceOwner, exampleCF, exampleX, List.range_succ, List.filter,
      DotTeam.finished]
  · simp [dot_product, dot_product_start, dot_product_step, dot_product_thread, raceSched,
      raceMask, raceOwner, exampleCF, exampleX, List.range_succ, List.filter]
  · simp [dot_product, dot_product_start, dot_product_step, dot_product_thread, raceSched,
      raceMask, raceOwner, exampleCF, exampleX, List.range_succ, List.filter]
    norm_num
  · simp [dot_product, dot_product_start, dot_product_step, dot_product_thread, raceSched,
      raceMask, raceOwner, exampleCF, exampleX, List.range_succ, List.filter]
  · simp [exampleCF, exampleX, CF.r1, CF.r2, CF.c1, CF.c2, CF.weight,
      Finset.sum_Ico_eq_sum_range, Finset.sum_range_succ]
    norm_num

/-- C2 as stated fails. The arrays `is = [0,1,2,3]`, `js = [0,0,0,0]`, `vs = [.5,.5,.5,.5]`
are the flattening of the example field; over the source sheet `[[1,2],[3,4]]` with strength
1 the sparse `DotProduct` gives 5 from an activity buffer that starts at 0, but the dense
`dot_product` (one unit, one thread, run to its end) gives 0 when the gating mask of the unit
is 0; and the sparse `DotProduct` gives 6, not the 5 of the dense `dot_product`, from an
activity buffer that starts at 1. -/
theorem dense_sparse_counterexample :
    (List.range 4).map (fun i => (i, 0, (1 / 2 : ℚ))) = flattenTriplets 2 [exampleCF] ∧
    (exampleMatrix.setTriplets (fun i => i) (fun _ => 0) (fun _ => 1 / 2) 4).DotProduct 1 1
        exampleX (fun _ => 0) 0 = 5 ∧
    (dot_product (fun _ => 0) exampleX 1 2 (fun _ => 0) [exampleCF] 1 1 (fun _ => 0)
      [0]).finished = true ∧
    (dot_product (fun _ => 0) exampleX 1 2 (fun _ => 0) [exampleCF] 1 1 (fun _ => 0)
      [0]).shared.temp_act 0 = 0 ∧
    (exampleMatrix.setTriplets (fun i => i) (fun _ => 0) (fun _ => 1 / 2) 4).DotProduct 1 1
        exampleX (fun _ => 1) 0 = 6 ∧
    (dot_product (fun _ => 1) exampleX 1 2 (fun _ => 0) [exampleCF] 1 1 (fun _ => 0)
      (List.replicate 10 0)).finished = true ∧
    (dot_product (fun _ => 1) exampleX 1 2 (fun _ => 0) [exampleCF] 1 1 (fun _ => 0)
      (List.replicate 10 0)).shared.temp_act 0 = 5 := by
  refine ⟨?_, ?_, ?_, ?_, ?_, ?_, ?_⟩
  · simp [flattenTriplets, flattenFrom, cfTriplets, exampleCF, CF.r1, CF.r2, CF.c1, CF.c2,
      CF.weight, List.range_succ, List.range'_succ]
  · simp [SparseMatrixExt.setTriplets, SparseMatrixExt.setFromTriplets,
      SparseMatrixExt.addTriplet, SparseMatrixExt.DotProduct, SparseMatrixExt.inner,
      SparseMatrixExt.outerSize, insertCoeff, forLoop, loopFrom, exampleMatrix, exampleX,
      List.modify, List.modifyTailIdx, List.modifyHead]
    norm_num
  · simp [dot_product, dot_product_start, dot_product_step, dot_product_thread,
      List.range_succ, List.filter, DotTeam.finished]
  · simp [dot_product, dot_product_start, dot_product_step, dot_product_thread,
      List.range_succ, List.filter]
  · simp [SparseMatrixExt.setTriplets, SparseMatrixExt.setFromTriplets,
      SparseMatrixExt.addTriplet, SparseMatrixExt.DotProduct, SparseMatrixExt.inner,
      SparseMatrixExt.outerSize, insertCoeff, forLoop, loopFrom, exampleMatrix, exampleX,
      List.modify, List.modifyTailIdx, List.modifyHead]
    norm_num
  · simp [dot_product, dot_product_start, dot_product_step, dot_product_thread,
      List.range_succ, List.filter, DotTeam.finished, List.replicate, exampleCF]
  · simp [dot_product, dot_product_start, dot_product_step, dot_product_thread,
      List.range_succ, List.filter, List.replicate, exampleCF, exampleX]
    norm_num

/-- C2, amended. Dense/sparse propagate equivalence: for every collection of dense connection
fields, if the triplet arrays given to `setTriplets` on a matrix with one column per unit are
the flattening of the collection (the cell `(i,j)` of unit `r` as `row = i*icols + j`,
`col = r`, `value = weight_r[i-r1][j-c1]`), then the sparse `DotProduct`, run on an activity
buffer that starts at 0, and the dense `dot_product`, run by a team of one thread with a
gating mask that is not 0 at any unit, give the same activity at every unit for the same
source activity and strength. The one thread ends its work after `N` steps, and what it
leaves in `temp_act` is compared. -/
theorem dense_sparse_equiv (cfs : List CF) (icols : Nat) (X : Nat → ℚ) (strength : ℚ)
    (mask temp_act activity : Nat → ℚ) (m : SparseMatrixExt) (is js : Nat → Nat) (vs : Nat → ℚ)
    (n : Nat) (hcols : m.outerSize = cfs.length)
    (htrip : (List.range n).map (fun i => (is i, js i, vs i)) = flattenTriplets icols cfs)
    (hmask : ∀ r, r < cfs.length → mask r ≠ 0)
    (hzero : ∀ r, r < cfs.length → activity r = 0) :
    ∃ N, ∀ k, N ≤ k →
      (dot_product mask X strength icols temp_act cfs cfs.length 1 (fun _ => 0)
        (List.replicate k 0)).finished = true ∧
      ∀ r, r < cfs.length →
        (m.setTriplets is js vs n).DotProduct cfs.length strength X activity r
          = (dot_product mask X strength icols temp_act cfs cfs.length 1 (fun _ => 0)
              (List.replicate k 0)).shared.temp_act r := by
  obtain ⟨N, hN⟩ := dot_product_one_thread mask X strength icols temp_act cfs cfs.length
  refine ⟨N, fun k hk => ⟨(hN k hk).1, fun r hr => ?_⟩⟩
  rw [(hN k hk).2.2]
  have hT : m.setTriplets is js vs n = m.setFromTriplets (flattenTriplets icols cfs) := by
    unfold SparseMatrixExt.setTriplets forLoop
    rw [Nat.sub_zero, tripletList_eq, htrip]
  obtain ⟨hdot, hsize⟩ := setFromTriplets_colDot m X (flattenTriplets icols cfs) r
    (by rw [hcols]; exact hr)
  rw [hT, DotProduct_apply _ _ _ _ _ _ (by rw [hsize, hcols]; exact hr) hr, hdot, hzero r hr,
    zero_add, dot_product_apply, if_pos hr, if_neg (hmask r hr)]
  unfold flattenTriplets
  rw [flattenFrom_sum X icols r cfs 0]
  simp only [Nat.zero_le, if_true, Nat.sub_zero, List.getElem?_eq_getElem hr]

/-- C2 amended, at a concrete input: the example field and its four triplets, over the source
sheet `[[1,2],[3,4]]` with strength 3. -/
theorem dense_sparse_equiv_witness :
    ∃ N, ∀ k, N ≤ k →
      (dot_product (fun _ => 1) exampleX 3 2 (fun _ => 0) [exampleCF] 1 1 (fun _ => 0)
        (List.replicate k 0)).finished = true ∧
      ∀ r, r < 1 →
        (exampleMatrix.setTriplets (fun i => i) (fun _ => 0) (fun _ => 1 / 2) 4).DotProduct 1 3
            exampleX (fun _ => 0) r
          = (dot_product (fun _ => 1) exampleX 3 2 (fun _ => 0) [exampleCF] 1 1 (fun _ => 0)
              (List.replicate k 0)).shared.temp_act r :=
  dense_sparse_equiv [exampleCF] 2 exampleX 3 (fun _ => 1) (fun _ => 0) (fun _ => 0)
    exampleMatrix (fun i => i) (fun _ => 0) (fun _ => 1 / 2) 4 rfl
    (by
      simp [flattenTriplets, flattenFrom, cfTriplets, exampleCF, CF.r1, CF.r2, CF.c1, CF.c2,
        CF.weight, List.range_succ, List.range'_succ])
    (fun _ _ => by norm_num) (fun _ _ => rfl)

/-- C3 as stated fails: `hebbian` on one unit with output activity 1 whose `sheet_mask` entry
is 0. The second cell of the patch has mask exactly 0.5 and lies over a source unit of
activity 2, so that the rule's updated value is `1 + (1 * 1) * 2 = 3`; the cell still holds
its old weight 1 after the call. -/
theorem mask_threshold_counterexample :
    thresholdCF.mask 1 = MASK_THRESHOLD ∧
    (hebbian exampleX (fun _ => 1) (fun _ => 0) 1 2 [thresholdCF] 1).map (fun cf => cf.weights 1)
      = [1] ∧
    thresholdCF.weights 1 + (1 * 1) * exampleX (0 * 2 + 1) = 3 := by
  refine ⟨?_, ?_, ?_⟩
  · simp [thresholdCF, MASK_THRESHOLD]
  · simp [hebbian, forLoop, loopFrom, thresholdCF]
  · norm_num [thresholdCF, exampleX]

/-- C3, amended. For each of `hebbian`, `bcm_fixed` and `trace_learning` and every unit `r` of
the collection: a cell whose mask is below 0.5 has exactly its old weight after the call;
when the unit passes the gate of the rule, a cell of the patch whose mask is at least 0.5
holds the rule's updated value, computed from the old weight and the source unit under the
cell; and when the unit does not pass the gate, its connection field is as it was, whatever
the masks of its cells. -/
theorem mask_threshold_gated :
    (∀ (X out sm : Nat → ℚ) (n icols : Nat) (cfs : List CF) (lr : ℚ) (r : Nat) (cf : CF),
      cfs[r]? = some cf →
      ∃ cf', (hebbian X out sm n icols cfs lr)[r]? = some cf' ∧
        (∀ k, cf.mask k < MASK_THRESHOLD → cf'.weights k = cf.weights k) ∧
        (r < n ∧ out r ≠ 0 ∧ sm r ≠ 0 →
          ∀ k, k < cf.ncells → cf.mask k ≥ MASK_THRESHOLD →
            cf'.weights k = cf.weights k + (out r * lr) * X (cf.inputOffset icols k)) ∧
        (¬ (r < n ∧ out r ≠ 0 ∧ sm r ≠ 0) → cf' = cf)) ∧
    (∀ (X out : Nat → ℚ) (n icols : Nat) (cfs : List CF) (lr th : ℚ) (r : Nat) (cf : CF),
      cfs[r]? = some cf →
      ∃ cf', (bcm_fixed X out n icols cfs lr th)[r]? = some cf' ∧
        (∀ k, cf.mask k < MASK_THRESHOLD → cf'.weights k = cf.weights k) ∧
        (r < n ∧ out r ≠ 0 →
          ∀ k, k < cf.ncells → cf.mask k ≥ MASK_THRESHOLD →
            cf'.weights k
              = max (cf.weights k
                  + (out r * lr) * X (cf.inputOffset icols k) * (out r - th)) 0) ∧
        (¬ (r < n ∧ out r ≠ 0) → cf' = cf)) ∧
    (∀ (X tr : Nat → ℚ) (n icols : Nat) (cfs : List CF) (lr : ℚ) (r : Nat) (cf : CF),
      cfs[r]? = some cf →
      ∃ cf', (trace_learning X tr n icols cfs lr)[r]? = some cf' ∧
        (∀ k, cf.mask k < MASK_THRESHOLD → cf'.weights k = cf.weights k) ∧
        (r < n ∧ tr r ≠ 0 →
          ∀ k, k < cf.ncells → cf.mask k ≥ MASK_THRESHOLD →
            cf'.weights k = cf.weights k + (tr r * lr) * X (cf.inputOffset icols k)) ∧
        (¬ (r < n ∧ tr r ≠ 0) → cf' = cf)) := by
  refine ⟨?_, ?_, ?_⟩
  · intro X out sm n icols cfs lr r cf hcf
    refine ⟨_, gated_getElem? _ _ _ _ _ _ (hebbian_getElem? X out sm n icols cfs lr r) hcf,
      ?_, ?_, ?_⟩
    · intro k hk
      split
      · exact learn_cf_below _ X icols cf k hk
      · rfl
    · intro hg k hk hm
      rw [if_pos hg, learn_cf_active _ X icols cf k hk hm]
    · intro hg
      rw [if_neg hg]
  · intro X out n icols cfs lr th r cf hcf
    refine ⟨_, gated_getElem? _ _ _ _ _ _ (bcm_fixed_getElem? X out n icols cfs lr th r) hcf,
      ?_, ?_, ?_⟩
    · intro k hk
      split
      · exact learn_cf_below _ X icols cf k hk
      · rfl
    · intro hg k hk hm
      rw [if_pos hg, learn_cf_active _ X icols cf k hk hm, clamp_eq_max]
    · intro hg
      rw [if_neg hg]
  · intro X tr n icols cfs lr r cf hcf
    refine ⟨_, gated_getElem? _ _ _ _ _ _ (trace_learning_getElem? X tr n icols cfs lr r) hcf,
      ?_, ?_, ?_⟩
    · intro k hk
      split
      · exact learn_cf_below _ X icols cf k hk
      · rfl
    · intro hg k hk hm
      rw [if_pos hg, learn_cf_active _ X icols cf k hk hm]
    · intro hg
      rw [if_neg hg]

/-- C3 amended, at a concrete input: `hebbian` with output activity 1, rate 1 and an open
gate on the patch whose cells have the masks 0.49999 and 0.5. The first cell keeps its weight
1, the second, over a source unit of activity 2, is assigned 3. -/
theorem mask_threshold_gated_witness :
    ∃ cf', (hebbian exampleX (fun _ => 1) (fun _ => 1) 1 2 [thresholdCF] 1)[0]? = some cf' ∧
      cf'.weights 0 = 1 ∧ cf'.weights 1 = 3 := by
  obtain ⟨cf', h1, h2, h3, -⟩ := mask_threshold_gated.1 exampleX (fun _ => 1) (fun _ => 1) 1 2
    [thresholdCF] 1 0 thresholdCF rfl
  refine ⟨cf', h1, ?_, ?_⟩
  · rw [h2 0 (by norm_num [thresholdCF, MASK_THRESHOLD])]
    rfl
  · rw [h3 ⟨by decide, by norm_num, by norm_num⟩ 1 (by decide)
      (by norm_num [thresholdCF, MASK_THRESHOLD])]
    norm_num [thresholdCF, exampleX, CF.inputOffset, CF.r1, CF.c1, CF.c2]

/-- C4 as stated fails: `hebbian` on the example field with output activity 0. The unit does
not pass the gate, so the flag is still 0 (false) after the call and the stored total is
still 0, while the four active cells of weight 0.5 sum to 2. -/
theorem norm_total_counterexample :
    (hebbian exampleX (fun _ => 0) (fun _ => 1) 1 2 [exampleCF] 1).map
        (fun cf => (cf._has_norm_total, cf._norm_total, activeSum cf.weights cf.mask cf.ncells))
      = [(0, 0, 2)] := by
  simp [hebbian, forLoop, loopFrom, exampleCF, activeSum, CF.ncells, CF.r1, CF.r2, CF.c1, CF.c2,
    MASK_THRESHOLD, Finset.sum_range_succ]
  norm_num
  rw [abs_of_pos (by norm_num : (0 : ℚ) < 1 / 2)]
  norm_num

/-- C4, amended. After a call of `hebbian`, `bcm_fixed` or `trace_learning`, every unit of the
collection that passes the gate of the rule has `_norm_total` equal to the sum of `|weight|`
(weights after the call) over exactly the cells whose mask is at least 0.5, and
`_has_norm_total` set to 1; a unit that does not pass the gate keeps its connection field,
cache included. -/
theorem norm_total_exact_gated :
    (∀ (X out sm : Nat → ℚ) (n icols : Nat) (cfs : List CF) (lr : ℚ) (r : Nat) (cf : CF),
      cfs[r]? = some cf →
      ∃ cf', (hebbian X out sm n icols cfs lr)[r]? = some cf' ∧
        (r < n ∧ out r ≠ 0 ∧ sm r ≠ 0 →
          cf'._norm_total = activeSum cf'.weights cf'.mask cf'.ncells ∧
          cf'._has_norm_total = 1) ∧
        (¬ (r < n ∧ out r ≠ 0 ∧ sm r ≠ 0) → cf' = cf)) ∧
    (∀ (X out : Nat → ℚ) (n icols : Nat) (cfs : List CF) (lr th : ℚ) (r : Nat) (cf : CF),
      cfs[r]? = some cf →
      ∃ cf', (bcm_fixed X out n icols cfs lr th)[r]? = some cf' ∧
        (r < n ∧ out r ≠ 0 →
          cf'._norm_total = activeSum cf'.weights cf'.mask cf'.ncells ∧
          cf'._has_norm_total = 1) ∧
        (¬ (r < n ∧ out r ≠ 0) → cf' = cf)) ∧
    (∀ (X tr : Nat → ℚ) (n icols : Nat) (cfs : List CF) (lr : ℚ) (r : Nat) (cf : CF),
      cfs[r]? = some cf →
      ∃ cf', (trace_learning X tr n icols cfs lr)[r]? = some cf' ∧
        (r < n ∧ tr r ≠ 0 →
          cf'._norm_total = activeSum cf'.weights cf'.mask cf'.ncells ∧
          cf'._has_norm_total = 1) ∧
        (¬ (r < n ∧ tr r ≠ 0) → cf' = cf)) := by
  refine ⟨?_, ?_, ?_⟩
  · intro X out sm n icols cfs lr r cf hcf
    refine ⟨_, gated_getElem? _ _ _ _ _ _ (hebbian_getElem? X out sm n icols cfs lr r) hcf, ?_, ?_⟩
    · intro hg
      rw [if_pos hg]
      exact ⟨learn_cf_norm_total _ X icols cf, learn_cf_flag _ X icols cf⟩
    · intro hg
      rw [if_neg hg]
  · intro X out n icols cfs lr th r cf hcf
    refine ⟨_, gated_getElem? _ _ _ _ _ _ (bcm_fixed_getElem? X out n icols cfs lr th r) hcf,
      ?_, ?_⟩
    · intro hg
      rw [if_pos hg]
      exact ⟨learn_cf_norm_total _ X icols cf, learn_cf_flag _ X icols cf⟩
    · intro hg
      rw [if_neg hg]
  · intro X tr n icols cfs lr r cf hcf
    refine ⟨_, gated_getElem? _ _ _ _ _ _ (trace_learning_getElem? X tr n icols cfs lr r) hcf,
      ?_, ?_⟩
    · intro hg
      rw [if_pos hg]
      exact ⟨learn_cf_norm_total _ X icols cf, learn_cf_flag _ X icols cf⟩
    · intro hg
      rw [if_neg hg]

/-- C4 amended, at a concrete input: `bcm_fixed` with output activity 1, rate 1 and threshold
0 on the example field; the unit passes the gate and its cache is refreshed. -/
theorem norm_total_exact_gated_witness :
    ∃ cf', (bcm_fixed exampleX (fun _ => 1) 1 2 [exampleCF] 1 0)[0]? = some cf' ∧
      cf'._norm_total = activeSum cf'.weights cf'.mask cf'.ncells ∧ cf'._has_norm_total = 1 := by
  obtain ⟨cf', h1, h2, -⟩ := norm_total_exact_gated.2.1 exampleX (fun _ => 1) 1 2 [exampleCF] 1 0
    0 exampleCF rfl
  exact ⟨cf', h1, h2 ⟨by decide, by norm_num⟩⟩

/-- C5 as stated fails: `bcm_fixed` with output activity 1 (an open gate) on a patch whose
only cell has the weight -1 under a mask of 0 leaves the weight -1; and with output activity 0
(a closed gate) it leaves the weight -1 of a cell whose mask is 1. -/
theorem bcm_nonneg_counterexample :
    (bcm_fixed exampleX (fun _ => 1) 1 2 [maskedNegativeCF] 1 0).map (fun cf => cf.weights 0)
      = [-1] ∧
    (bcm_fixed exampleX (fun _ => 0) 1 2 [negativeCF] 1 0).map (fun cf => cf.weights 0)
      = [-1] := by
  constructor
  · simp [bcm_fixed, forLoop, loopFrom, withCF, learn_cf, learn_cell, maskedNegativeCF,
      MASK_THRESHOLD]
    norm_num
  · simp [bcm_fixed, forLoop, loopFrom, negativeCF]

/-- C5, amended. After a call of `bcm_fixed`, for every input activity, output activity,
learning rate and threshold: in a unit with `output_activity[r] != 0`, no cell of the patch
whose mask is at least 0.5 is negative; every other cell keeps its weight, so that a
connection field without a negative weight before the call has none after it. -/
theorem bcm_nonneg_updated (X out : Nat → ℚ) (n icols : Nat) (cfs : List CF) (lr th : ℚ)
    (r : Nat) (cf : CF) (hcf : cfs[r]? = some cf) :
    ∃ cf', (bcm_fixed X out n icols cfs lr th)[r]? = some cf' ∧
      (r < n → out r ≠ 0 →
        ∀ k, k < cf.ncells → cf.mask k ≥ MASK_THRESHOLD → 0 ≤ cf'.weights k) ∧
      (∀ k, ¬ (r < n ∧ out r ≠ 0 ∧ k < cf.ncells ∧ cf.mask k ≥ MASK_THRESHOLD) →
        cf'.weights k = cf.weights k) ∧
      ((∀ k, 0 ≤ cf.weights k) → ∀ k, 0 ≤ cf'.weights k) := by
  refine ⟨_, gated_getElem? _ _ _ _ _ _ (bcm_fixed_getElem? X out n icols cfs lr th r) hcf,
    ?_, ?_, ?_⟩
  · intro hr ho k hk hm
    rw [if_pos ⟨hr, ho⟩, learn_cf_active _ X icols cf k hk hm, clamp_eq_max]
    exact le_max_right _ _
  · intro k hk
    split
    · rename_i hg
      rw [learn_cf_weights]
      by_cases h1 : k < cf.ncells
      · rw [if_pos h1]
        have hm : ¬ cf.mask k ≥ MASK_THRESHOLD := fun hm => hk ⟨hg.1, hg.2, h1, hm⟩
        simp only [learnedCell, hm, if_false]
      · rw [if_neg h1]
    · rfl
  · intro hpos k
    split
    · rw [learn_cf_weights]
      by_cases h1 : k < cf.ncells
      · rw [if_pos h1]
        unfold learnedCell
        by_cases hm : cf.mask k ≥ MASK_THRESHOLD
        · rw [if_pos hm]
          beta_reduce
          rw [clamp_eq_max]
          exact le_max_right _ _
        · rw [if_neg hm]
          exact hpos k
      · rw [if_neg h1]
        exact hpos k
    · exact hpos k

/-- C5 amended, at a concrete input: `bcm_fixed` with output activity 1, rate 1 and threshold
3 on the patch with the weight -1 under a mask of 1; the updated cell is not negative. -/
theorem bcm_nonneg_updated_witness :
    ∃ cf', (bcm_fixed exampleX (fun _ => 1) 1 2 [negativeCF] 1 3)[0]? = some cf' ∧
      0 ≤ cf'.weights 0 := by
  obtain ⟨cf', h1, h2, -⟩ := bcm_nonneg_updated exampleX (fun _ => 1) 1 2 [negativeCF] 1 3 0
    negativeCF rfl
  exact ⟨cf', h1, h2 (by decide) (by norm_num) 0 (by decide)
    (by norm_num [negativeCF, MASK_THRESHOLD])⟩

/-- C6. Normalize yields unit mass, repeatedly: for a unit that passes the gate of
`divisive_normalize_l1`, whose cache is valid or flagged stale, and whose sum of `|weight|`
over the cells with mask at least 0.5 is not zero, that sum is 1 after the call, and it is 1
again after a second call made right after the first (whatever the gating masks of the
second call). -/
theorem normalize_unit_mass (sm am sm' am' : Nat → ℚ) (cfs : List CF) (n n' r : Nat) (cf : CF)
    (hr : r < n) (hcf : cfs[r]? = some cf) (hgate : am r ≠ 0 ∧ sm r ≠ 0)
    (hcache : cf._has_norm_total ≠ 0 →
      cf._norm_total = activeSum cf.weights cf.mask cf.ncells)
    (hne : activeSum cf.weights cf.mask cf.ncells ≠ 0) :
    ∃ cf1, (divisive_normalize_l1 sm am cfs n)[r]? = some cf1 ∧
      activeSum cf1.weights cf1.mask cf1.ncells = 1 ∧
      ∃ cf2, (divisive_normalize_l1 sm' am' (divisive_normalize_l1 sm am cfs n) n')[r]?
          = some cf2 ∧
        activeSum cf2.weights cf2.mask cf2.ncells = 1 := by
  have h1 : (divisive_normalize_l1 sm am cfs n)[r]? = some (normalize_cf cf) := by
    rw [divisive_normalize_l1_getElem?, hcf]
    simp [hr, hgate]
  have hm1 := normalize_cf_unit cf (divisor_of_cacheOK cf hcache) hne
  refine ⟨normalize_cf cf, h1, hm1, ?_⟩
  refine ⟨_, gated_getElem? _ _ _ _ _ _
    (divisive_normalize_l1_getElem? sm' am' (divisive_normalize_l1 sm am cfs n) n' r) h1, ?_⟩
  split
  · refine normalize_cf_unit (normalize_cf cf)
      (divisor_of_stale _ (normalize_cf_flag cf)) ?_
    rw [hm1]
    exact one_ne_zero
  · exact hm1

/-- C6, at a concrete input: the example field with the valid cache 2, normalised twice with
open gates. -/
theorem normalize_unit_mass_witness :
    ∃ cf1, (divisive_normalize_l1 (fun _ => 1) (fun _ => 1) [cachedCF] 1)[0]? = some cf1 ∧
      activeSum cf1.weights cf1.mask cf1.ncells = 1 ∧
      ∃ cf2, (divisive_normalize_l1 (fun _ => 1) (fun _ => 1)
          (divisive_normalize_l1 (fun _ => 1) (fun _ => 1) [cachedCF] 1) 1)[0]? = some cf2 ∧
        activeSum cf2.weights cf2.mask cf2.ncells = 1 :=
  normalize_unit_mass (fun _ => 1) (fun _ => 1) (fun _ => 1) (fun _ => 1) [cachedCF] 1 1 0
    cachedCF (by decide) rfl ⟨by norm_num, by norm_num⟩ cachedCF_cacheOK
    (by
      have h : activeSum cachedCF.weights cachedCF.mask cachedCF.ncells = 2 := activeSum_example
      rw [h]
      norm_num)

/-- C7. Cache invariant: if every connection field of the collection satisfies "a set
`_has_norm_total` means that `_norm_total` is the sum of `|weight|` over the cells with mask
at least 0.5" before a call of `hebbian`, `bcm_fixed`, `trace_learning` or
`divisive_normalize_l1`, then every connection field satisfies it after the call, whether
or not its unit passed the gate. -/
theorem cache_invariant_preserved :
    (∀ (X out sm : Nat → ℚ) (n icols : Nat) (cfs : List CF) (lr : ℚ),
      (∀ cf ∈ cfs, cf.cacheOK) → ∀ cf ∈ hebbian X out sm n icols cfs lr, cf.cacheOK) ∧
    (∀ (X out : Nat → ℚ) (n icols : Nat) (cfs : List CF) (lr th : ℚ),
      (∀ cf ∈ cfs, cf.cacheOK) → ∀ cf ∈ bcm_fixed X out n icols cfs lr th, cf.cacheOK) ∧
    (∀ (X tr : Nat → ℚ) (n icols : Nat) (cfs : List CF) (lr : ℚ),
      (∀ cf ∈ cfs, cf.cacheOK) → ∀ cf ∈ trace_learning X tr n icols cfs lr, cf.cacheOK) ∧
    (∀ (sm am : Nat → ℚ) (cfs : List CF) (n : Nat),
      (∀ cf ∈ cfs, cf.cacheOK) → ∀ cf ∈ divisive_normalize_l1 sm am cfs n, cf.cacheOK) := by
  refine ⟨?_, ?_, ?_, ?_⟩
  · intro X out sm n icols cfs lr hc
    refine cacheOK_preserved _ cfs _ (hebbian_getElem? X out sm n icols cfs lr) ?_ hc
    intro r cf h
    split
    · exact learn_cf_cacheOK _ X icols cf
    · exact h
  · intro X out n icols cfs lr th hc
    refine cacheOK_preserved _ cfs _ (bcm_fixed_getElem? X out n icols cfs lr th) ?_ hc
    intro r cf h
    split
    · exact learn_cf_cacheOK _ X icols cf
    · exact h
  · intro X tr n icols cfs lr hc
    refine cacheOK_preserved _ cfs _ (trace_learning_getElem? X tr n icols cfs lr) ?_ hc
    intro r cf h
    split
    · exact learn_cf_cacheOK _ X icols cf
    · exact h
  · intro sm am cfs n hc
    refine cacheOK_preserved _ cfs _ (divisive_normalize_l1_getElem? sm am cfs n) ?_ hc
    intro r cf h
    split
    · exact normalize_cf_cacheOK cf
    · exact h

/-- C7, at a concrete input: `trace_learning` with trace 1 and rate 1 on the example field
with the valid cache 2; the field it leaves satisfies the invariant. -/
theorem cache_invariant_preserved_witness :
    ∃ cf', (trace_learning exampleX (fun _ => 1) 1 2 [cachedCF] 1)[0]? = some cf' ∧
      cf'.cacheOK := by
  have h := cache_invariant_preserved.2.2.1 exampleX (fun _ => 1) 1 2 [cachedCF] 1
    (fun cf hcf => by
      rw [List.mem_singleton] at hcf
      rw [hcf]
      exact cachedCF_cacheOK)
  have hlen : (trace_learning exampleX (fun _ => 1) 1 2 [cachedCF] 1)[0]?
      = some (learn_cf (fun w inp => w + 1 * 1 * inp) exampleX 2 cachedCF) := by
    rw [trace_learning_getElem?]
    simp
  exact ⟨_, hlen, h _ (List.mem_iff_getElem?.2 ⟨0, hlen⟩)⟩

/-- C9. `euclidean_response`: for a non-empty collection, with `dist_r` the square root of
the sum over the rectangle of `(weight_ij - input_ij)^2` and `max_dist` the maximum of the
`dist_k` over all units `k < num_cfs`, `temp_act[r] = strength * (max_dist - dist_r)` for every
unit `r`; hence for `strength >= 0` every `temp_act[r]` is `>= 0`, and a unit with the largest
distance gets exactly 0. The square root is any function without negative values on
`x >= 0`. -/
theorem euclidean_response_spec (sqrt : ℚ → ℚ) (X : Nat → ℚ) (strength : ℚ) (icols : Nat)
    (temp_act : Nat → ℚ) (cfs : List CF) (num_cfs : Nat)
    (hsqrt : ∀ x, 0 ≤ x → 0 ≤ sqrt x) (hpos : 0 < num_cfs) (hlen : num_cfs ≤ cfs.length) :
    ∃ max_dist,
      (∀ (k : Nat) (cf : CF), k < num_cfs → cfs[k]? = some cf →
        cf.distance sqrt X icols ≤ max_dist) ∧
      (∃ (k : Nat) (cf : CF), k < num_cfs ∧ cfs[k]? = some cf ∧
        cf.distance sqrt X icols = max_dist) ∧
      (∀ (r : Nat) (cf : CF), r < num_cfs → cfs[r]? = some cf →
        euclidean_response sqrt X strength icols temp_act cfs num_cfs r
          = strength * (max_dist - cf.distance sqrt X icols)) ∧
      (0 ≤ strength → ∀ r, r < num_cfs →
        0 ≤ euclidean_response sqrt X strength icols temp_act cfs num_cfs r) ∧
      (∀ (r : Nat) (cf : CF), r < num_cfs → cfs[r]? = some cf →
        cf.distance sqrt X icols = max_dist →
        euclidean_response sqrt X strength icols temp_act cfs num_cfs r = 0) := by
  have hd' : ∀ (k : Nat) (cf : CF), cfs[k]? = some cf →
      unitDistance sqrt X icols cfs k = cf.distance sqrt X icols := by
    intro k cf hk
    simp only [unitDistance, hk]
  have hd : ∀ (k : Nat) (cf : CF), cfs[k]? = some cf →
      unitDistance sqrt X icols cfs k = sqrt (euclidean_tot X icols cf) := by
    intro k cf hk
    rw [hd' k cf hk, CF.distance, euclidean_tot_eq]
  have happ := euclidean_response_apply sqrt X strength icols temp_act cfs
    (unitDistance sqrt X icols cfs) num_cfs hlen hd
  have hnn : ∀ k, k < num_cfs → 0 ≤ unitDistance sqrt X icols cfs k := by
    intro k hk
    have hsome : cfs[k]? = some cfs[k] := List.getElem?_eq_getElem (by omega)
    rw [hd k _ hsome]
    exact hsqrt _ (euclidean_tot_nonneg X icols _)
  refine ⟨maxTo (unitDistance sqrt X icols cfs) num_cfs, ?_, ?_, ?_, ?_, ?_⟩
  · intro k cf hlt hk
    rw [← hd' k cf hk]
    exact maxTo_ge _ num_cfs k hlt
  · obtain ⟨k, hk, hmax⟩ := maxTo_attained_of_nonneg _ num_cfs hpos hnn
    have hsome : cfs[k]? = some cfs[k] := List.getElem?_eq_getElem (by omega)
    exact ⟨k, cfs[k], hk, hsome, by rw [← hd' k _ hsome]; exact hmax⟩
  · intro r cf hlt hr
    rw [happ r hlt, hd' r cf hr]
  · intro hs r hr
    rw [happ r hr]
    exact mul_nonneg hs (sub_nonneg.2 (maxTo_ge _ num_cfs r hr))
  · intro r cf hlt hr hmax
    rw [happ r hlt, hd' r cf hr, hmax, sub_self, mul_zero]

/-- C9, at a concrete input: the rational square root `Rat.sqrt`, strength 2, and the
example field next to the field of the same weights and valid cache. -/
theorem euclidean_response_spec_witness :
    0 ≤ euclidean_response Rat.sqrt exampleX 2 2 (fun _ => 0) [exampleCF, cachedCF] 2 1 := by
  obtain ⟨_, _, _, _, h4, _⟩ := euclidean_response_spec Rat.sqrt exampleX 2 2 (fun _ => 0)
    [exampleCF, cachedCF] 2 (fun x _ => Rat.sqrt_nonneg x) (by decide) (by decide)
  exact h4 (by norm_num) 1 (by decide)

/-- C10. Dense Hebbian rule: for every unit `r` whose gate is open (`output_activity[r] != 0`
and `sheet_mask[r] != 0`), each cell `(i,j)` of the rectangle with mask at least 0.5 ends with
`weight_old + (output_activity[r] * learning_rate) * input_activity[i*icols + j]`; a unit whose
gate is closed keeps its connection field unchanged. -/
theorem hebbian_rule (X out sm : Nat → ℚ) (n icols : Nat) (cfs : List CF) (lr : ℚ)
    (r : Nat) (cf : CF) (hr : r < n) (hcf : cfs[r]? = some cf) :
    ∃ cf', (hebbian X out sm n icols cfs lr)[r]? = some cf' ∧
      (out r ≠ 0 ∧ sm r ≠ 0 →
        ∀ i j, cf.r1 ≤ i → i < cf.r2 → cf.c1 ≤ j → j < cf.c2 →
          cf.mask (cf.cell i j) ≥ MASK_THRESHOLD →
          cf'.weights (cf.cell i j)
            = cf.weights (cf.cell i j) + (out r * lr) * X (i * icols + j)) ∧
      (out r = 0 ∨ sm r = 0 → cf' = cf) := by
  by_cases hg : out r ≠ 0 ∧ sm r ≠ 0
  · refine ⟨learn_cf (fun w inp => w + out r * lr * inp) X icols cf, ?_, ?_, ?_⟩
    · rw [hebbian_getElem?, hcf]
      simp [hr, hg]
    · intro _ i j hi hi2 hj hj2 hm
      rw [learn_cf_weights, if_pos (cell_lt_ncells cf i j hi hi2 hj hj2)]
      simp only [learnedCell, hm, if_true, inputOffset_cell cf icols i j hi hj hj2]
    · intro h
      rcases h with h | h
      · exact absurd h hg.1
      · exact absurd h hg.2
  · refine ⟨cf, ?_, ?_, ?_⟩
    · rw [hebbian_getElem?, hcf]
      simp [hg]
    · intro h
      exact absurd h hg
    · intro _
      rfl

/-- C10, at a concrete input: the example field, with output activity 3 and rate 2; the cell
at row 1 and column 1, over the source unit of activity 4, goes from 1/2 to 1/2 + 6 * 4. -/
theorem hebbian_rule_witness :
    ∃ cf', (hebbian exampleX (fun _ => 3) (fun _ => 1) 1 2 [exampleCF] 2)[0]? = some cf' ∧
      cf'.weights 3 = 49 / 2 := by
  obtain ⟨cf', h1, h2, -⟩ := hebbian_rule exampleX (fun _ => 3) (fun _ => 1) 1 2 [exampleCF] 2 0
    exampleCF (by decide) rfl
  refine ⟨cf', h1, ?_⟩
  have h := h2 ⟨by norm_num, by norm_num⟩ 1 1 (by decide) (by decide) (by decide) (by decide)
    (by norm_num [exampleCF, MASK_THRESHOLD])
  have e : exampleCF.cell 1 1 = 3 := by decide
  rw [e] at h
  rw [h]
  norm_num [exampleCF, exampleX]

/-- C11. Dense BCM rule: for every unit `r` with `output_activity[r] != 0`, each cell `(i,j)`
of the rectangle with mask at least 0.5 ends with
`max(0, weight_old + (output_activity[r] * learning_rate) * input_activity[i*icols + j]
* (output_activity[r] - unit_threshold))`; a unit with `output_activity[r] == 0` keeps its
connection field unchanged. -/
theorem bcm_rule (X out : Nat → ℚ) (n icols : Nat) (cfs : List CF) (lr th : ℚ)
    (r : Nat) (cf : CF) (hr : r < n) (hcf : cfs[r]? = some cf) :
    ∃ cf', (bcm_fixed X out n icols cfs lr th)[r]? = some cf' ∧
      (out r ≠ 0 →
        ∀ i j, cf.r1 ≤ i → i < cf.r2 → cf.c1 ≤ j → j < cf.c2 →
          cf.mask (cf.cell i j) ≥ MASK_THRESHOLD →
          cf'.weights (cf.cell i j)
            = max 0 (cf.weights (cf.cell i j)
                + (out r * lr) * X (i * icols + j) * (out r - th))) ∧
      (out r = 0 → cf' = cf) := by
  refine ⟨_, gated_getElem? _ _ _ _ _ _ (bcm_fixed_getElem? X out n icols cfs lr th r) hcf,
    ?_, ?_⟩
  · intro ho i j hi hi2 hj hj2 hm
    rw [if_pos ⟨hr, ho⟩, learn_cf_active _ X icols cf _ (cell_lt_ncells cf i j hi hi2 hj hj2) hm,
      clamp_eq_max, inputOffset_cell cf icols i j hi hj hj2, max_comm]
  · intro ho
    rw [if_neg (fun h => h.2 ho)]

/-- C11, at a concrete input: `bcm_fixed` with output activity 1, rate 1 and threshold 3 on
the 1×1 patch of weight -1 and mask 1 over a source unit of activity 1; the cell is clamped
to `max(0, -1 + 1 * 1 * (1 - 3)) = 0`. -/
theorem bcm_rule_witness :
    ∃ cf', (bcm_fixed exampleX (fun _ => 1) 1 2 [negativeCF] 1 3)[0]? = some cf' ∧
      cf'.weights 0 = 0 := by
  obtain ⟨cf', h1, h2, -⟩ := bcm_rule exampleX (fun _ => 1) 1 2 [negativeCF] 1 3 0 negativeCF
    (by decide) rfl
  refine ⟨cf', h1, ?_⟩
  have h := h2 (by norm_num) 0 0 (by decide) (by decide) (by decide) (by decide)
    (by norm_num [negativeCF, MASK_THRESHOLD])
  have e : negativeCF.cell 0 0 = 0 := by decide
  rw [e] at h
  rw [h]
  norm_num [negativeCF, exampleX]

/-- C12. Trace learning is Hebbian learning driven by the trace: for every collection, input
activity, trace vector and learning rate, `trace_learning` leaves the same collection (the
same weights, `_norm_total` and `_has_norm_total` in every connection field) as `hebbian`
called with the traces as its output activity and a sheet mask that is nowhere 0. -/
theorem trace_learning_eq_hebbian (X tr sm : Nat → ℚ) (n icols : Nat) (cfs : List CF) (lr : ℚ)
    (hsm : ∀ r, sm r ≠ 0) :
    trace_learning X tr n icols cfs lr = hebbian X tr sm n icols cfs lr := by
  apply List.ext_getElem?
  intro r
  rw [trace_learning_getElem?, hebbian_getElem?]
  have e : (r < n ∧ tr r ≠ 0) ↔ (r < n ∧ (tr r ≠ 0 ∧ sm r ≠ 0)) :=
    ⟨fun h => ⟨h.1, h.2, hsm r⟩, fun h => ⟨h.1, h.2.1⟩⟩
  simp only [e]

/-- C12, at a concrete input: trace 3 and rate 2 on the example field, against `hebbian`
with the sheet mask 1. -/
theorem trace_learning_eq_hebbian_witness :
    trace_learning exampleX (fun _ => 3) 1 2 [exampleCF] 2
      = hebbian exampleX (fun _ => 3) (fun _ => 1) 1 2 [exampleCF] 2 :=
  trace_learning_eq_hebbian exampleX (fun _ => 3) (fun _ => 1) 1 2 [exampleCF] 2
    (fun _ => one_ne_zero)

/-- C13. Sparse propagate: after `DotProduct` with `num_cfs` the number of columns,
`activity[c] = strength * (a0[c] + sum over the stored entries (row, c, value) of column c of
input[row] * value)` for every column `c`, `a0` being the contents of `activity` before the
call; positions of `activity` beyond the columns are as they were. The method writes through
`activity` only: the matrix and the input vector are arguments of the model and not part of
its result. -/
theorem sparse_propagate (m : SparseMatrixExt) (strength : ℚ) (input a0 : Nat → ℚ) (c : Nat) :
    (c < m.outerSize →
      m.DotProduct m.outerSize strength input a0 c
        = strength * (a0 c + ((m.inner c).map (fun e => input e.1 * e.2)).sum)) ∧
    (¬ c < m.outerSize → m.DotProduct m.outerSize strength input a0 c = a0 c) := by
  rw [DotProduct_apply_all]
  constructor
  · intro hc
    simp only [hc, if_true, SparseMatrixExt.colDot]
    rw [mul_comm]
  · intro hc
    simp only [hc, if_false]

/-- C13, at a concrete input: column 0 of the example matrix stores 1 at row 0 and 2 at
row 2; with the input `[1,2,3]`, the initial activity 10 and strength 2 the activity is
`2 * (10 + 1*1 + 3*2) = 34`. -/
theorem sparse_propagate_witness :
    exampleSparse.DotProduct 2 2 exampleX (fun _ => 10) 0 = 34 := by
  have h := (sparse_propagate exampleSparse 2 exampleX (fun _ => 10) 0).1 (by decide)
  have e : exampleSparse.outerSize = 2 := rfl
  rw [e] at h
  rw [h]
  norm_num [exampleSparse, exampleX, SparseMatrixExt.inner]

/-- C14. Epsilon-gated propagate: `DotProduct_opt` on an input equals `DotProduct` on the
same input with every entry below 1e-6 replaced by 0; in particular the two give identical
activity vectors when every input entry is at least 1e-6. -/
theorem sparse_propagate_opt :
    (∀ (m : SparseMatrixExt) (num_cfs : Nat) (strength : ℚ) (input activity : Nat → ℚ),
      m.DotProduct_opt num_cfs strength input activity
        = m.DotProduct num_cfs strength
            (fun i => if input i < (1 / 1000000 : ℚ) then 0 else input i) activity) ∧
    (∀ (m : SparseMatrixExt) (num_cfs : Nat) (strength : ℚ) (input activity : Nat → ℚ),
      (∀ i, input i ≥ (1 / 1000000 : ℚ)) →
      m.DotProduct_opt num_cfs strength input activity
        = m.DotProduct num_cfs strength input activity) := by
  refine ⟨DotProduct_opt_eq, ?_⟩
  intro m num_cfs strength input activity hin
  rw [DotProduct_opt_eq]
  have e : (fun i => if input i < (1 / 1000000 : ℚ) then 0 else input i) = input := by
    funext i
    rw [if_neg (not_lt.2 (hin i))]
  rw [e]

/-- C14, at a concrete input: the example matrix with the input `[1,2,3]`, whose entries
are all above 1e-6. -/
theorem sparse_propagate_opt_witness :
    exampleSparse.DotProduct_opt 2 2 exampleX (fun _ => 10)
      = exampleSparse.DotProduct 2 2 exampleX (fun _ => 10) :=
  sparse_propagate_opt.2 exampleSparse 2 2 exampleX (fun _ => 10) (fun i => by
    have h : (0 : ℚ) ≤ (i : ℚ) := Nat.cast_nonneg i
    show (i : ℚ) + 1 ≥ 1 / 1000000
    linarith)

/-- C15. Sparse Hebbian update: after `Hebbian`, every stored entry `(row, col)` holds
`value_old + dest_act[col] * lr * src_act[row]`, the stored positions of every column are the
same, in the same order, and so are the dimensions, and `norm_total[c]` is its value before
the call plus the sum of the updated values of column `c`, for every `c`. -/
theorem sparse_hebbian (m : SparseMatrixExt) (src_act dest_act n0 : Nat → ℚ) (lr : ℚ) :
    (∀ c, (m.Hebbian src_act dest_act n0 lr).1.inner c
      = (m.inner c).map (fun e => (e.1, e.2 + dest_act c * lr * src_act e.1))) ∧
    (∀ c, ((m.Hebbian src_act dest_act n0 lr).1.inner c).map Prod.fst
      = (m.inner c).map Prod.fst) ∧
    (m.Hebbian src_act dest_act n0 lr).1.outerSize = m.outerSize ∧
    (m.Hebbian src_act dest_act n0 lr).1.innerSize = m.innerSize ∧
    (∀ c, (m.Hebbian src_act dest_act n0 lr).2 c
      = n0 c + (((m.Hebbian src_act dest_act n0 lr).1.inner c).map Prod.snd).sum) := by
  obtain ⟨res, hres, h1, h2, h3, h4⟩ :=
    hebbian_loop (fun c it => it.2 + dest_act c * lr * src_act it.1) m n0
  have e : m.Hebbian src_act dest_act n0 lr = res := hres
  rw [e]
  refine ⟨h3, ?_, h2, h1, h4⟩
  intro c
  rw [h3 c, List.map_map]
  rfl

/-- C15, at a concrete input: the example matrix with `src_act = [1,2,3]`, `dest_act`
constantly 2, rate 3 and `norm_total` starting at 10; column 0 goes from `1, 2` to
`1 + 2*3*1, 2 + 2*3*3` and `norm_total[0]` to `10 + 7 + 20`. -/
theorem sparse_hebbian_witness :
    (exampleSparse.Hebbian exampleX (fun _ => 2) (fun _ => 10) 3).1.inner 0 = [(0, 7), (2, 20)] ∧
    (exampleSparse.Hebbian exampleX (fun _ => 2) (fun _ => 10) 3).2 0 = 37 := by
  obtain ⟨h1, -, -, -, h5⟩ := sparse_hebbian exampleSparse exampleX (fun _ => 2) (fun _ => 10) 3
  have e : (exampleSparse.Hebbian exampleX (fun _ => 2) (fun _ => 10) 3).1.inner 0
      = [(0, 7), (2, 20)] := by
    rw [h1 0]
    norm_num [exampleSparse, exampleX, SparseMatrixExt.inner]
  refine ⟨e, ?_⟩
  rw [h5 0, e]
  norm_num

/-- C16. Epsilon-gated sparse Hebbian: after `Hebbian_opt`, a stored entry `(row, col)` holds
`value_old + dest_act[col] * lr * src_act[row]` if both `src_act[row]` and `dest_act[col]` are
at least 1e-6, and `value_old` otherwise; in every case `norm_total[c]` grows by the sum of
the values after the call of all stored entries of column `c`. When every entry of `src_act`
and `dest_act` is at least 1e-6, `Hebbian_opt` and `Hebbian` give the same matrix and the
same `norm_total`. -/
theorem sparse_hebbian_opt :
    (∀ (m : SparseMatrixExt) (src_act dest_act n0 : Nat → ℚ) (lr : ℚ),
      (∀ c, (m.Hebbian_opt src_act dest_act n0 lr).1.inner c
        = (m.inner c).map (fun e =>
            (e.1, if src_act e.1 ≥ (1 / 1000000 : ℚ) ∧ dest_act c ≥ (1 / 1000000 : ℚ) then
                e.2 + dest_act c * lr * src_act e.1
              else e.2))) ∧
      (m.Hebbian_opt src_act dest_act n0 lr).1.outerSize = m.outerSize ∧
      (m.Hebbian_opt src_act dest_act n0 lr).1.innerSize = m.innerSize ∧
      (∀ c, (m.Hebbian_opt src_act dest_act n0 lr).2 c
        = n0 c + (((m.Hebbian_opt src_act dest_act n0 lr).1.inner c).map Prod.snd).sum)) ∧
    (∀ (m : SparseMatrixExt) (src_act dest_act n0 : Nat → ℚ) (lr : ℚ),
      (∀ i, src_act i ≥ (1 / 1000000 : ℚ)) → (∀ c, dest_act c ≥ (1 / 1000000 : ℚ)) →
      m.Hebbian_opt src_act dest_act n0 lr = m.Hebbian src_act dest_act n0 lr) := by
  constructor
  · intro m src_act dest_act n0 lr
    obtain ⟨res, hres, h1, h2, h3, h4⟩ :=
      hebbian_loop (fun c it =>
        if src_act it.1 ≥ (1 / 1000000 : ℚ) ∧ dest_act c ≥ (1 / 1000000 : ℚ) then
          it.2 + dest_act c * lr * src_act it.1
        else it.2) m n0
    have e : m.Hebbian_opt src_act dest_act n0 lr = res := hres
    rw [e]
    exact ⟨h3, h2, h1, h4⟩
  · intro m src_act dest_act n0 lr hsrc hdest
    unfold SparseMatrixExt.Hebbian_opt SparseMatrixExt.Hebbian
    simp only [hsrc, hdest, and_self, if_true]

/-- C16, at a concrete input: the example matrix with `src_act = [1,2,3]` and `dest_act`
constantly 2, all at least 1e-6. -/
theorem sparse_hebbian_opt_witness :
    exampleSparse.Hebbian_opt exampleX (fun _ => 2) (fun _ => 10) 3
      = exampleSparse.Hebbian exampleX (fun _ => 2) (fun _ => 10) 3 :=
  sparse_hebbian_opt.2 exampleSparse exampleX (fun _ => 2) (fun _ => 10) 3
    (fun i => by
      have h : (0 : ℚ) ≤ (i : ℚ) := Nat.cast_nonneg i
      show (i : ℚ) + 1 ≥ 1 / 1000000
      linarith)
    (fun _ => by norm_num)

/-- The slice at the row positions below `size1`: for a matrix `M` (each column stored with
ascending rows) and a row index array that is strictly ascending on `[0, size1)`, `slice` into
an empty matrix of `size2` columns leaves a matrix `R` of `size2` columns with
`R(a, b) = M(array1[a], array2[b])` for every `a < size1` and `b < size2`; at such a position
`R` stores a value exactly when `M` stores it at `(array1[a], array2[b])`. An entry that `R`
stores at any `(a, b)` has `b < size2` and is stored by `M` at `(array1[a], array2[b])`, where
for `a = size1` the word `array1[a]` lies behind the array. -/
theorem slice_spec (m : SparseMatrixExt) (array1 : Nat → Nat) (size1 : Nat)
    (array2 : Nat → Nat) (size2 : Nat) (mat : SparseMatrixExt)
    (hm : ∀ c, sortedRows (m.inner c))
    (hrows : ∀ a a', a < a' → a' < size1 → array1 a < array1 a')
    (hmat : mat.outer = List.replicate size2 []) :
    (∀ a b, a < size1 → b < size2 →
      (m.slice array1 size1 array2 size2 mat).1.coeff a b = m.coeff (array1 a) (array2 b)) ∧
    (∀ a b v, a < size1 → b < size2 →
      ((a, v) ∈ (m.slice array1 size1 array2 size2 mat).1.inner b ↔
        (array1 a, v) ∈ m.inner (array2 b))) ∧
    (∀ a b v, (a, v) ∈ (m.slice array1 size1 array2 size2 mat).1.inner b →
      b < size2 ∧ (array1 a, v) ∈ m.inner (array2 b)) ∧
    (m.slice array1 size1 array2 size2 mat).1.outerSize = size2 := by
  have hsize : size2 ≤ mat.outer.length := by rw [hmat]; simp
  have hempty : ∀ c, mat.inner c = [] := by
    intro c
    simp only [SparseMatrixExt.inner, hmat, List.getD_eq_getElem?_getD, List.getElem?_replicate]
    split <;> rfl
  obtain ⟨hlen, hcols⟩ := slice_inner m array1 size1 array2 size2 mat hsize
  refine ⟨?_, ?_, ?_, ?_⟩
  · intro a b ha hb
    unfold SparseMatrixExt.coeff
    rw [hcols b, if_pos hb, hempty b]
    exact (slice_column array1 size1 hrows _ (hm (array2 b))).1 a ha
  · intro a b v ha hb
    rw [hcols b, if_pos hb, hempty b]
    exact ⟨(slice_column array1 size1 hrows _ (hm (array2 b))).2.1 a v,
      (slice_column array1 size1 hrows _ (hm (array2 b))).2.2 a v ha⟩
  · intro a b v hmem
    rw [hcols b] at hmem
    by_cases hb : b < size2
    · rw [if_pos hb, hempty b] at hmem
      exact ⟨hb, (slice_column array1 size1 hrows _ (hm (array2 b))).2.1 a v hmem⟩
    · rw [if_neg hb, hempty b] at hmem
      simp at hmem
  · unfold SparseMatrixExt.outerSize
    rw [hlen, hmat]
    simp

/-- The slice of the example matrix, which stores `(2,0) = 2`, by the rows `[0, 2]` and the
columns `[0, 1]`: the result holds 2 at `(1,0)`. -/
theorem slice_spec_witness :
    (exampleSparse.slice (fun a => 2 * a) 2 (fun b => b) 2 emptyMatrix2).1.coeff 1 0 = 2 := by
  have h := (slice_spec exampleSparse (fun a => 2 * a) 2 (fun b => b) 2 emptyMatrix2
    (fun c => by
      unfold sortedRows
      rcases c with _ | _ | c
      · simp [exampleSparse, SparseMatrixExt.inner]
      · simp [exampleSparse, SparseMatrixExt.inner]
      · simp [exampleSparse, SparseMatrixExt.inner])
    (fun a a' h1 _ => by
      show 2 * a < 2 * a'
      omega)
    rfl).1
  rw [h 1 0 (by decide) (by decide)]
  simp [SparseMatrixExt.coeff, coeffCol, SparseMatrixExt.inner, exampleSparse, List.find?]

/-- C17 fails on the code: `slice` of the 3×2 matrix that stores `(0,0) = 7` and `(2,1) = 9`,
by the row index array `[0]` (`size1 = 1`) and the column index array `[1]` (`size2 = 1`),
into an empty 1×1 matrix. Both arrays are ascending and within the matrix, whose columns are
stored with ascending rows, and `M(0,1)` is not stored. For the entry at row 2 the scan pointer
goes to `size1 = 1`, since the test `size1Ind < size1` comes after the read of
`array1[size1Ind]`; when the word behind the array is 2, `slice` inserts the value 9 at the row
position 1 of a result that has 1 row, a position that is none of the `(a, b)` with
`a < size1`. -/
theorem slice_stray_entry :
    sortedRows (twoColumnMatrix.inner 0) ∧ sortedRows (twoColumnMatrix.inner 1) ∧
    (0 < twoColumnMatrix.innerSize ∧ 1 < twoColumnMatrix.outerSize) ∧
    (emptyMatrix.innerSize = 1 ∧ emptyMatrix.outer = List.replicate 1 []) ∧
    twoColumnMatrix.inner 1 = [(2, 9)] ∧
    (twoColumnMatrix.slice (fun i => if i = 0 then 0 else 2) 1 (fun _ => 1) 1
      emptyMatrix).1.innerSize = 1 ∧
    (twoColumnMatrix.slice (fun i => if i = 0 then 0 else 2) 1 (fun _ => 1) 1
      emptyMatrix).1.inner 0 = [(1, 9)] := by
  refine ⟨?_, ?_, ⟨by decide, by decide⟩, ⟨rfl, rfl⟩, rfl, ?_, ?_⟩
  · simp [sortedRows, twoColumnMatrix, SparseMatrixExt.inner]
  · simp [sortedRows, twoColumnMatrix, SparseMatrixExt.inner]
  · simp [SparseMatrixExt.slice, SparseMatrixExt.inner, SparseMatrixExt.insert, insertEntry,
      sliceWhile, forLoop, loopFrom, twoColumnMatrix, emptyMatrix, List.modify,
      List.modifyTailIdx, List.modifyHead]
  · simp [SparseMatrixExt.slice, SparseMatrixExt.inner, SparseMatrixExt.insert, insertEntry,
      sliceWhile, forLoop, loopFrom, twoColumnMatrix, emptyMatrix, List.modify,
      List.modifyTailIdx, List.modifyHead]

/-- C18. Triplet round trip: for `n` triplets `(row, col, value)` at pairwise distinct
positions inside the columns of the matrix, `setTriplets` replaces the contents so that each
listed position holds its value and no other position is stored; a following `iterNonZero`
writes exactly `n` entries, a permutation of the triplets, in column-major order (the column
indices do not decrease); and `nonZeroInds` writes the same rows and columns. -/
theorem triplet_round_trip (m : SparseMatrixExt) (is js : Nat → Nat) (vs : Nat → ℚ) (n : Nat)
    (a1 a2 b1 b2 : Nat → Nat) (a3 : Nat → ℚ)
    (hrange : ∀ i, i < n → js i < m.outerSize)
    (hdist : ∀ i j, i < n → j < n → (is i, js i) = (is j, js j) → i = j) :
    (∀ i, i < n → (m.setTriplets is js vs n).coeff (is i) (js i) = vs i) ∧
    (∀ row col v, (row, v) ∈ (m.setTriplets is js vs n).inner col →
      ∃ i, i < n ∧ is i = row ∧ js i = col ∧ vs i = v) ∧
    ((m.setTriplets is js vs n).iterNonZero a1 a2 a3).2.2.2 = n ∧
    ((List.range n).map (tripleAt ((m.setTriplets is js vs n).iterNonZero a1 a2 a3))).Perm
      ((List.range n).map (fun i => (is i, js i, vs i))) ∧
    ((List.range n).map ((m.setTriplets is js vs n).iterNonZero a1 a2 a3).2.1).Pairwise
      (fun a b => a ≤ b) ∧
    (∀ q, q < n →
      ((m.setTriplets is js vs n).nonZeroInds b1 b2).1 q
        = ((m.setTriplets is js vs n).iterNonZero a1 a2 a3).1 q ∧
      ((m.setTriplets is js vs n).nonZeroInds b1 b2).2.1 q
        = ((m.setTriplets is js vs n).iterNonZero a1 a2 a3).2.1 q) ∧
    ((m.setTriplets is js vs n).nonZeroInds b1 b2).2.2 = n := by
  obtain ⟨hperm, hsorted⟩ := setTriplets_entries m is js vs n hrange hdist
  have hlen : (m.setTriplets is js vs n).entries.length = n := by
    rw [hperm.length_eq]
    simp
  have hread : ∀ (c1 c2 : Nat → Nat) (c3 : Nat → ℚ),
      (List.range n).map (tripleAt ((m.setTriplets is js vs n).iterNonZero c1 c2 c3))
        = (m.setTriplets is js vs n).entries := by
    intro c1 c2 c3
    rw [iterNonZero_eq]
    have h := writeEntries_read (m.setTriplets is js vs n).entries c1 c2 c3
    rw [hlen] at h
    exact h
  have hcount : ∀ (c1 c2 : Nat → Nat) (c3 : Nat → ℚ),
      ((m.setTriplets is js vs n).iterNonZero c1 c2 c3).2.2.2 = n := by
    intro c1 c2 c3
    rw [iterNonZero_eq, (writeEntries_spec _ _).1, hlen]
    simp
  have hat : ∀ (c1 c2 : Nat → Nat) (c3 : Nat → ℚ) (q : Nat), q < n →
      tripleAt ((m.setTriplets is js vs n).iterNonZero c1 c2 c3) q
        = tripleAt ((m.setTriplets is js vs n).iterNonZero a1 a2 a3) q := by
    intro c1 c2 c3 q hq
    rw [iterNonZero_eq, iterNonZero_eq, (writeEntries_spec _ _).2 q, (writeEntries_spec _ _).2 q]
    have hq' : q < (m.setTriplets is js vs n).entries.length := by rw [hlen]; exact hq
    simp only [Nat.zero_le, if_true, Nat.sub_zero, List.getElem?_eq_getElem hq',
      Option.getD_some]
  refine ⟨?_, ?_, hcount a1 a2 a3, ?_, ?_, ?_, ?_⟩
  · intro i hi
    have hmem : (is i, js i, vs i) ∈ (m.setTriplets is js vs n).entries :=
      hperm.mem_iff.2 (List.mem_map.2 ⟨i, List.mem_range.2 hi, rfl⟩)
    exact coeffCol_of_mem _ _ _ (hsorted (js i)) ((mem_entries _ _ _ _).1 hmem)
  · intro row col v hmem
    have h := hperm.mem_iff.1 ((mem_entries _ row col v).2 hmem)
    obtain ⟨i, hi, heq⟩ := List.mem_map.1 h
    simp only [Prod.mk.injEq] at heq
    exact ⟨i, List.mem_range.1 hi, heq.1, heq.2.1, heq.2.2⟩
  · rw [hread]
    exact hperm
  · have e : (List.range n).map ((m.setTriplets is js vs n).iterNonZero a1 a2 a3).2.1
        = ((List.range n).map
            (tripleAt ((m.setTriplets is js vs n).iterNonZero a1 a2 a3))).map
            (fun t => t.2.1) := by
      rw [List.map_map]
      rfl
    rw [e, hread]
    exact entriesFrom_cols _ 0
  · intro q hq
    rw [nonZeroInds_eq _ b1 b2 a3]
    have h := hat b1 b2 a3 q hq
    simp only [tripleAt, Prod.mk.injEq] at h
    exact ⟨h.1, h.2.1⟩
  · rw [nonZeroInds_eq _ b1 b2 a3]
    exact hcount b1 b2 a3

/-- C18, at a concrete input: the three triplets `(2,0,2)`, `(1,1,3)`, `(0,0,1)` given to a
matrix of 3 rows and 2 columns; the position `(2,0)` holds 2 and `iterNonZero` writes 3
entries. -/
theorem triplet_round_trip_witness :
    (exampleSparse.setTriplets (fun i => 2 - i) (fun i => i % 2) (fun i => if i = 0 then 2
        else if i = 1 then 3 else 1) 3).coeff 2 0 = 2 ∧
    ((exampleSparse.setTriplets (fun i => 2 - i) (fun i => i % 2) (fun i => if i = 0 then 2
        else if i = 1 then 3 else 1) 3).iterNonZero (fun _ => 0) (fun _ => 0)
        (fun _ => 0)).2.2.2 = 3 := by
  obtain ⟨h1, -, h3, -⟩ := triplet_round_trip exampleSparse (fun i => 2 - i) (fun i => i % 2)
    (fun i => if i = 0 then 2 else if i = 1 then 3 else 1) 3 (fun _ => 0) (fun _ => 0)
    (fun _ => 0) (fun _ => 0) (fun _ => 0)
    (fun i _ => by
      show i % 2 < 2
      omega)
    (fun i j hi hj heq => by
      simp only [Prod.mk.injEq] at heq
      omega)
  exact ⟨h1 0 (by decide), h3⟩

/-- C19. A stale cache is never trusted: if two collections are identical except for the
stored `_norm_total` of connection fields whose `_has_norm_total` is 0, then
`divisive_normalize_l1`, run with the same gating masks, leaves identical weights in both. -/
theorem stale_total_ignored (sm am : Nat → ℚ) (cfs1 cfs2 : List CF) (n : Nat)
    (hsame : List.Forall₂ CF.sameButStale cfs1 cfs2) :
    (divisive_normalize_l1 sm am cfs1 n).map CF.weights
      = (divisive_normalize_l1 sm am cfs2 n).map CF.weights := by
  apply List.ext_getElem?
  intro r
  rw [List.getElem?_map, List.getElem?_map, divisive_normalize_l1_getElem?,
    divisive_normalize_l1_getElem?]
  cases h1 : cfs1[r]? with
  | none =>
    have hlen := hsame.length_eq
    have h2 : cfs2[r]? = none := by
      rw [List.getElem?_eq_none_iff] at h1 ⊢
      omega
    rw [h2]
  | some cf1 =>
    have hlt : r < cfs1.length := by
      by_contra hge
      rw [List.getElem?_eq_none (by omega)] at h1
      exact Option.noConfusion h1
    have hlt2 : r < cfs2.length := by rw [← hsame.length_eq]; exact hlt
    have h2 : cfs2[r]? = some cfs2[r] := List.getElem?_eq_getElem hlt2
    have hcf : cf1 = cfs1[r] := by
      rw [List.getElem?_eq_getElem hlt] at h1
      exact (Option.some.inj h1).symm
    have hrel : cf1.sameButStale cfs2[r] := by
      rw [hcf]
      exact List.Forall₂.get hsame hlt hlt2
    rw [h2]
    simp only [Option.map_some']
    congr 1
    split
    · exact normalize_cf_sameButStale _ _ hrel
    · exact hrel.1

/-- C19, at a concrete input: the example field with the flag cleared, once with the stored
total 0 and once with the stored total 77. -/
theorem stale_total_ignored_witness :
    (divisive_normalize_l1 (fun _ => 1) (fun _ => 1) [exampleCF] 1).map CF.weights
      = (divisive_normalize_l1 (fun _ => 1) (fun _ => 1) [staleCF] 1).map CF.weights :=
  stale_total_ignored (fun _ => 1) (fun _ => 1) [exampleCF] [staleCF] 1
    (List.Forall₂.cons ⟨rfl, rfl, rfl, rfl, rfl, fun h => absurd rfl h⟩ List.Forall₂.nil)

/-- C20 fails on the code: `slice` of the 6×1 matrix that stores `(5,0)`, with the row index
array `[2]` (`size1 = 1`) and the column index array `[0]`. The scan pointer reaches
`size1 = 1`, and the call reads `array1` at the positions 0, 1, 1: twice one past its end.
When the word behind the array is 5 the call inserts at the row position 1 of a result that
has 1 row; when it is 9 it inserts nothing. -/
theorem slice_reads_past_end :
    (tallMatrix.slice (fun i => if i = 0 then 2 else 5) 1 (fun _ => 0) 1 emptyMatrix).2
      = [0, 1, 1] ∧
    (tallMatrix.slice (fun i => if i = 0 then 2 else 5) 1 (fun _ => 0) 1 emptyMatrix).1.inner 0
      = [(1, 1)] ∧
    (tallMatrix.slice (fun i => if i = 0 then 2 else 9) 1 (fun _ => 0) 1 emptyMatrix).2
      = [0, 1, 1] ∧
    (tallMatrix.slice (fun i => if i = 0 then 2 else 9) 1 (fun _ => 0) 1 emptyMatrix).1.inner 0
      = [] := by
  refine ⟨?_, ?_, ?_, ?_⟩ <;>
    simp [SparseMatrixExt.slice, SparseMatrixExt.inner, SparseMatrixExt.insert, insertEntry,
      sliceWhile, forLoop, loopFrom, tallMatrix, emptyMatrix, List.modify, List.modifyTailIdx,
      List.modifyHead]

/-- C21 as stated fails on the code: `CFWeightTotals` adds to the buffer it is given. On the
1×1 matrix that stores 2, the two calls from a zeroed `norm_total` leave `norm_total[0] = 2`
and the stored value 1; repeating the two calls on that buffer leaves `norm_total[0] = 3` and
the stored value `1/3`, so the repetition changes the matrix. -/
theorem totals_normalize_counterexample :
    oneEntryMatrix.colSum 0 ≠ 0 ∧
    oneEntryMatrix.CFWeightTotals (fun _ => 0) 0 = 2 ∧
    (oneEntryMatrix.DivisiveNormalizeL1 (oneEntryMatrix.CFWeightTotals (fun _ => 0))).inner 0
      = [(0, 1)] ∧
    (oneEntryMatrix.DivisiveNormalizeL1 (oneEntryMatrix.CFWeightTotals (fun _ => 0))).CFWeightTotals
      (oneEntryMatrix.CFWeightTotals (fun _ => 0)) 0 = 3 ∧
    ((oneEntryMatrix.DivisiveNormalizeL1
        (oneEntryMatrix.CFWeightTotals (fun _ => 0))).DivisiveNormalizeL1
      ((oneEntryMatrix.DivisiveNormalizeL1
          (oneEntryMatrix.CFWeightTotals (fun _ => 0))).CFWeightTotals
        (oneEntryMatrix.CFWeightTotals (fun _ => 0)))).inner 0 = [(0, 1 / 3)] ∧
    (oneEntryMatrix.DivisiveNormalizeL1
        (oneEntryMatrix.CFWeightTotals (fun _ => 0))).DivisiveNormalizeL1
      ((oneEntryMatrix.DivisiveNormalizeL1
          (oneEntryMatrix.CFWeightTotals (fun _ => 0))).CFWeightTotals
        (oneEntryMatrix.CFWeightTotals (fun _ => 0)))
      ≠ oneEntryMatrix.DivisiveNormalizeL1 (oneEntryMatrix.CFWeightTotals (fun _ => 0)) := by
  have h0 : oneEntryMatrix.CFWeightTotals (fun _ => 0) 0 = 2 := by
    simp [SparseMatrixExt.CFWeightTotals, SparseMatrixExt.inner, SparseMatrixExt.outerSize,
      oneEntryMatrix, forLoop, loopFrom]
  have h1 : (oneEntryMatrix.DivisiveNormalizeL1
      (oneEntryMatrix.CFWeightTotals (fun _ => 0))).inner 0 = [(0, 1)] := by
    rw [(DivisiveNormalizeL1_spec _ _).2.2 0, h0]
    simp [SparseMatrixExt.inner, oneEntryMatrix]
  have h2 : (oneEntryMatrix.DivisiveNormalizeL1
      (oneEntryMatrix.CFWeightTotals (fun _ => 0))).CFWeightTotals
      (oneEntryMatrix.CFWeightTotals (fun _ => 0)) 0 = 3 := by
    rw [CFWeightTotals_apply, h0]
    unfold SparseMatrixExt.colSum SparseMatrixExt.outerSize
    rw [h1, (DivisiveNormalizeL1_spec _ _).2.1]
    simp [oneEntryMatrix]
    norm_num
  have h3 : ((oneEntryMatrix.DivisiveNormalizeL1
        (oneEntryMatrix.CFWeightTotals (fun _ => 0))).DivisiveNormalizeL1
      ((oneEntryMatrix.DivisiveNormalizeL1
          (oneEntryMatrix.CFWeightTotals (fun _ => 0))).CFWeightTotals
        (oneEntryMatrix.CFWeightTotals (fun _ => 0)))).inner 0 = [(0, 1 / 3)] := by
    rw [(DivisiveNormalizeL1_spec _ _).2.2 0, h2, h1]
    simp
  refine ⟨?_, h0, h1, h2, h3, ?_⟩
  · simp [SparseMatrixExt.colSum, SparseMatrixExt.inner, oneEntryMatrix]
  · intro h
    have h4 := congrArg (fun m : SparseMatrixExt => m.inner 0) h
    simp only [h3, h1] at h4
    norm_num at h4

/-- C21, amended. From a `norm_total` of zeros, `CFWeightTotals` followed by
`DivisiveNormalizeL1` multiplies every stored value of a column of nonzero signed sum by
`1 / sum`, so that the column then sums to exactly 1; repeating the two calls with
`norm_total` set to zeros again leaves that column unchanged, and leaves the whole matrix
unchanged when every column has a nonzero sum. -/
theorem totals_normalize_unit (m : SparseMatrixExt) (c : Nat) (hc : m.colSum c ≠ 0) :
    (m.DivisiveNormalizeL1 (m.CFWeightTotals (fun _ => 0))).inner c
      = (m.inner c).map (fun it => (it.1, it.2 * (1 / m.colSum c))) ∧
    (m.DivisiveNormalizeL1 (m.CFWeightTotals (fun _ => 0))).colSum c = 1 ∧
    ((m.DivisiveNormalizeL1 (m.CFWeightTotals (fun _ => 0))).DivisiveNormalizeL1
      ((m.DivisiveNormalizeL1 (m.CFWeightTotals (fun _ => 0))).CFWeightTotals
        (fun _ => 0))).inner c
      = (m.DivisiveNormalizeL1 (m.CFWeightTotals (fun _ => 0))).inner c ∧
    ((∀ k, k < m.outerSize → m.colSum k ≠ 0) →
      (m.DivisiveNormalizeL1 (m.CFWeightTotals (fun _ => 0))).DivisiveNormalizeL1
        ((m.DivisiveNormalizeL1 (m.CFWeightTotals (fun _ => 0))).CFWeightTotals (fun _ => 0))
        = m.DivisiveNormalizeL1 (m.CFWeightTotals (fun _ => 0))) := by
  refine ⟨normalize_round_inner m c, normalize_round_colSum m c hc,
    normalize_round_fixed _ c (normalize_round_colSum m c hc), ?_⟩
  intro hall
  apply matrix_ext
  · exact (DivisiveNormalizeL1_spec _ _).1
  · exact (DivisiveNormalizeL1_spec _ _).2.1
  · intro k
    by_cases hk : k < m.outerSize
    · exact normalize_round_fixed _ k (normalize_round_colSum m k (hall k hk))
    · have e : (m.DivisiveNormalizeL1 (m.CFWeightTotals (fun _ => 0))).inner k = [] := by
        rw [normalize_round_inner, inner_of_ge m k hk]
        rfl
      rw [normalize_round_inner, e]
      rfl

/-- C21, amended, at a concrete input: column 0 of the example matrix stores 1 and 2, of
sum 3. -/
theorem totals_normalize_unit_witness :
    exampleSparse.colSum 0 ≠ 0 ∧
    (exampleSparse.DivisiveNormalizeL1 (exampleSparse.CFWeightTotals (fun _ => 0))).colSum 0
      = 1 :=
  ⟨by simp [SparseMatrixExt.colSum, SparseMatrixExt.inner, exampleSparse]; norm_num,
   (totals_normalize_unit exampleSparse 0
      (by simp [SparseMatrixExt.colSum, SparseMatrixExt.inner, exampleSparse]; norm_num)).2.1⟩

end Topographica
